import Mathlib

/-!
Shallow embedding of the sound-gambit look-ahead peak limiter
(src/peaklim.cc, src/upsampler.cc, src/sound-gambit.cc) over exact
rational arithmetic.  Every C `float` value is modelled as a `ℚ`; the
float literals of the source (`1.2e-3f`, `6.28f`, `1e-20f`, `1e-9f`)
are carried over as the exact rationals they denote, so the embedding
is the exact-real-arithmetic semantics of the source code.  C `int`
counters that can only move inside `ℕ` ranges are `ℕ`; the counters
`_hold` and `_c2`, which the source decrements before comparing with
zero, are `ℤ` so that the embedding agrees with the C semantics on all
states.  Ring-buffer masking `x & _dmask` (with `_dmask = _dsize - 1`
and `_dsize` a power of two) is embedded as `x % _dsize`; the lemma
`land_two_pow_sub_one_eq_mod` below proves the two operations agree.
-/

set_option maxRecDepth 8000000
set_option maxHeartbeats 8000000

namespace SoundGambit

set_option allowUnsafeReducibility true in
attribute [semireducible] Rat.add Rat.mul Rat.inv Rat.sub Rat.div Rat.ofScientific

/-- C `fabsf`, exactly. -/
def fabsf (x : ℚ) : ℚ := if x < 0 then -x else x

/-- C++ `std::max(a, b)` (`(a < b) ? b : a`). -/
def cppmax (a b : ℚ) : ℚ := if a < b then b else a

/-! ## Histmin: the sliding-window minimum filter (src/peaklim.cc lines 25-62)

Modelled from the spec: the class constants `SIZE` and `MASK` live in the
header `peaklim.h`, which is not among the repository files here; spec §9
fixes the ring capacity at 16 with bitmask indexing, so `SIZE = 16`,
`MASK = 15`.  `(i + j) & MASK` on a possibly negative C `int` is
two's-complement masking, i.e. the nonnegative residue `(i + j).emod 16`. -/
def SIZE : ℕ := 16

def MASK : ℕ := 15

structure Histmin where
  hist : ℕ → ℚ
  hlen : ℕ
  hold : ℤ
  wind : ℕ
  vmin : ℚ

/-- Histmin::init: window length `hlen` (the source asserts `hlen ≤ SIZE`),
all history slots and the cached minimum set to 1. -/
def Histmin.init (hlen : ℕ) : Histmin :=
  { hist := fun _ => 1, hlen := hlen, hold := (hlen : ℤ), wind := 0, vmin := 1 }

/-- One iteration of the rescan loop in Histmin::write, at loop counter
`k` (the source iterates `j = 1 - _hlen, …, -1`; here `j = k + 1 - hlen`
so `k` runs over `0, …, hlen - 2` in the same order; `(i + j) & MASK` on
the possibly negative C `int` is the nonnegative residue `(i + j) % 16`
on `ℤ`). -/
def Histmin.scanStep (hist : ℕ → ℚ) (i hlen : ℕ) (k : ℕ) (p : ℚ × ℤ) : ℚ × ℤ :=
  if hist ((((i : ℤ) + ((k : ℤ) + 1 - (hlen : ℤ))) % 16).toNat) < p.1
  then (hist ((((i : ℤ) + ((k : ℤ) + 1 - (hlen : ℤ))) % 16).toNat), (hlen : ℤ) + ((k : ℤ) + 1 - (hlen : ℤ)))
  else p

/-- Histmin::write: store `v`, maintain the cached minimum and its hold
countdown, return the new window minimum. -/
def Histmin.write (h : Histmin) (v : ℚ) : Histmin × ℚ :=
  let i := h.wind
  let hist := Function.update h.hist i v
  let vh : ℚ × ℤ :=
    if v ≤ h.vmin then (v, (h.hlen : ℤ))
    else if h.hold - 1 = 0 then
      (List.range (h.hlen - 1)).foldl (fun p k => Histmin.scanStep hist i h.hlen k p)
        (v, (h.hlen : ℤ))
    else (h.vmin, h.hold - 1)
  ({ hist := hist, hlen := h.hlen, hold := vh.2, wind := (i + 1) % 16, vmin := vh.1 }, vh.1)

/-- Run Histmin from `Histmin.init hlen` over a stream of values, keeping
the value returned by the last write (1, the initial `vmin`, when the
stream is empty). -/
def histRun (hlen : ℕ) (vs : List ℚ) : Histmin × ℚ :=
  vs.foldl (fun p v => (p.1.write v)) (Histmin.init hlen, 1)

/-! ## The 4x true-peak upsampler core (src/upsampler.cc lines 76-136)

The same 48-tap, 3-phase FIR block appears verbatim inside
Peaklim::process (src/peaklim.cc lines 259-316); it is embedded once
here and referenced from both places. -/
def phase1 : List ℚ := [
  -2330790 / 10 ^ 11, 1321291 / 10 ^ 10, -3394408 / 10 ^ 10, 6562235 / 10 ^ 10,
  -1094138 / 10 ^ 9, 1665807 / 10 ^ 9, -2385230 / 10 ^ 9, 3268371 / 10 ^ 9,
  -4334012 / 10 ^ 9, 5604985 / 10 ^ 9, -7109989 / 10 ^ 9, 8886314 / 10 ^ 9,
  -1098403 / 10 ^ 8, 1347264 / 10 ^ 8, -1645206 / 10 ^ 8, 2007155 / 10 ^ 8,
  -2456432 / 10 ^ 8, 3031531 / 10 ^ 8, -3800644 / 10 ^ 8, 4896667 / 10 ^ 8,
  -6616853 / 10 ^ 8, 9788141 / 10 ^ 8, -1788607 / 10 ^ 7, 9000753 / 10 ^ 7,
  2993829 / 10 ^ 7, -1269367 / 10 ^ 7, 7922398 / 10 ^ 8, -5647748 / 10 ^ 8,
  4295093 / 10 ^ 8, -3385706 / 10 ^ 8, 2724946 / 10 ^ 8, -2218943 / 10 ^ 8,
  1816976 / 10 ^ 8, -1489313 / 10 ^ 8, 1217411 / 10 ^ 8, -9891211 / 10 ^ 9,
  7961470 / 10 ^ 9, -6326144 / 10 ^ 9, 4942202 / 10 ^ 9, -3777065 / 10 ^ 9,
  2805240 / 10 ^ 9, -2006106 / 10 ^ 9, 1362416 / 10 ^ 9, -8592768 / 10 ^ 10,
  4834383 / 10 ^ 10, -2228007 / 10 ^ 10, 6607267 / 10 ^ 11, -2537056 / 10 ^ 12
]

def phase2 : List ℚ := [
  -1450055 / 10 ^ 11, 1359163 / 10 ^ 10, -3928527 / 10 ^ 10, 8006445 / 10 ^ 10,
  -1375510 / 10 ^ 9, 2134915 / 10 ^ 9, -3098103 / 10 ^ 9, 4286860 / 10 ^ 9,
  -5726614 / 10 ^ 9, 7448018 / 10 ^ 9, -9489286 / 10 ^ 9, 1189966 / 10 ^ 8,
  -1474471 / 10 ^ 8, 1811472 / 10 ^ 8, -2213828 / 10 ^ 8, 2700557 / 10 ^ 8,
  -3301023 / 10 ^ 8, 4062971 / 10 ^ 8, -5069345 / 10 ^ 8, 6477499 / 10 ^ 8,
  -8625619 / 10 ^ 8, 1239454 / 10 ^ 7, -2101678 / 10 ^ 7, 6359382 / 10 ^ 7,
  6359382 / 10 ^ 7, -2101678 / 10 ^ 7, 1239454 / 10 ^ 7, -8625619 / 10 ^ 8,
  6477499 / 10 ^ 8, -5069345 / 10 ^ 8, 4062971 / 10 ^ 8, -3301023 / 10 ^ 8,
  2700557 / 10 ^ 8, -2213828 / 10 ^ 8, 1811472 / 10 ^ 8, -1474471 / 10 ^ 8,
  1189966 / 10 ^ 8, -9489286 / 10 ^ 9, 7448018 / 10 ^ 9, -5726614 / 10 ^ 9,
  4286860 / 10 ^ 9, -3098103 / 10 ^ 9, 2134915 / 10 ^ 9, -1375510 / 10 ^ 9,
  8006445 / 10 ^ 10, -3928527 / 10 ^ 10, 1359163 / 10 ^ 10, -1450055 / 10 ^ 11
]

def phase3 : List ℚ := [
  -2537056 / 10 ^ 12, 6607267 / 10 ^ 11, -2228007 / 10 ^ 10, 4834383 / 10 ^ 10,
  -8592768 / 10 ^ 10, 1362416 / 10 ^ 9, -2006106 / 10 ^ 9, 2805240 / 10 ^ 9,
  -3777065 / 10 ^ 9, 4942202 / 10 ^ 9, -6326144 / 10 ^ 9, 7961470 / 10 ^ 9,
  -9891211 / 10 ^ 9, 1217411 / 10 ^ 8, -1489313 / 10 ^ 8, 1816976 / 10 ^ 8,
  -2218943 / 10 ^ 8, 2724946 / 10 ^ 8, -3385706 / 10 ^ 8, 4295093 / 10 ^ 8,
  -5647748 / 10 ^ 8, 7922398 / 10 ^ 8, -1269367 / 10 ^ 7, 2993829 / 10 ^ 7,
  9000753 / 10 ^ 7, -1788607 / 10 ^ 7, 9788141 / 10 ^ 8, -6616853 / 10 ^ 8,
  4896667 / 10 ^ 8, -3800644 / 10 ^ 8, 3031531 / 10 ^ 8, -2456432 / 10 ^ 8,
  2007155 / 10 ^ 8, -1645206 / 10 ^ 8, 1347264 / 10 ^ 8, -1098403 / 10 ^ 8,
  8886314 / 10 ^ 9, -7109989 / 10 ^ 9, 5604985 / 10 ^ 9, -4334012 / 10 ^ 9,
  3268371 / 10 ^ 9, -2385230 / 10 ^ 9, 1665807 / 10 ^ 9, -1094138 / 10 ^ 9,
  6562235 / 10 ^ 10, -3394408 / 10 ^ 10, 1321291 / 10 ^ 10, -2330790 / 10 ^ 11
]

/-- Dot product of the 48-sample history `r` against a coefficient list. -/
def firdot (r : ℕ → ℚ) (cs : List ℚ) : ℚ :=
  (cs.enum.map (fun p => r p.1 * p.2)).sum

/-- The four phase outputs of the 4x upsampler at the moment the new
sample `x` has been stored at `r[47]`: `u[0]` is the identity phase,
`u[1] … u[3]` the three FIR interpolation phases. -/
def phases (r : ℕ → ℚ) (x : ℚ) : ℚ × ℚ × ℚ × ℚ :=
  let r1 := Function.update r 47 x
  (r1 47, firdot r1 phase1, firdot r1 phase2, firdot r1 phase3)

/-- Upsampler::process_one on one channel history: push `x`, compute the
four phases, shift the history left by one, and return the new history
together with the maximum phase magnitude. -/
def Upsampler.process_one (r : ℕ → ℚ) (x : ℚ) : (ℕ → ℚ) × ℚ :=
  let r1 := Function.update r 47 x
  let u := phases r x
  let r2 := fun i => if i < 47 then r1 (i + 1) else r1 i
  let p1 := cppmax (fabsf u.1) (fabsf u.2.1)
  let p2 := cppmax (fabsf u.2.2.1) (fabsf u.2.2.2)
  (r2, cppmax p1 p2)

/-- Upsampler::init zeroes each 48-sample channel history. -/
def Upsampler.initChan : ℕ → ℚ := fun _ => 0

/-- Input stream consisting of a unit impulse at time 0. -/
def upsImp : ℕ → ℚ := fun t => if t = 0 then 1 else 0

/-- The channel history of a freshly initialised upsampler channel after
`t` steps of the impulse stream. -/
def upsStateAt : ℕ → (ℕ → ℚ)
  | 0 => Upsampler.initChan
  | t + 1 => (Upsampler.process_one (upsStateAt t) (upsImp (t))).1

/-- The value returned by the `t`-th call (counting from 0) of
`Upsampler.process_one` on the impulse stream. -/
def upsRet (t : ℕ) : ℚ := (Upsampler.process_one (upsStateAt t) (upsImp t)).2

/-! ## The limiter engine (src/peaklim.cc lines 64-395) -/
/-- Modelled from the spec: the header `peaklim.h` fixing `MAXCHAN` is not
among the repository files here; `Peaklim::init` clamps the requested
channel count to it (src/peaklim.cc lines 126-128).  The value is fixed as
64; no theorem below depends on the exact value. -/
def MAXCHAN : ℕ := 64

/-- The limiter state.  Field names follow the source without the leading
underscore.  `dbuff` is the per-channel delay ring (channel, raw index),
`z` the per-channel 48-sample true-peak histories, `zarr`-style access
only ever touches channels below `nchan` and indices below 48, so the
null pointers of unconfigured channels are modelled as zero buffers.
Fields the C constructor leaves uninitialised default to zero here. -/
structure Peaklim where
  fsamp : ℚ := 0
  nchan : ℕ := 0
  truepeak : Bool := false
  rstat : Bool := false
  peak : ℚ := 0
  gmax : ℚ := 1
  gmin : ℚ := 1
  dbuff : ℕ → ℕ → ℚ := fun _ _ => 0
  zlf : ℕ → ℚ := fun _ => 0
  z : ℕ → ℕ → ℚ := fun _ _ => 0
  hist1 : Histmin := Histmin.init 1
  hist2 : Histmin := Histmin.init 1
  div1 : ℕ := 0
  div2 : ℕ := 0
  delay : ℕ := 0
  dsize : ℕ := 0
  dmask : ℕ := 0
  delri : ℕ := 0
  c1 : ℕ := 0
  c2 : ℤ := 0
  m1 : ℚ := 0
  m2 : ℚ := 0
  wlf : ℚ := 0
  w1 : ℚ := 0
  w2 : ℚ := 0
  w3 : ℚ := 0
  z1 : ℚ := 0
  z2 : ℚ := 0
  z3 : ℚ := 0
  gt : ℚ := 0
  g0 : ℚ := 0
  g1 : ℚ := 0
  dg : ℚ := 0

/-- The Peaklim constructor: the C constructor sets `_fsamp = 0`,
`_nchan = 0`, `_rstat = false`, `_peak = 0`, `_gmax = _gmin = 1`,
`_truepeak = false` and nulls the buffer pointers; every other member is
uninitialised until `init` runs (zero here). -/
def Peaklim.new : Peaklim := {}

/-- Peaklim::fini: frees the per-channel buffers and zeroes the channel
count. -/
def Peaklim.fini (s : Peaklim) : Peaklim :=
  { s with dbuff := fun _ _ => 0, nchan := 0 }

/-- Peaklim::set_inpgain stores `_g1 = powf(10, 0.05 v)`.  The dB-to-linear
map is a strictly positive transcendental bijection that exact rational
arithmetic cannot express, so the setter is modelled as receiving the
linear gain factor (`v > 0` for every dB argument) directly. -/
def Peaklim.set_inpgain_lin (s : Peaklim) (v : ℚ) : Peaklim :=
  { s with g1 := v }

/-- Peaklim::set_threshold stores `_gt = powf(10, -0.05 v)`.  As with
`set_inpgain_lin`, the setter is modelled as receiving the linear factor
`gt = 10^(-v/20)` directly; a threshold `v ≤ 0` dBFS corresponds exactly
to `gt ≥ 1`. -/
def Peaklim.set_threshold_lin (s : Peaklim) (v : ℚ) : Peaklim :=
  { s with gt := v }

/-- Peaklim::set_release: clamp the release time to `[10⁻³, 1]` seconds
and set `_w3 = 1 / (v · fsamp)`. -/
def Peaklim.set_release (s : Peaklim) (v : ℚ) : Peaklim :=
  let v1 := if v > 1 then 1 else v
  let v2 := if v1 < 1 / 1000 then 1 / 1000 else v1
  { s with w3 := 1 / (v2 * s.fsamp) }

/-- Peaklim::set_truepeak: a no-op when unchanged, otherwise zero the
true-peak histories and flip the flag (the source zeroes the 48 entries
of each configured channel; unconfigured channels are never read, so the
model zeroes them all). -/
def Peaklim.set_truepeak (s : Peaklim) (v : Bool) : Peaklim :=
  if s.truepeak = v then s
  else { s with z := fun _ _ => 0, truepeak := v }

/-- Loop embedding of `for (_dsize = 64; _dsize < target; _dsize *= 2);`.
The C loop always terminates; a fuel of `target` steps is more than
enough (doubling from 64 reaches any target within `target` steps), which
`ringSize_ge_target` below makes precise. -/
def growLoop (target : ℕ) : ℕ → ℕ → ℕ
  | s, 0 => s
  | s, fuel + 1 => if s < target then growLoop target (2 * s) fuel else s

/-- The allocated ring size: 64 doubled until it reaches `target`. -/
def ringSize (target : ℕ) : ℕ := growLoop target 64 target

/-- The sample-rate dependent coarse divider `_div1` chosen by
Peaklim::init (lines 131-136). -/
def div1Of (fsamp : ℚ) : ℕ :=
  if fsamp > 130000 then 32 else if fsamp > 65000 then 16 else 8

/-- The look-ahead length in coarse chunks, `k1 = ceil(1.2e-3 * fsamp / div1)`
(line 138); `ceil` of the exact rational replaces `ceilf` of the float
computation. -/
def k1Of (fsamp : ℚ) : ℕ :=
  ⌈(3 / 2500 : ℚ) * fsamp / (div1Of fsamp : ℚ)⌉.toNat

/-- Peaklim::init (src/peaklim.cc lines 120-171). -/
def Peaklim.init (fsamp : ℚ) (nchan0 : ℕ) (s : Peaklim) : Peaklim :=
  let s0 := s.fini
  let nchan := if nchan0 > MAXCHAN then MAXCHAN else nchan0
  let div1 : ℕ := div1Of fsamp
  let k1 : ℕ := k1Of fsamp
  let k2 : ℕ := 12
  let delay := k1 * div1
  let dsize := ringSize (delay + div1)
  let w1 : ℚ := 10 / (delay : ℚ)
  { s0 with
    fsamp := fsamp
    nchan := nchan
    div1 := div1
    div2 := 8
    delay := delay
    dsize := dsize
    dmask := dsize - 1
    delri := 0
    dbuff := fun _ _ => 0
    hist1 := Histmin.init (k1 + 1)
    hist2 := Histmin.init k2
    c1 := div1
    c2 := 8
    m1 := 0
    m2 := 0
    wlf := (157 / 25 : ℚ) * 500 / fsamp
    w1 := w1
    w2 := w1 / 8
    w3 := 1 / ((1 / 100 : ℚ) * fsamp)
    zlf := fun _ => 0
    z1 := 1
    z2 := 1
    z3 := 1
    gt := 1
    g0 := 1
    g1 := 1
    dg := 0
    gmax := 1
    gmin := 1 }

/-- Modelled from the spec: `get_latency` lives in the header `peaklim.h`,
not among the repository files here; per spec §4.3 it returns `delay`,
plus the upsampler's 23 samples when true-peak is enabled. -/
def Peaklim.get_latency (s : Peaklim) : ℕ :=
  s.delay + (if s.truepeak then 23 else 0)

/-- Modelled from the spec: `get_stats` (header `peaklim.h`) returns
`(_peak, _gmax, _gmin)` and arms the reset flag consumed at the start of
the next `process` call. -/
def Peaklim.get_stats (s : Peaklim) : Peaklim × ℚ × ℚ × ℚ :=
  ({ s with rstat := true }, s.peak, s.gmax, s.gmin)

/-- The locals of Peaklim::process that live across the while-loop
(src/peaklim.cc lines 220-242): read/write ring indices, the input/output
frame offset `k`, the two history minima, the running peaks, the three
envelopes, the statistics accumulators, and the produced output stream. -/
structure Loc where
  ri : ℕ
  wi : ℕ
  k : ℕ
  h1 : ℚ
  h2 : ℚ
  m1 : ℚ
  m2 : ℚ
  z1 : ℚ
  z2 : ℚ
  z3 : ℚ
  pk : ℚ
  t0 : ℚ
  t1 : ℚ
  out : List ℚ

/-- The per-channel registers of the detection loop (lines 250-252):
the gain ramp copy `g`, the channel low-pass state `z`, the channel
true-peak history `r`, the channel delay buffer, and the shared running
maxima `m1`, `m2`. -/
structure ChanSt where
  g : ℚ
  z : ℚ
  r : ℕ → ℚ
  buf : ℕ → ℚ
  m1 : ℚ
  m2 : ℚ

/-- One sample of the detection loop (lines 253-329): apply the input
gain, write the delay ring at the raw index `wi + i`, advance the
one-pole low-pass with the denormal bias `1e-20`, measure the digital
peak (or the 4x-upsampled true peak), and fold both maxima. -/
def detStep (wlf d : ℚ) (tp : Bool) (nchan j k wi : ℕ) (inp : ℕ → ℚ) (i : ℕ)
    (c : ChanSt) : ChanSt :=
  let x := c.g * inp (j + (i + k) * nchan)
  let g := c.g + d
  let buf := Function.update c.buf (wi + i) x
  let z := c.z + wlf * (x - c.z) + 1 / 10 ^ 20
  let rx : (ℕ → ℚ) × ℚ := if tp then Upsampler.process_one c.r x else (c.r, fabsf x)
  let m1 := if rx.2 > c.m1 then rx.2 else c.m1
  let m2 := if fabsf z > c.m2 then fabsf z else c.m2
  { g := g, z := z, r := rx.1, buf := buf, m1 := m1, m2 := m2 }

/-- The detection loop over the first `n` samples of the span, in order
`i = 0, …, n-1`. -/
def detLoop (wlf d : ℚ) (tp : Bool) (nchan j k wi : ℕ) (inp : ℕ → ℚ) : ℕ → ChanSt → ChanSt
  | 0, c => c
  | n + 1, c => detStep wlf d tp nchan j k wi inp n (detLoop wlf d tp nchan j k wi inp n c)

/-- The pieces of engine state the channel loop of a span mutates. -/
structure DetSt where
  dbuff : ℕ → ℕ → ℚ
  zlf : ℕ → ℚ
  zarr : ℕ → ℕ → ℚ
  m1 : ℚ
  m2 : ℚ
  g : ℚ

/-- Channel `j` of the detection loop (lines 249-331): start from fresh
copies `g = g0`, `z = zlf j`, run the sample loop, then commit the
channel's low-pass state, buffer and history. -/
def chanStep (g0 dg wlf : ℚ) (tp : Bool) (nchan : ℕ) (inp : ℕ → ℚ) (n k wi : ℕ)
    (j : ℕ) (d : DetSt) : DetSt :=
  let c0 : ChanSt := { g := g0, z := d.zlf j, r := d.zarr j, buf := d.dbuff j,
                       m1 := d.m1, m2 := d.m2 }
  let c := detLoop wlf dg tp nchan j k wi inp n c0
  { dbuff := Function.update d.dbuff j c.buf
    zlf := Function.update d.zlf j c.z
    zarr := Function.update d.zarr j c.r
    m1 := c.m1
    m2 := c.m2
    g := c.g }

/-- The channel loop over channels `j = 0, …, nch-1` in order. -/
def chanLoop (g0 dg wlf : ℚ) (tp : Bool) (nchan : ℕ) (inp : ℕ → ℚ) (n k wi : ℕ) :
    ℕ → DetSt → DetSt
  | 0, d => d
  | j + 1, d => chanStep g0 dg wlf tp nchan inp n k wi j
      (chanLoop g0 dg wlf tp nchan inp n k wi j d)

/-- The whole detection phase of one span: the channel loop started from
the engine's buffers with `g = _g0` (so `nchan = 0` commits `_g0`
unchanged, as in the source), committed back into the engine state and
the span locals. -/
def spanDetect (p : Peaklim) (l : Loc) (inp : ℕ → ℚ) (n : ℕ) : Peaklim × Loc :=
  let d0 : DetSt := { dbuff := p.dbuff, zlf := p.zlf, zarr := p.z,
                      m1 := l.m1, m2 := l.m2, g := p.g0 }
  let d := chanLoop p.g0 p.dg p.wlf p.truepeak p.nchan inp n l.k l.wi p.nchan d0
  ({ p with dbuff := d.dbuff, zlf := d.zlf, z := d.zarr, g0 := d.g },
   { l with m1 := d.m1, m2 := d.m2 })

/-- The coarse-chunk boundary work (lines 335-358), entered when `_c1`
has just reached 0: scale `m1` by the threshold factor, track the peak
statistic, push the inverse gain into `hist1`, reset the chunk, and every
`div2`-th time do the same for the low-passed path and recompute the
input-gain ramp. -/
def boundary (p : Peaklim) (l : Loc) : Peaklim × Loc :=
  let m1 := l.m1 * p.gt
  let pk := if m1 > l.pk then m1 else l.pk
  let hw1 := p.hist1.write (if m1 > 1 then 1 / m1 else 1)
  let c2 := p.c2 - 1
  if c2 = 0 then
    let m2 := l.m2 * p.gt
    let hw2 := p.hist2.write (if m2 > 1 then 1 / m2 else 1)
    let dg0 := p.g1 - p.g0
    let gd : ℚ × ℚ :=
      if fabsf dg0 < 1 / 10 ^ 9 then (p.g1, 0)
      else (p.g0, dg0 / ((p.div1 * p.div2 : ℕ) : ℚ))
    ({ p with hist1 := hw1.1, hist2 := hw2.1, c1 := p.div1, c2 := (p.div2 : ℤ), g0 := gd.1, dg := gd.2 },
     { l with m1 := 0, m2 := 0, h1 := hw1.2, h2 := hw2.2, pk := pk })
  else
    ({ p with hist1 := hw1.1, c1 := p.div1, c2 := c2 },
     { l with m1 := 0, h1 := hw1.2, pk := pk })

/-- One sample of the envelope/output loop (lines 360-378): smooth `z1`
and `z2` toward the history minima, combine, attack/release `z3`, track
the gain extrema, and emit one frame `out[j] = z3 * dbuff[j][ri + i]`. -/
def outStep (p : Peaklim) (i : ℕ) (l : Loc) : Loc :=
  let z1 := l.z1 + p.w1 * (l.h1 - l.z1)
  let z2 := l.z2 + p.w2 * (l.h2 - l.z2)
  let zz := if z2 < z1 then z2 else z1
  let z3 := if zz < l.z3 then l.z3 + p.w1 * (zz - l.z3) else l.z3 + p.w3 * (zz - l.z3)
  let t1 := if z3 > l.t1 then z3 else l.t1
  let t0 := if z3 < l.t0 then z3 else l.t0
  let frame := (List.range p.nchan).map (fun j => z3 * p.dbuff j (l.ri + i))
  { l with z1 := z1, z2 := z2, z3 := z3, t0 := t0, t1 := t1, out := l.out ++ frame }

/-- The envelope/output loop over samples `i = 0, …, n-1` in order. -/
def outLoop (p : Peaklim) : ℕ → Loc → Loc
  | 0, l => l
  | i + 1, l => outStep p i (outLoop p i l)

/-- The tail of one while-loop iteration after the boundary decision:
the output loop and the masked advance of the ring indices and the frame
offset. -/
def spanFinish (n : ℕ) (pl2 : Peaklim × Loc) : Peaklim × Loc :=
  let l := outLoop pl2.1 n pl2.2
  (pl2.1,
   { l with wi := (l.wi + n) % pl2.1.dsize, ri := (l.ri + n) % pl2.1.dsize, k := l.k + n })

/-- One iteration of the while-loop of Peaklim::process for an inner span
of `n` samples: detection, `_c1 -= n` with the boundary work when it hits
zero, the output loop, then the masked advance of both ring indices and
of the frame offset `k`. -/
def doSpan (inp : ℕ → ℚ) (n : ℕ) (pl : Peaklim × Loc) : Peaklim × Loc :=
  let pl1 := spanDetect pl.1 pl.2 inp n
  let c1 := pl1.1.c1 - n
  spanFinish n
    (if c1 = 0 then boundary { pl1.1 with c1 := c1 } pl1.2
     else ({ pl1.1 with c1 := c1 }, pl1.2))

/-- The while-loop of Peaklim::process: spans of `n = min(_c1, nframes)`
until the block is exhausted.  The loop runs at most `nframes` times
(every span is nonempty when `_c1 ≥ 1`, which `init` establishes and
every span preserves), so structural recursion on a fuel initialised to
`nframes` implements it; `loopGo_fuel` below shows any sufficient fuel
gives the same result.  When `_c1 = 0` (a state the configured engine
never reaches) the C loop would not terminate; the embedding stops. -/
def loopGo (inp : ℕ → ℚ) : ℕ → ℕ → Peaklim × Loc → Peaklim × Loc
  | 0, _, pl => pl
  | fuel + 1, nframes, pl =>
    let n := if pl.1.c1 < nframes then pl.1.c1 else nframes
    if n = 0 then pl
    else loopGo inp fuel (nframes - n) (doSpan inp n pl)

/-- Peaklim::process (src/peaklim.cc lines 217-395).  `inp` is the
interleaved input pointer (index `j + (i + k) * nchan`); the interleaved
output buffer is returned as the list of samples written, in address
order. -/
def Peaklim.process (s : Peaklim) (nframes : ℕ) (inp : ℕ → ℚ) : Peaklim × List ℚ :=
  let ri := s.delri
  let wi := (ri + s.delay) % s.dsize
  let st : ℚ × ℚ × ℚ × Bool :=
    if s.rstat then (0, s.gmax, s.gmin, false) else (s.peak, s.gmin, s.gmax, s.rstat)
  let l0 : Loc := { ri := ri, wi := wi, k := 0,
                    h1 := s.hist1.vmin, h2 := s.hist2.vmin,
                    m1 := s.m1, m2 := s.m2, z1 := s.z1, z2 := s.z2, z3 := s.z3,
                    pk := st.1, t0 := st.2.1, t1 := st.2.2.1, out := [] }
  let pl := loopGo inp nframes nframes ({ s with rstat := st.2.2.2 }, l0)
  ({ pl.1 with delri := pl.2.ri, m1 := pl.2.m1, m2 := pl.2.m2, z1 := pl.2.z1, z2 := pl.2.z2, z3 := pl.2.z3, peak := pl.2.pk, gmin := pl.2.t0, gmax := pl.2.t1 },
   pl.2.out)

/-- What claim C7 ascribes to the source: `delay + D1` rounded up to the
next power of two, i.e. the least power of two that is at least `t`
(doubling from 1 instead of the source's 64). -/
def specRingSize (t : ℕ) : ℕ := growLoop t 1 t

/-- Input used by the C1 counterexample: one sample of amplitude `2^20`,
then silence. -/
def c1inp : ℕ → ℚ := fun m => if m = 0 then 1048576 else 0

/-- The C1 counterexample engine: `init(8000, 1)` followed by
`set_threshold(0 dBFS)` (linear factor 1), digital-peak mode. -/
def c1state : Peaklim := (Peaklim.init 8000 1 Peaklim.new).set_threshold_lin 1

/-- The output stream of the C1 counterexample: 24 frames of `c1inp`. -/
def c1out : List ℚ := (c1state.process 24 c1inp).2

/-- Input used by the C3 counterexample: amplitude 2 on frames 0-3,
amplitude 8 on frames 16-23, silence elsewhere. -/
def c3inp : ℕ → ℚ :=
  fun m => if m < 4 then 2 else if 16 ≤ m ∧ m < 24 then 8 else 0

/-- One-call processing of 24 frames for the C3 counterexample. -/
def c3single : Peaklim × List ℚ := (Peaklim.init 8000 1 Peaklim.new).process 24 c3inp

/-- Split processing `20 + 4` of the same 24 frames from the same state:
the second call reads the input past the first call's frames, and the two
output buffers concatenate. -/
def c3split : Peaklim × List ℚ :=
  let a := (Peaklim.init 8000 1 Peaklim.new).process 20 c3inp
  let b := a.1.process 4 (fun m => c3inp (m + 20 * 1))
  (b.1, a.2 ++ b.2)

/-! ## Claim C2: sliding-minimum correctness -/
/-- The stream seen by the sliding-minimum filter, with the 1-initialised
history supplying a virtual value 1 at every index before the start (and
`getD`'s default 1 beyond the end, which no theorem uses). -/
def sv (vs : List ℚ) (m : ℤ) : ℚ :=
  if 0 ≤ m then vs.getD m.toNat 1 else 1

/-- Minimum of `f 0, …, f m`. -/
def wmin (f : ℕ → ℚ) : ℕ → ℚ
  | 0 => f 0
  | m + 1 => min (wmin f m) (f (m + 1))

/-- The value `j` steps back from the end of the stream (`j = 0` is the
most recent value). -/
def winf (vs : List ℚ) (j : ℕ) : ℚ := sv vs ((vs.length : ℤ) - 1 - (j : ℤ))

/-- The minimum of the last `L` stream values (1-padded at the start). -/
def winMin (vs : List ℚ) (L : ℕ) : ℚ := wmin (winf vs) (L - 1)

/-- Minimum of a list of values (1 for the empty list, which no theorem
uses). -/
def minList : List ℚ → ℚ
  | [] => 1
  | [x] => x
  | x :: y :: tl => min x (minList (y :: tl))

/-- The invariant tying a Histmin state to the stream it has absorbed:
the window length is `L`; the write index is the stream length mod 16;
slot `(wind + 15 - j) % 16` holds the value `j` steps back (1 for
positions before the stream's start); `vmin` is the minimum of the last
`L` values; the hold countdown lies in `[1, L]`; and the value
`L - hold` steps back attains `vmin` (so the cached minimum stays valid
for `hold` more writes). -/
def HistInv (L : ℕ) (vs : List ℚ) (h : Histmin) : Prop :=
  h.hlen = L ∧
  h.wind = vs.length % 16 ∧
  (∀ j : ℕ, j < 16 → h.hist ((h.wind + 15 - j) % 16) = winf vs j) ∧
  h.vmin = winMin vs L ∧
  1 ≤ h.hold ∧ h.hold ≤ (L : ℤ) ∧
  winf vs ((L : ℤ) - h.hold).toNat = h.vmin

/-- The branch of Histmin::write that selects the new `(vmin, hold)`. -/
def writeVH (h : Histmin) (v : ℚ) : ℚ × ℤ :=
  if v ≤ h.vmin then (v, (h.hlen : ℤ))
  else if h.hold - 1 = 0 then
    (List.range (h.hlen - 1)).foldl
      (fun p k => Histmin.scanStep (Function.update h.hist h.wind v) h.wind h.hlen k p)
      (v, (h.hlen : ℤ))
  else (h.vmin, h.hold - 1)

/-- The rescan fold, starting from `(v, hlen)` as the source does. -/
def scanFoldAux (hist : ℕ → ℚ) (i L : ℕ) (v : ℚ) (m : ℕ) : ℚ × ℤ :=
  (List.range m).foldl (fun p k => Histmin.scanStep hist i L k p) (v, (L : ℤ))

/-! ## Claim C9: silent input yields silent output -/
/-- States reachable from an `init` by processing only silent input. -/
inductive ZeroRun : Peaklim → Prop
  | init (f : ℚ) (c : ℕ) (s : Peaklim) : ZeroRun (Peaklim.init f c s)
  | step (s : Peaklim) (n : ℕ) : ZeroRun s → ZeroRun ((s.process n (fun _ => 0)).1)

/-! ## Claim C5: unmasked ring accesses stay below the allocation -/
/-- States reachable through the public API, with `ok` constraining the
sample rates passed to `init`.  The linear setter models receive the
range of the source's `powf` (strictly positive factors). -/
inductive Reach (ok : ℚ → Prop) : Peaklim → Prop
  | init (f : ℚ) (c : ℕ) (s : Peaklim) : ok f → Reach ok (Peaklim.init f c s)
  | inpgain (s : Peaklim) (v : ℚ) : Reach ok s → 0 < v → Reach ok (s.set_inpgain_lin v)
  | threshold (s : Peaklim) (v : ℚ) : Reach ok s → 0 < v → Reach ok (s.set_threshold_lin v)
  | release (s : Peaklim) (v : ℚ) : Reach ok s → Reach ok (s.set_release v)
  | tp (s : Peaklim) (b : Bool) : Reach ok s → Reach ok (s.set_truepeak b)
  | processStep (s : Peaklim) (n : ℕ) (inp : ℕ → ℚ) : Reach ok s → Reach ok ((s.process n inp).1)

/-- The ring-index facts behind claim C5: the coarse countdown is in
`[1, div1]`, the read index is in range, and read index plus countdown
is chunk-aligned. -/
def InvB (s : Peaklim) : Prop :=
  1 ≤ s.c1 ∧ s.c1 ≤ s.div1 ∧ (s.delri + s.c1) % s.div1 = 0 ∧ s.delri < s.dsize ∧
  s.div1 ∣ s.delay ∧ s.div1 ∣ s.dsize ∧ 0 < s.div1 ∧ 64 ≤ s.dsize

/-- The same ring-index facts with the read index tracked separately
(mid-`process` it lives in the local `ri`, not in `_delri`). -/
def InvL (p : Peaklim) (ri : ℕ) : Prop :=
  1 ≤ p.c1 ∧ p.c1 ≤ p.div1 ∧ (ri + p.c1) % p.div1 = 0 ∧ ri < p.dsize ∧
  p.div1 ∣ p.delay ∧ p.div1 ∣ p.dsize ∧ 0 < p.div1 ∧ 64 ≤ p.dsize

/-- Mirror of the raw (unmasked) delay-ring indices one `process` call
touches, span by span: the detection loop writes `_dbuff[j][wi + i]`
and the output loop reads `_dbuff[j][ri + i]` for `i < n` (see `detStep`
and `outStep`), so the span's accesses stay strictly below `dsize` iff
`wi + n ≤ dsize` and `ri + n ≤ dsize`; the indices then advance exactly
as in `doSpan`/`loopGo`. -/
def sibAux (dsize div1 : ℕ) : ℕ → ℕ → ℕ → ℕ → ℕ → Bool
  | 0, _, _, _, _ => true
  | fuel + 1, c1, ri, wi, nframes =>
    let n := if c1 < nframes then c1 else nframes
    if n = 0 then true
    else (decide (wi + n ≤ dsize) && decide (ri + n ≤ dsize)) &&
      sibAux dsize div1 fuel (if c1 - n = 0 then div1 else c1 - n)
        ((ri + n) % dsize) ((wi + n) % dsize) (nframes - n)

/-- All unmasked accesses of a `process` call of `nframes` frames from
ring state `(c1, ri, wi)` stay strictly below `dsize`. -/
def spansInBounds (dsize div1 c1 ri wi nframes : ℕ) : Bool :=
  sibAux dsize div1 nframes c1 ri wi nframes

/-! ## Claim C6: the envelope range invariant (amended: audio sample rates) -/
/-- `x ∈ (0, 1]`. -/
def zIn (x : ℚ) : Prop := 0 < x ∧ x ≤ 1

/-- Every stored slot and the cached minimum of a history lie in `(0,1]`. -/
def histOK (h : Histmin) : Prop := (∀ i, zIn (h.hist i)) ∧ zIn h.vmin

/-- The envelope invariant behind claim C6: the smoothing weights are in
`(0,1]` (this is where the sample-rate condition enters, via
`w1 = 10/delay`), both histories store `(0,1]` values, and the three
envelopes are in `(0,1]`. -/
def EnvInv (s : Peaklim) : Prop :=
  20000 / 3 < s.fsamp ∧ zIn s.w1 ∧ zIn s.w2 ∧ zIn s.w3 ∧
  histOK s.hist1 ∧ histOK s.hist2 ∧ zIn s.z1 ∧ zIn s.z2 ∧ zIn s.z3

/-- The same invariant mid-`process`, where the envelopes and the two
current history minima live in the span locals. -/
def EnvInvL (pl : Peaklim × Loc) : Prop :=
  20000 / 3 < pl.1.fsamp ∧ zIn pl.1.w1 ∧ zIn pl.1.w2 ∧ zIn pl.1.w3 ∧
  histOK pl.1.hist1 ∧ histOK pl.1.hist2 ∧
  zIn pl.2.z1 ∧ zIn pl.2.z2 ∧ zIn pl.2.z3 ∧ zIn pl.2.h1 ∧ zIn pl.2.h2

/-! ## Claim C1: bounded output (amended: bounded by the input's own bound) -/
/-- Runs of the engine in which every `init` uses a sample rate above
`20000/3` Hz, the input gain is left at its default (no `set_inpgain`
call, so the ramp stays at `g0 = g1 = 1`, `dg = 0`), and every input
sample of every `process` call has magnitude at most `B`. -/
inductive BRun (B : ℚ) : Peaklim → Prop
  | init (f : ℚ) (c : ℕ) (s : Peaklim) : 20000 / 3 < f → 0 ≤ B → BRun B (Peaklim.init f c s)
  | threshold (s : Peaklim) (v : ℚ) : BRun B s → 0 < v → BRun B (s.set_threshold_lin v)
  | release (s : Peaklim) (v : ℚ) : BRun B s → BRun B (s.set_release v)
  | tp (s : Peaklim) (b : Bool) : BRun B s → BRun B (s.set_truepeak b)
  | processStep (s : Peaklim) (n : ℕ) (inp : ℕ → ℚ) : BRun B s →
      (∀ m, |inp m| ≤ B) → BRun B ((s.process n inp).1)

/-- The state invariant behind claim C1: the envelope facts, the
identity gain ramp, and every delay-ring entry bounded by `B`. -/
def BInv (B : ℚ) (s : Peaklim) : Prop :=
  0 ≤ B ∧ EnvInv s ∧ s.g0 = 1 ∧ s.g1 = 1 ∧ s.dg = 0 ∧ ∀ j i, |s.dbuff j i| ≤ B

/-- The same invariant mid-`process`, with the produced output also
bounded by `B`. -/
def BInvL (B : ℚ) (pl : Peaklim × Loc) : Prop :=
  0 ≤ B ∧ EnvInvL pl ∧ pl.1.g0 = 1 ∧ pl.1.g1 = 1 ∧ pl.1.dg = 0 ∧
  (∀ j i, |pl.1.dbuff j i| ≤ B) ∧ ∀ q ∈ pl.2.out, |q| ≤ B

/-! ## Claim C3: block invariance for chunk-aligned splits -/
/-- The second call of a split run reads the same interleaved buffer
advanced by `d` samples. -/
def shiftInp (inp : ℕ → ℚ) (d : ℕ) : ℕ → ℚ := fun m => inp (m + d)

/-- Overwriting exactly the fields `process` commits on return (plus the
statistics-reset flag): none of them is read inside the while-loop. -/
def procCopy (p : Peaklim) (r : Bool) (dri : ℕ) (a1 a2 a3 a4 a5 a6 a7 a8 : ℚ) : Peaklim :=
  { p with rstat := r, delri := dri, m1 := a1, m2 := a2, z1 := a3, z2 := a4, z3 := a5, peak := a6, gmin := a7, gmax := a8 }

/-- The tail of Peaklim::process after the while-loop: commit the locals
into the engine state and return the written samples. -/
def commitOf (pl : Peaklim × Loc) : Peaklim × List ℚ :=
  ({ pl.1 with delri := pl.2.ri, m1 := pl.2.m1, m2 := pl.2.m2, z1 := pl.2.z1, z2 := pl.2.z2, z3 := pl.2.z3, peak := pl.2.pk, gmin := pl.2.t0, gmax := pl.2.t1 },
   pl.2.out)

/-- The full mid-`process` structural invariant of claim C3: the ring
facts, the write index in lockstep with the read index, and the locals
`h1`, `h2` caching the history minima. -/
def CInv (pl : Peaklim × Loc) : Prop :=
  InvL pl.1 pl.2.ri ∧ pl.2.wi = (pl.2.ri + pl.1.delay) % pl.1.dsize ∧
  pl.2.h1 = pl.1.hist1.vmin ∧ pl.2.h2 = pl.1.hist2.vmin

/-- The statistics tuple loaded at the top of Peaklim::process. -/
def stOf (t : Peaklim) : ℚ × ℚ × ℚ × Bool :=
  if t.rstat then ((0 : ℚ), t.gmax, t.gmin, false) else (t.peak, t.gmin, t.gmax, t.rstat)

/-- The span locals loaded at the top of Peaklim::process. -/
def locOf (t : Peaklim) : Loc :=
  { ri := t.delri, wi := (t.delri + t.delay) % t.dsize, k := 0, h1 := t.hist1.vmin, h2 := t.hist2.vmin, m1 := t.m1, m2 := t.m2, z1 := t.z1, z2 := t.z2, z3 := t.z3, pk := (stOf t).1, t0 := (stOf t).2.1, t1 := (stOf t).2.2.1, out := [] }

/-- Batteries marks the core `Rat` arithmetic irreducible, which blocks
elaborator-side evaluation; kernel reduction is unaffected.  Restoring the
default reducibility lets `decide` evaluate the embedding on concrete
inputs. -/
theorem rat_eval_note : True := trivial

/-- Masking by a power-of-two-minus-one bitmask is reduction modulo the
power of two: justifies embedding the source's `x & _dmask` as `x % _dsize`. -/
theorem land_two_pow_sub_one_eq_mod (x e : ℕ) : x &&& (2 ^ e - 1) = x % 2 ^ e := by
  apply Nat.eq_of_testBit_eq
  intro i
  rw [Nat.testBit_land, Nat.testBit_mod_two_pow, Nat.testBit_two_pow_sub_one, Bool.and_comm]

theorem fabsf_eq_abs (x : ℚ) : fabsf x = |x| := by
  unfold fabsf
  rcases lt_or_ge x 0 with h | h
  · rw [if_pos h, abs_of_neg h]
  · rw [if_neg (not_lt.2 h), abs_of_nonneg h]

theorem cppmax_eq_max (a b : ℚ) : cppmax a b = max a b := by
  unfold cppmax
  rcases lt_or_ge a b with h | h
  · rw [if_pos h, max_eq_right h.le]
  · rw [if_neg (not_lt.2 h), max_eq_left h]

/-! ## Ring sizing (claim C7) -/
theorem growLoop_ge_self (target : ℕ) : ∀ fuel s, s ≤ growLoop target s fuel := by
  intro fuel
  induction fuel with
  | zero => intro s; exact le_rfl
  | succ f ih =>
    intro s
    unfold growLoop
    by_cases h : s < target
    · rw [if_pos h]
      calc s ≤ 2 * s := by omega
        _ ≤ growLoop target (2 * s) f := ih (2 * s)
    · rw [if_neg h]

theorem growLoop_reaches (target : ℕ) :
    ∀ fuel s, target ≤ s * 2 ^ fuel → target ≤ growLoop target s fuel := by
  intro fuel
  induction fuel with
  | zero => intro s h; simpa using h
  | succ f ih =>
    intro s h
    unfold growLoop
    by_cases hs : s < target
    · rw [if_pos hs]
      apply ih
      calc target ≤ s * 2 ^ (f + 1) := h
        _ = 2 * s * 2 ^ f := by ring
    · rw [if_neg hs]; omega

theorem growLoop_shape (target : ℕ) :
    ∀ fuel s, ∃ e, growLoop target s fuel = s * 2 ^ e := by
  intro fuel
  induction fuel with
  | zero => intro s; exact ⟨0, by simp [growLoop]⟩
  | succ f ih =>
    intro s
    unfold growLoop
    by_cases h : s < target
    · rw [if_pos h]
      obtain ⟨e, he⟩ := ih (2 * s)
      exact ⟨e + 1, by rw [he]; ring⟩
    · rw [if_neg h]; exact ⟨0, by simp⟩

theorem growLoop_min (target : ℕ) :
    ∀ fuel s c, (∃ k, c = s * 2 ^ k) → target ≤ c → s ≤ c → growLoop target s fuel ≤ c := by
  intro fuel
  induction fuel with
  | zero => intro s c _ _ hsc; simpa [growLoop] using hsc
  | succ f ih =>
    intro s c hk htc hsc
    obtain ⟨k, hkc⟩ := hk
    unfold growLoop
    by_cases h : s < target
    · rw [if_pos h]
      cases k with
      | zero =>
        exfalso
        rw [hkc] at htc
        simp at htc
        omega
      | succ m =>
        have hc2 : c = 2 * s * 2 ^ m := by rw [hkc]; ring
        apply ih (2 * s) c ⟨m, hc2⟩ htc
        rw [hc2]
        have h1 : 1 ≤ 2 ^ m := Nat.one_le_two_pow
        calc 2 * s = 2 * s * 1 := by ring
          _ ≤ 2 * s * 2 ^ m := Nat.mul_le_mul_left (2 * s) h1
    · rw [if_neg h]; exact hsc

theorem ringSize_ge_64 (t : ℕ) : 64 ≤ ringSize t := growLoop_ge_self t t 64

theorem ringSize_ge_target (t : ℕ) : t ≤ ringSize t := by
  apply growLoop_reaches
  calc t ≤ 2 ^ t := (Nat.lt_two_pow t).le
    _ ≤ 64 * 2 ^ t := by omega

theorem ringSize_shape (t : ℕ) : ∃ e, ringSize t = 64 * 2 ^ e := growLoop_shape t t 64

theorem ringSize_min (t c : ℕ) (hk : ∃ k, c = 64 * 2 ^ k) (htc : t ≤ c) :
    ringSize t ≤ c := by
  apply growLoop_min t t 64 c hk htc
  obtain ⟨k, hkc⟩ := hk
  rw [hkc]
  calc 64 = 64 * 1 := by norm_num
    _ ≤ 64 * 2 ^ k := Nat.mul_le_mul_left 64 (Nat.one_le_two_pow)

theorem ringSize_tight (t : ℕ) : ringSize t = 64 ∨ ringSize t < 2 * t := by
  obtain ⟨e, he⟩ := ringSize_shape t
  cases e with
  | zero => left; simpa using he
  | succ m =>
    have hpos : 1 ≤ 64 * 2 ^ m :=
      Nat.one_le_iff_ne_zero.2 (by positivity)
    have hdouble : (64 : ℕ) * 2 ^ (m + 1) = 2 * (64 * 2 ^ m) := by ring
    by_cases h : t ≤ 64 * 2 ^ m
    · have hmin := ringSize_min t (64 * 2 ^ m) ⟨m, rfl⟩ h
      rw [he] at hmin
      omega
    · right
      rw [he]
      omega

theorem init_div1 (f : ℚ) (c : ℕ) (s : Peaklim) : (Peaklim.init f c s).div1 = div1Of f := rfl

theorem init_delay (f : ℚ) (c : ℕ) (s : Peaklim) :
    (Peaklim.init f c s).delay = k1Of f * div1Of f := rfl

theorem init_dsize (f : ℚ) (c : ℕ) (s : Peaklim) :
    (Peaklim.init f c s).dsize = ringSize (k1Of f * div1Of f + div1Of f) := rfl

theorem init_dmask (f : ℚ) (c : ℕ) (s : Peaklim) :
    (Peaklim.init f c s).dmask = (Peaklim.init f c s).dsize - 1 := rfl

/-- Claim C7 (corrected form).  For every `init`, the allocated
per-channel ring size `_dsize` is the least power of two that is at
least 64 and at least `delay + D1` (where `delay = K1 * D1` and
`K1 = ceil(1.2e-3 * fs / D1)`), and the index mask is `_dsize - 1`:
the power-of-two shape, both lower bounds, the tightness property
(`_dsize` is 64 or halving it would drop below `delay + D1`), and the
mask equation.  The claim's own phrasing — `delay + D1` rounded up to
the next power of two with no 64 floor — fails at low sample rates
(see the counterexample). -/
theorem c7_ring_sizing (f : ℚ) (c : ℕ) (s : Peaklim) :
    (∃ e, (Peaklim.init f c s).dsize = 64 * 2 ^ e) ∧
    64 ≤ (Peaklim.init f c s).dsize ∧
    (Peaklim.init f c s).delay + (Peaklim.init f c s).div1 ≤ (Peaklim.init f c s).dsize ∧
    ((Peaklim.init f c s).dsize = 64 ∨
      (Peaklim.init f c s).dsize < 2 * ((Peaklim.init f c s).delay + (Peaklim.init f c s).div1)) ∧
    (Peaklim.init f c s).dmask = (Peaklim.init f c s).dsize - 1 := by
  rw [init_dsize, init_delay, init_div1, init_dmask, init_dsize]
  exact ⟨ringSize_shape _, ringSize_ge_64 _, ringSize_ge_target _, ringSize_tight _, rfl⟩

/-- Claim C7, counterexample.  At `fs = 8000` (`D1 = 8`, `K1 = 2`,
`delay = 16`) the claim predicts `_dsize = 32` (`delay + D1 = 24` rounded
up to the next power of two) but `init` allocates 64, since the source's
sizing loop starts at 64. -/
theorem c7_counterexample :
    (Peaklim.init 8000 1 Peaklim.new).delay = 16 ∧
    (Peaklim.init 8000 1 Peaklim.new).div1 = 8 ∧
    specRingSize ((Peaklim.init 8000 1 Peaklim.new).delay + (Peaklim.init 8000 1 Peaklim.new).div1) = 32 ∧
    (Peaklim.init 8000 1 Peaklim.new).dsize = 64 := by decide

/-- Claim C4 (corrected form).  Calling `init` again with the same
arguments is not a state-preserving no-op: it re-runs the full
reconfiguration.  It is idempotent as a state transformer
(`init ∘ init = init`), and what survives any `init` is exactly the
fields `init` does not touch: `_rstat`, `_peak`, `_truepeak` and the
true-peak histories `_z`. -/
theorem c4_reinit_idempotent (f : ℚ) (c : ℕ) (s : Peaklim) :
    Peaklim.init f c (Peaklim.init f c s) = Peaklim.init f c s ∧
    (Peaklim.init f c s).rstat = s.rstat ∧
    (Peaklim.init f c s).peak = s.peak ∧
    (Peaklim.init f c s).truepeak = s.truepeak ∧
    (Peaklim.init f c s).z = s.z := ⟨rfl, rfl, rfl, rfl, rfl⟩

/-- Claim C4, counterexample.  Re-running `init 8000 1` on an engine that
has processed one coarse chunk of amplitude-8 samples resets the envelope
`_z1` (among much else): the state is not preserved, so the claimed no-op
behaviour (of the later upstream revision) does not hold for this code. -/
theorem c4_counterexample :
    (Peaklim.init 8000 1 ((Peaklim.init 8000 1 Peaklim.new).process 8 (fun m => if m = 0 then 8 else 0)).1).z1 ≠
      (((Peaklim.init 8000 1 Peaklim.new).process 8 (fun m => if m = 0 then 8 else 0)).1).z1 := by decide

/-- Claim C10 (confirmed).  `init` with a channel count above `MAXCHAN`
silently configures exactly `MAXCHAN` channels — the resulting state is
identical to `init` with `MAXCHAN`, `_nchan` is `MAXCHAN`, and every
subsequent `process` call (whose interleave stride is the state's
`_nchan`) behaves as with `MAXCHAN` channels. -/
theorem c10_channel_clamp (f : ℚ) (nchan0 : ℕ) (s : Peaklim) (h : MAXCHAN < nchan0) :
    Peaklim.init f nchan0 s = Peaklim.init f MAXCHAN s ∧
    (Peaklim.init f nchan0 s).nchan = MAXCHAN ∧
    ∀ n inp, (Peaklim.init f nchan0 s).process n inp = (Peaklim.init f MAXCHAN s).process n inp := by
  have h1 : Peaklim.init f nchan0 s = Peaklim.init f MAXCHAN s := by
    unfold Peaklim.init
    rw [if_pos h, if_neg (lt_irrefl MAXCHAN)]
  refine ⟨h1, ?_, fun n inp => by rw [h1]⟩
  rw [h1]
  rfl

/-- Claim C10, witness at `nchan = 100`. -/
theorem c10_channel_clamp_witness :
    MAXCHAN < 100 ∧
    (Peaklim.init 8000 100 Peaklim.new = Peaklim.init 8000 MAXCHAN Peaklim.new ∧
      (Peaklim.init 8000 100 Peaklim.new).nchan = MAXCHAN ∧
      ∀ n inp, (Peaklim.init 8000 100 Peaklim.new).process n inp = (Peaklim.init 8000 MAXCHAN Peaklim.new).process n inp) :=
  ⟨by decide, c10_channel_clamp 8000 100 Peaklim.new (by decide)⟩

/-- Claim C1, counterexample.  With threshold `T = 0` dBFS (factor
`gt = 1`, bound `10^(T/20) (1 + ε) ≤ 1 + 10⁻⁵`), true-peak disabled, and
a single input spike of `2^20`, the first retained output sample (index
`get_latency() = 16`) exceeds 3/2 — far above the claimed bound, so the
advertised no-overshoot property fails for large transients. -/
theorem c1_counterexample :
    c1state.truepeak = false ∧
    c1state.gt = 1 ∧
    c1state.get_latency = 16 ∧
    c1out.length = 24 ∧
    1 + 1 / 100000 < c1out.getD 16 0 ∧
    3 / 2 < c1out.getD 16 0 := by decide

/-- Claim C3, counterexample.  Processing 24 frames in one call versus
`20 + 4` from the same configured state gives different output samples
(already at output index 16) and different final engine states
(`_z1` differs): the split at 20 falls inside a coarse chunk, so the
chunk's detection result reaches the envelope earlier in the one-call
run.  Block-invariance fails for splits not aligned to coarse chunks. -/
theorem c3_counterexample :
    c3single.2.getD 16 0 ≠ c3split.2.getD 16 0 ∧
    c3single.1.z1 ≠ c3split.1.z1 := by decide

/-- Claim C6, counterexample.  At `fs = 1000` the look-ahead is only 8
samples, so `w1 = 10/8 > 1` and the envelope recurrences overshoot:
after one coarse chunk holding a spike of amplitude 8 (processed as
7 + 1 frames so the chunk boundary falls at the start of a span), the
committed state has `z1 = -3/32 < 0` and `z3 = -47/128 < 0`, leaving
`(0, 1]`. -/
theorem c6_counterexample :
    ((((Peaklim.init 1000 1 Peaklim.new).process 7 (fun m => if m = 0 then 8 else 0)).1.process 1 (fun _ => 0)).1).z1 < 0 ∧
    ((((Peaklim.init 1000 1 Peaklim.new).process 7 (fun m => if m = 0 then 8 else 0)).1.process 1 (fun _ => 0)).1).z3 < 0 := by decide

theorem wmin_le (f : ℕ → ℚ) : ∀ m j, j ≤ m → wmin f m ≤ f j := by
  intro m
  induction m with
  | zero => intro j hj; interval_cases j; exact le_rfl
  | succ m ih =>
    intro j hj
    rcases Nat.lt_or_ge j (m + 1) with h | h
    · exact le_trans (min_le_left _ _) (ih j (by omega))
    · have : j = m + 1 := by omega
      rw [this]
      exact min_le_right _ _

theorem le_wmin (f : ℕ → ℚ) (c : ℚ) : ∀ m, (∀ j, j ≤ m → c ≤ f j) → c ≤ wmin f m := by
  intro m
  induction m with
  | zero => intro h; exact h 0 le_rfl
  | succ m ih =>
    intro h
    exact le_min (ih (fun j hj => h j (by omega))) (h (m + 1) le_rfl)

theorem wmin_eq_of (f : ℕ → ℚ) (c : ℚ) (m j0 : ℕ) (hj0 : j0 ≤ m) (hat : f j0 = c)
    (hlb : ∀ j, j ≤ m → c ≤ f j) : wmin f m = c :=
  le_antisymm (hat ▸ wmin_le f m j0 hj0) (le_wmin f c m hlb)

theorem wmin_congr (f g : ℕ → ℚ) : ∀ m, (∀ j, j ≤ m → f j = g j) → wmin f m = wmin g m := by
  intro m
  induction m with
  | zero => intro h; exact h 0 le_rfl
  | succ m ih =>
    intro h
    show min (wmin f m) (f (m + 1)) = min (wmin g m) (g (m + 1))
    rw [ih (fun j hj => h j (by omega)), h (m + 1) le_rfl]

theorem sv_append_lt (vs : List ℚ) (v : ℚ) (m : ℤ) (hm : m < (vs.length : ℤ)) :
    sv (vs ++ [v]) m = sv vs m := by
  unfold sv
  by_cases h : 0 ≤ m
  · rw [if_pos h, if_pos h]
    have hlt : m.toNat < vs.length := by omega
    rw [List.getD_eq_getElem?_getD, List.getD_eq_getElem?_getD,
      List.getElem?_append_left hlt]
  · rw [if_neg h, if_neg h]

theorem sv_append_last (vs : List ℚ) (v : ℚ) : sv (vs ++ [v]) (vs.length : ℤ) = v := by
  unfold sv
  rw [if_pos (by positivity), Int.toNat_natCast]
  rw [List.getD_eq_getElem?_getD, List.getElem?_append_right le_rfl]
  simp

theorem sv_of_ge (vs : List ℚ) (m : ℤ) (hm : (vs.length : ℤ) ≤ m) : sv vs m = 1 := by
  unfold sv
  rw [if_pos (by omega)]
  apply List.getD_eq_default
  omega

/-- The new window after appending `v`: position 0 is `v`, positions
`j + 1` are the old positions `j`. -/
theorem winf_append_zero (vs : List ℚ) (v : ℚ) : winf (vs ++ [v]) 0 = v := by
  unfold winf
  rw [List.length_append]
  simpa using sv_append_last vs v

theorem winf_append_succ (vs : List ℚ) (v : ℚ) (j : ℕ) :
    winf (vs ++ [v]) (j + 1) = winf vs j := by
  unfold winf
  rw [List.length_append]
  have h1 : ((vs.length + 1 : ℕ) : ℤ) - 1 - ((j + 1 : ℕ) : ℤ) = (vs.length : ℤ) - 1 - (j : ℤ) := by
    push_cast
    ring
  simp only [List.length_singleton]
  rw [h1]
  exact sv_append_lt vs v _ (by omega)

theorem write_eq (h : Histmin) (v : ℚ) :
    h.write v = ({ hist := Function.update h.hist h.wind v, hlen := h.hlen, hold := (writeVH h v).2, wind := (h.wind + 1) % 16, vmin := (writeVH h v).1 }, (writeVH h v).1) := rfl

theorem winMin_le_winf (vs : List ℚ) (L j : ℕ) (hj : j ≤ L - 1) :
    winMin vs L ≤ winf vs j := wmin_le (winf vs) (L - 1) j hj

/-- Reading the rescan loop: at counter `k` the loop inspects the value
`L - 1 - k` steps back in the appended stream, and the hold it would
install is `k + 1`. -/
theorem scanStep_eq (L : ℕ) (hL1 : 1 ≤ L) (hL16 : L ≤ 16) (vs : List ℚ) (v : ℚ)
    (h : Histmin) (hwind : h.wind = vs.length % 16)
    (hslots : ∀ j : ℕ, j < 16 → h.hist ((h.wind + 15 - j) % 16) = winf vs j)
    (k : ℕ) (hk : k < L - 1) (p : ℚ × ℤ) :
    Histmin.scanStep (Function.update h.hist h.wind v) h.wind L k p =
      if winf (vs ++ [v]) (L - 1 - k) < p.1 then (winf (vs ++ [v]) (L - 1 - k), (k : ℤ) + 1) else p := by
  have hi : h.wind < 16 := by omega
  unfold Histmin.scanStep
  have hidx : ((((h.wind : ℤ) + ((k : ℤ) + 1 - (L : ℤ))) % 16).toNat) = (h.wind + 17 + k - L) % 16 := by
    omega
  have hne : (h.wind + 17 + k - L) % 16 ≠ h.wind := by
    omega
  have hold_eq : (L : ℤ) + ((k : ℤ) + 1 - (L : ℤ)) = (k : ℤ) + 1 := by ring
  rw [hidx, Function.update_noteq hne, hold_eq]
  have hslot : (h.wind + 17 + k - L) % 16 = (h.wind + 15 - (L - 2 - k)) % 16 := by
    omega
  have hval : h.hist ((h.wind + 17 + k - L) % 16) = winf vs (L - 2 - k) := by
    rw [hslot]
    exact hslots (L - 2 - k) (by omega)
  have hup : winf (vs ++ [v]) (L - 1 - k) = winf vs (L - 2 - k) := by
    have heq : L - 1 - k = (L - 2 - k) + 1 := by omega
    rw [heq]
    exact winf_append_succ vs v (L - 2 - k)
  rw [hval, ← hup]

theorem scanFoldAux_succ (hist : ℕ → ℚ) (i L : ℕ) (v : ℚ) (m : ℕ) :
    scanFoldAux hist i L v (m + 1) = Histmin.scanStep hist i L m (scanFoldAux hist i L v m) := by
  unfold scanFoldAux
  rw [List.range_succ, List.foldl_append]
  rfl

/-- What the rescan establishes after its first `m` iterations: the
candidate minimum is bounded by the incoming value and by every scanned
window value, and the candidate `(vmin, hold)` pair is either the
incoming value with a full hold, or a scanned value with the hold
recording its position. -/
theorem scanFoldAux_spec (L : ℕ) (hL1 : 1 ≤ L) (hL16 : L ≤ 16) (vs : List ℚ) (v : ℚ)
    (h : Histmin) (hwind : h.wind = vs.length % 16)
    (hslots : ∀ j : ℕ, j < 16 → h.hist ((h.wind + 15 - j) % 16) = winf vs j) :
    ∀ m, m ≤ L - 1 →
      (scanFoldAux (Function.update h.hist h.wind v) h.wind L v m).1 ≤ v ∧
      (∀ k, k < m →
        (scanFoldAux (Function.update h.hist h.wind v) h.wind L v m).1 ≤ winf (vs ++ [v]) (L - 1 - k)) ∧
      (((scanFoldAux (Function.update h.hist h.wind v) h.wind L v m).2 = (L : ℤ) ∧
          (scanFoldAux (Function.update h.hist h.wind v) h.wind L v m).1 = v) ∨
        ∃ k0, k0 < m ∧ (scanFoldAux (Function.update h.hist h.wind v) h.wind L v m).2 = (k0 : ℤ) + 1 ∧
          (scanFoldAux (Function.update h.hist h.wind v) h.wind L v m).1 = winf (vs ++ [v]) (L - 1 - k0)) := by
  intro m
  induction m with
  | zero =>
    intro _
    exact ⟨le_rfl, fun k hk => absurd hk (Nat.not_lt_zero k), Or.inl ⟨rfl, rfl⟩⟩
  | succ m ih =>
    intro hm
    obtain ⟨ih1, ih2, ih3⟩ := ih (by omega)
    rw [scanFoldAux_succ, scanStep_eq L hL1 hL16 vs v h hwind hslots m (by omega)]
    by_cases hlt : winf (vs ++ [v]) (L - 1 - m) < (scanFoldAux (Function.update h.hist h.wind v) h.wind L v m).1
    · rw [if_pos hlt]
      refine ⟨le_trans (le_of_lt hlt) ih1, ?_, Or.inr ⟨m, by omega, rfl, rfl⟩⟩
      intro k hk
      rcases Nat.lt_or_ge k m with hkm | hkm
      · exact le_trans (le_of_lt hlt) (ih2 k hkm)
      · have hkm' : k = m := by omega
        rw [hkm']
    · rw [if_neg hlt]
      refine ⟨ih1, ?_, ?_⟩
      · intro k hk
        rcases Nat.lt_or_ge k m with hkm | hkm
        · exact ih2 k hkm
        · have hkm' : k = m := by omega
          rw [hkm']
          exact le_of_not_lt hlt
      · rcases ih3 with h3 | ⟨k0, hk0, h3a, h3b⟩
        · exact Or.inl h3
        · exact Or.inr ⟨k0, by omega, h3a, h3b⟩

/-- One Histmin::write preserves the invariant and returns the new
window minimum. -/
theorem write_step (L : ℕ) (hL1 : 1 ≤ L) (hL16 : L ≤ 16) (vs : List ℚ) (v : ℚ)
    (h : Histmin) (hinv : HistInv L vs h) :
    HistInv L (vs ++ [v]) (h.write v).1 ∧ (h.write v).2 = winMin (vs ++ [v]) L := by
  obtain ⟨hhlen, hwind, hslots, hvmin, hhold1, hholdL, hat⟩ := hinv
  have hi : h.wind < 16 := by omega
  have hwind' : (h.wind + 1) % 16 = (vs ++ [v]).length % 16 := by
    rw [List.length_append]
    simp only [List.length_singleton]
    omega
  have hslots' : ∀ j : ℕ, j < 16 →
      Function.update h.hist h.wind v (((h.wind + 1) % 16 + 15 - j) % 16) = winf (vs ++ [v]) j := by
    intro j hj
    rcases Nat.eq_zero_or_pos j with hj0 | hjpos
    · subst hj0
      have hidx0 : ((h.wind + 1) % 16 + 15 - 0) % 16 = h.wind := by omega
      rw [hidx0, Function.update_same, winf_append_zero]
    · obtain ⟨j1, rfl⟩ : ∃ j1, j = j1 + 1 := ⟨j - 1, by omega⟩
      have hidx : ((h.wind + 1) % 16 + 15 - (j1 + 1)) % 16 = (h.wind + 15 - j1) % 16 := by omega
      have hne : (h.wind + 15 - j1) % 16 ≠ h.wind := by omega
      rw [hidx, Function.update_noteq hne, hslots j1 (by omega), winf_append_succ]
  rw [write_eq]
  by_cases hA : v ≤ h.vmin
  · have hvh : writeVH h v = (v, (L : ℤ)) := by
      unfold writeVH
      rw [if_pos hA, hhlen]
    have hwinA : winMin (vs ++ [v]) L = v := by
      apply wmin_eq_of _ _ (L - 1) 0 (by omega) (winf_append_zero vs v)
      intro j hj
      rcases Nat.eq_zero_or_pos j with hj0 | hjpos
      · subst hj0; rw [winf_append_zero]
      · obtain ⟨j1, rfl⟩ : ∃ j1, j = j1 + 1 := ⟨j - 1, by omega⟩
        rw [winf_append_succ]
        exact le_trans hA (le_trans (le_of_eq hvmin) (winMin_le_winf vs L j1 (by omega)))
    rw [hvh]
    have c5 : (1 : ℤ) ≤ (L : ℤ) := by exact_mod_cast hL1
    have c7 : winf (vs ++ [v]) ((L : ℤ) - (L : ℤ)).toNat = v := by
      have h0 : ((L : ℤ) - (L : ℤ)).toNat = 0 := by omega
      rw [h0, winf_append_zero]
    exact ⟨⟨hhlen, hwind', hslots', hwinA.symm, c5, le_rfl, c7⟩, hwinA.symm⟩
  · have hvlt : h.vmin < v := lt_of_not_le hA
    have hlbB : ∀ j, j ≤ L - 1 → h.vmin ≤ winf (vs ++ [v]) j := by
      intro j hj
      rcases Nat.eq_zero_or_pos j with hj0 | hjpos
      · subst hj0; rw [winf_append_zero]; exact le_of_lt hvlt
      · obtain ⟨j1, rfl⟩ : ∃ j1, j = j1 + 1 := ⟨j - 1, by omega⟩
        rw [winf_append_succ]
        exact le_trans (le_of_eq hvmin) (winMin_le_winf vs L j1 (by omega))
    by_cases hB : h.hold - 1 = 0
    · -- rescan
      have hvh : writeVH h v = scanFoldAux (Function.update h.hist h.wind v) h.wind L v (L - 1) := by
        unfold writeVH scanFoldAux
        rw [if_neg hA, if_pos hB, hhlen]
      obtain ⟨hq1, hq2, hq3⟩ :=
        scanFoldAux_spec L hL1 hL16 vs v h hwind hslots (L - 1) le_rfl
      have hwlb : ∀ j, j ≤ L - 1 →
          (scanFoldAux (Function.update h.hist h.wind v) h.wind L v (L - 1)).1 ≤ winf (vs ++ [v]) j := by
        intro j hj
        rcases Nat.eq_zero_or_pos j with hj0 | hjpos
        · subst hj0; rw [winf_append_zero]; exact hq1
        · have hk : L - 1 - j < L - 1 := by omega
          have hjk : L - 1 - (L - 1 - j) = j := by omega
          have hq := hq2 (L - 1 - j) hk
          rw [hjk] at hq
          exact hq
      rw [hvh]
      rcases hq3 with ⟨hp2, hp1⟩ | ⟨k0, hk0, hp2, hp1⟩
      · have hwinC : winMin (vs ++ [v]) L =
            (scanFoldAux (Function.update h.hist h.wind v) h.wind L v (L - 1)).1 := by
          apply wmin_eq_of _ _ (L - 1) 0 (by omega)
          · rw [winf_append_zero, hp1]
          · exact hwlb
        have c5 : (1 : ℤ) ≤ (scanFoldAux (Function.update h.hist h.wind v) h.wind L v (L - 1)).2 := by
          rw [hp2]; exact_mod_cast hL1
        have c6 : (scanFoldAux (Function.update h.hist h.wind v) h.wind L v (L - 1)).2 ≤ (L : ℤ) := by
          rw [hp2]
        have c7 : winf (vs ++ [v]) ((L : ℤ) - (scanFoldAux (Function.update h.hist h.wind v) h.wind L v (L - 1)).2).toNat =
            (scanFoldAux (Function.update h.hist h.wind v) h.wind L v (L - 1)).1 := by
          rw [hp2, hp1]
          have h0 : ((L : ℤ) - (L : ℤ)).toNat = 0 := by omega
          rw [h0, winf_append_zero]
        exact ⟨⟨hhlen, hwind', hslots', hwinC.symm, c5, c6, c7⟩, hwinC.symm⟩
      · have hj0 : L - 1 - k0 ≤ L - 1 := by omega
        have hwinC : winMin (vs ++ [v]) L =
            (scanFoldAux (Function.update h.hist h.wind v) h.wind L v (L - 1)).1 := by
          apply wmin_eq_of _ _ (L - 1) (L - 1 - k0) hj0
          · rw [hp1]
          · exact hwlb
        have c5 : (1 : ℤ) ≤ (scanFoldAux (Function.update h.hist h.wind v) h.wind L v (L - 1)).2 := by
          rw [hp2]; omega
        have c6 : (scanFoldAux (Function.update h.hist h.wind v) h.wind L v (L - 1)).2 ≤ (L : ℤ) := by
          rw [hp2]; omega
        have c7 : winf (vs ++ [v]) ((L : ℤ) - (scanFoldAux (Function.update h.hist h.wind v) h.wind L v (L - 1)).2).toNat =
            (scanFoldAux (Function.update h.hist h.wind v) h.wind L v (L - 1)).1 := by
          rw [hp2, hp1]
          have h0 : ((L : ℤ) - ((k0 : ℤ) + 1)).toNat = L - 1 - k0 := by omega
          rw [h0]
        exact ⟨⟨hhlen, hwind', hslots', hwinC.symm, c5, c6, c7⟩, hwinC.symm⟩
    · -- simple hold decrement
      have hvh : writeVH h v = (h.vmin, h.hold - 1) := by
        unfold writeVH
        rw [if_neg hA, if_neg hB]
      have hhold2 : 2 ≤ h.hold := by omega
      have hat' : winf (vs ++ [v]) (((L : ℤ) - h.hold).toNat + 1) = h.vmin := by
        rw [winf_append_succ]
        exact hat
      have hwinB : winMin (vs ++ [v]) L = h.vmin :=
        wmin_eq_of _ _ (L - 1) (((L : ℤ) - h.hold).toNat + 1) (by omega) hat' hlbB
      rw [hvh]
      have c5 : (1 : ℤ) ≤ h.hold - 1 := by omega
      have c6 : h.hold - 1 ≤ (L : ℤ) := by omega
      have c7 : winf (vs ++ [v]) ((L : ℤ) - (h.hold - 1)).toNat = h.vmin := by
        have hsh : ((L : ℤ) - (h.hold - 1)).toNat = ((L : ℤ) - h.hold).toNat + 1 := by omega
        rw [hsh]
        exact hat'
      exact ⟨⟨hhlen, hwind', hslots', hwinB.symm, c5, c6, c7⟩, hwinB.symm⟩

theorem winf_nil (j : ℕ) : winf ([] : List ℚ) j = 1 := by
  unfold winf sv
  by_cases h : (0 : ℤ) ≤ (([] : List ℚ).length : ℤ) - 1 - (j : ℤ)
  · rw [if_pos h]; simp [List.getD]
  · rw [if_neg h]

theorem histInit_inv (L : ℕ) (hL1 : 1 ≤ L) : HistInv L [] (Histmin.init L) := by
  have hwm : winMin [] L = 1 := by
    unfold winMin
    rw [wmin_congr (winf []) (fun _ => 1) (L - 1) (fun j _ => winf_nil j)]
    induction (L - 1) with
    | zero => rfl
    | succ m ih => show min (wmin (fun _ => (1 : ℚ)) m) 1 = 1; rw [ih, min_self]
  refine ⟨rfl, rfl, fun j _ => (winf_nil j).symm, hwm.symm, ?_, ?_, ?_⟩
  · show (1 : ℤ) ≤ (L : ℤ); exact_mod_cast hL1
  · show (L : ℤ) ≤ (L : ℤ); exact le_rfl
  · show winf [] ((L : ℤ) - (L : ℤ)).toNat = 1
    rw [winf_nil]

theorem histRun_append (L : ℕ) (vs : List ℚ) (v : ℚ) :
    histRun L (vs ++ [v]) = (histRun L vs).1.write v := by
  unfold histRun
  rw [List.foldl_append]
  rfl

/-- The running invariant and exact returned minimum, for every stream. -/
theorem histRun_spec (L : ℕ) (hL1 : 1 ≤ L) (hL16 : L ≤ 16) :
    ∀ vs : List ℚ, HistInv L vs (histRun L vs).1 ∧ (histRun L vs).2 = winMin vs L := by
  intro vs
  induction vs using List.reverseRecOn with
  | nil =>
    constructor
    · exact histInit_inv L hL1
    · show (1 : ℚ) = winMin [] L
      unfold winMin
      rw [wmin_congr (winf []) (fun _ => 1) (L - 1) (fun j _ => winf_nil j)]
      induction (L - 1) with
      | zero => rfl
      | succ m ih => show (1 : ℚ) = min (wmin (fun _ => (1 : ℚ)) m) 1; rw [← ih, min_self]
  | append_singleton vs v ih =>
    rw [histRun_append]
    exact write_step L hL1 hL16 vs v (histRun L vs).1 ih.1

theorem winf_cons (x : ℚ) (rest : List ℚ) (j : ℕ) (hj : j < rest.length) :
    winf (x :: rest) j = winf rest j := by
  unfold winf sv
  have hlen : ((x :: rest).length : ℤ) = (rest.length : ℤ) + 1 := by
    simp [List.length_cons]
  rw [hlen]
  have hpos : (0 : ℤ) ≤ (rest.length : ℤ) + 1 - 1 - (j : ℤ) := by omega
  have hpos2 : (0 : ℤ) ≤ (rest.length : ℤ) - 1 - (j : ℤ) := by omega
  rw [if_pos hpos, if_pos hpos2]
  have hidx : ((rest.length : ℤ) + 1 - 1 - (j : ℤ)).toNat = ((rest.length : ℤ) - 1 - (j : ℤ)).toNat + 1 := by
    omega
  rw [hidx]
  exact List.getD_cons_succ

theorem winf_cons_last (x : ℚ) (rest : List ℚ) :
    winf (x :: rest) rest.length = x := by
  unfold winf sv
  have hlen : ((x :: rest).length : ℤ) = (rest.length : ℤ) + 1 := by
    simp [List.length_cons]
  rw [hlen]
  have hz : ((rest.length : ℤ) + 1 - 1 - (rest.length : ℤ)) = 0 := by ring
  rw [hz, if_pos le_rfl]
  rfl

theorem minList_eq_winMin : ∀ l : List ℚ, 1 ≤ l.length → minList l = winMin l l.length := by
  intro l
  induction l with
  | nil => intro h; simp at h
  | cons x rest ih =>
    intro _
    cases rest with
    | nil =>
      show x = winMin [x] 1
      unfold winMin
      show x = wmin (winf [x]) 0
      show x = winf [x] 0
      rw [show winf [x] 0 = winf (x :: ([] : List ℚ)) ([] : List ℚ).length from rfl,
        winf_cons_last]
    | cons y tl =>
      show min x (minList (y :: tl)) = winMin (x :: y :: tl) (x :: y :: tl).length
      rw [ih (by simp)]
      unfold winMin
      have hlen : (x :: y :: tl).length = (y :: tl).length + 1 := rfl
      rw [hlen]
      have hm : (y :: tl).length + 1 - 1 = ((y :: tl).length - 1) + 1 := by
        have : 1 ≤ (y :: tl).length := by simp
        omega
      rw [hm]
      show min x (wmin (winf (y :: tl)) ((y :: tl).length - 1)) =
        min (wmin (winf (x :: y :: tl)) ((y :: tl).length - 1)) (winf (x :: y :: tl) (((y :: tl).length - 1) + 1))
      have hcongr : wmin (winf (x :: y :: tl)) ((y :: tl).length - 1) =
          wmin (winf (y :: tl)) ((y :: tl).length - 1) := by
        apply wmin_congr
        intro j hj
        apply winf_cons
        have : 1 ≤ (y :: tl).length := by simp
        omega
      have hlast : winf (x :: y :: tl) (((y :: tl).length - 1) + 1) = x := by
        have hidx : ((y :: tl).length - 1) + 1 = (y :: tl).length := by
          have : 1 ≤ (y :: tl).length := by simp
          omega
        rw [hidx]
        exact winf_cons_last x (y :: tl)
      rw [hcongr, hlast, min_comm]

theorem winf_drop (vs : List ℚ) (L j : ℕ) (hL : L ≤ vs.length) (hj : j < L) :
    winf (vs.drop (vs.length - L)) j = winf vs j := by
  unfold winf sv
  have hdl : (vs.drop (vs.length - L)).length = L := by
    rw [List.length_drop]
    omega
  rw [hdl]
  have hpos : (0 : ℤ) ≤ (L : ℤ) - 1 - (j : ℤ) := by omega
  have hpos2 : (0 : ℤ) ≤ (vs.length : ℤ) - 1 - (j : ℤ) := by omega
  rw [if_pos hpos, if_pos hpos2]
  rw [List.getD_eq_getElem?_getD, List.getD_eq_getElem?_getD, List.getElem?_drop]
  have hidx : vs.length - L + ((L : ℤ) - 1 - (j : ℤ)).toNat = ((vs.length : ℤ) - 1 - (j : ℤ)).toNat := by
    omega
  rw [hidx]

/-- Claim C2 (confirmed).  For every window length `1 ≤ L ≤ 16`, after
`Histmin::init(L)` and any stream of values, once at least `L` writes
have occurred the value returned by the latest write equals the minimum
of the `L` most recently written values (applying this to every prefix
of the stream settles every `t ≥ L`).  Spec-modelled detail: the ring
capacity `SIZE = 16` comes from spec §9, the header defining it not
being among the repository files. -/
theorem c2_sliding_minimum (L : ℕ) (vs : List ℚ) (hL1 : 1 ≤ L) (hL16 : L ≤ 16)
    (hlen : L ≤ vs.length) :
    (histRun L vs).2 = minList (vs.drop (vs.length - L)) := by
  rw [(histRun_spec L hL1 hL16 vs).2]
  rw [minList_eq_winMin (vs.drop (vs.length - L)) (by rw [List.length_drop]; omega)]
  have hdl : (vs.drop (vs.length - L)).length = L := by
    rw [List.length_drop]; omega
  rw [hdl]
  unfold winMin
  exact wmin_congr _ _ (L - 1) (fun j hj => (winf_drop vs L j hlen (by omega)).symm)

/-- Claim C2, witness: window length 2 over the stream `[5, 7, 6]` —
the last write returns `min 7 6 = 6`. -/
theorem c2_sliding_minimum_witness :
    (1 ≤ 2 ∧ 2 ≤ 16 ∧ 2 ≤ ([5, 7, 6] : List ℚ).length) ∧
    (histRun 2 [5, 7, 6]).2 = minList (([5, 7, 6] : List ℚ).drop (([5, 7, 6] : List ℚ).length - 2)) :=
  ⟨⟨by omega, by omega, by decide⟩,
   c2_sliding_minimum 2 [5, 7, 6] (by omega) (by omega) (by decide)⟩

/-! Claim C8 support: the upsampler impulse response. -/
theorem process_one_fst (r : ℕ → ℚ) (x : ℚ) (i : ℕ) :
    (Upsampler.process_one r x).1 i =
      if i < 47 then Function.update r 47 x (i + 1) else Function.update r 47 x i := rfl

theorem firdot_zero (cs : List ℚ) (r : ℕ → ℚ) (h : ∀ i, r i = 0) : firdot r cs = 0 := by
  apply List.sum_eq_zero
  intro q hq
  simp only [firdot, List.mem_map] at hq
  obtain ⟨p, _, hp⟩ := hq
  rw [← hp, h p.1, zero_mul]

theorem update_zero_fn (r : ℕ → ℚ) (h : ∀ i, r i = 0) (a : ℕ) (i : ℕ) :
    Function.update r a 0 i = 0 := by
  by_cases hia : i = a
  · rw [hia, Function.update_same]
  · rw [Function.update_noteq hia]; exact h i

theorem process_one_zero (r : ℕ → ℚ) (h : ∀ i, r i = 0) :
    (Upsampler.process_one r 0).2 = 0 ∧ ∀ i, (Upsampler.process_one r 0).1 i = 0 := by
  have hr1 : ∀ i, Function.update r 47 0 i = 0 := update_zero_fn r h 47
  constructor
  · show cppmax (cppmax (fabsf (phases r 0).1) (fabsf (phases r 0).2.1))
      (cppmax (fabsf (phases r 0).2.2.1) (fabsf (phases r 0).2.2.2)) = 0
    have h1 : (phases r 0).1 = 0 := hr1 47
    have h2 : (phases r 0).2.1 = 0 := firdot_zero phase1 _ hr1
    have h3 : (phases r 0).2.2.1 = 0 := firdot_zero phase2 _ hr1
    have h4 : (phases r 0).2.2.2 = 0 := firdot_zero phase3 _ hr1
    rw [h1, h2, h3, h4]
    decide
  · intro i
    rw [process_one_fst]
    by_cases hi : i < 47
    · rw [if_pos hi]; exact hr1 (i + 1)
    · rw [if_neg hi]; exact hr1 i

theorem upsState_high_zero : ∀ t i, 48 ≤ i → upsStateAt t i = 0 := by
  intro t
  induction t with
  | zero => intro i _; rfl
  | succ t ih =>
    intro i hi
    show (Upsampler.process_one (upsStateAt t) (upsImp t)).1 i = 0
    rw [process_one_fst, if_neg (by omega)]
    rw [Function.update_noteq (by omega)]
    exact ih i hi

theorem upsState48_low : ∀ i, i < 48 → upsStateAt 48 i = 0 := by decide

theorem upsState_zero_from : ∀ t, 48 ≤ t → ∀ i, upsStateAt t i = 0 := by
  intro t
  induction t with
  | zero => omega
  | succ t ih =>
    intro ht i
    rcases Nat.lt_or_ge t 48 with h | h
    · have ht48 : t + 1 = 48 := by omega
      rw [ht48]
      rcases Nat.lt_or_ge i 48 with hi | hi
      · exact upsState48_low i hi
      · exact upsState_high_zero 48 i hi
    · show (Upsampler.process_one (upsStateAt t) (upsImp t)).1 i = 0
      have himp : upsImp t = 0 := by
        unfold upsImp
        rw [if_neg (by omega)]
      rw [himp]
      exact (process_one_zero (upsStateAt t) (ih h)).2 i

theorem upsRet_high (t : ℕ) (ht : 48 ≤ t) : upsRet t = 0 := by
  unfold upsRet
  have himp : upsImp t = 0 := by
    unfold upsImp
    rw [if_neg (by omega)]
  rw [himp]
  exact (process_one_zero (upsStateAt t) (upsState_zero_from t ht)).1

theorem upsRet_low_le : ∀ t, t < 48 → 1 ≤ t → upsRet t ≤ upsRet 23 := by decide

/-- Claim C8 (corrected form).  Phase 0 of the upsampler is the identity
on the current input sample, and for a unit impulse at time 0 the
largest value `process_one` ever returns at steps `t ≥ 1` is the one at
step 23 (the FIR peak `0.9000753`); but the claim's statement that the
maximum over all input steps occurs at step 23 is wrong, because the
identity phase reports the impulse itself, with value 1, already at
step 0 (see the counterexample). -/
theorem c8_upsampler_response :
    (∀ (r : ℕ → ℚ) (x : ℚ), (phases r x).1 = x) ∧
    upsRet 0 = 1 ∧
    upsRet 23 = 9000753 / 10 ^ 7 ∧
    (∀ t, 1 ≤ t → upsRet t ≤ upsRet 23) := by
  refine ⟨fun r x => by simp [phases], by decide, by decide, fun t ht => ?_⟩
  rcases Nat.lt_or_ge t 48 with h | h
  · exact upsRet_low_le t h ht
  · rw [upsRet_high t h]
    decide

/-- Claim C8, counterexample.  On the unit-impulse stream the value
returned at step 0 (the impulse itself, through the identity phase 0)
strictly exceeds the value returned at step 23, so the maximum over all
input steps does not occur 23 steps after the impulse. -/
theorem c8_counterexample : upsRet 23 < upsRet 0 := by decide

theorem detStep_buf (wlf d : ℚ) (tp : Bool) (nchan j k wi : ℕ) (inp : ℕ → ℚ) (i : ℕ)
    (c : ChanSt) :
    (detStep wlf d tp nchan j k wi inp i c).buf =
      Function.update c.buf (wi + i) (c.g * inp (j + (i + k) * nchan)) := rfl

theorem detLoop_buf_zero (wlf d : ℚ) (tp : Bool) (nchan j k wi : ℕ) (inp : ℕ → ℚ)
    (hinp : ∀ m, inp m = 0) :
    ∀ n c, (∀ idx, c.buf idx = 0) →
      ∀ idx, (detLoop wlf d tp nchan j k wi inp n c).buf idx = 0 := by
  intro n
  induction n with
  | zero => intro c h idx; exact h idx
  | succ n ih =>
    intro c h idx
    show (detStep wlf d tp nchan j k wi inp n (detLoop wlf d tp nchan j k wi inp n c)).buf idx = 0
    rw [detStep_buf, hinp, mul_zero]
    exact update_zero_fn _ (ih c h) _ idx

theorem chanLoop_dbuff_zero (g0 dg wlf : ℚ) (tp : Bool) (nchan : ℕ) (inp : ℕ → ℚ)
    (n k wi : ℕ) (hinp : ∀ m, inp m = 0) :
    ∀ jn d, (∀ j idx, d.dbuff j idx = 0) →
      ∀ j idx, (chanLoop g0 dg wlf tp nchan inp n k wi jn d).dbuff j idx = 0 := by
  intro jn
  induction jn with
  | zero => intro d h j idx; exact h j idx
  | succ jn ih =>
    intro d h j idx
    show (chanStep g0 dg wlf tp nchan inp n k wi jn
      (chanLoop g0 dg wlf tp nchan inp n k wi jn d)).dbuff j idx = 0
    show Function.update (chanLoop g0 dg wlf tp nchan inp n k wi jn d).dbuff jn _ j idx = 0
    by_cases hj : j = jn
    · rw [hj, Function.update_same]
      exact detLoop_buf_zero wlf dg tp nchan jn k wi inp hinp n _ (fun m => ih d h jn m) idx
    · rw [Function.update_noteq hj]
      exact ih d h j idx

theorem boundary_fst_dbuff (p : Peaklim) (l : Loc) : (boundary p l).1.dbuff = p.dbuff := by
  by_cases h : p.c2 - 1 = 0 <;> simp [boundary, h]

theorem boundary_snd_out (p : Peaklim) (l : Loc) : (boundary p l).2.out = l.out := by
  by_cases h : p.c2 - 1 = 0 <;> simp [boundary, h]

theorem outStep_out (p : Peaklim) (i : ℕ) (l : Loc) :
    ∃ v : ℚ, (outStep p i l).out = l.out ++ (List.range p.nchan).map (fun j => v * p.dbuff j (l.ri + i)) :=
  ⟨_, rfl⟩

theorem outLoop_ri (p : Peaklim) : ∀ n l, (outLoop p n l).ri = l.ri := by
  intro n
  induction n with
  | zero => intro l; rfl
  | succ n ih => intro l; exact ih l

theorem outLoop_out_zero (p : Peaklim) (hbuf : ∀ j i, p.dbuff j i = 0) :
    ∀ n l, (∀ q ∈ l.out, q = 0) → ∀ q ∈ (outLoop p n l).out, q = 0 := by
  intro n
  induction n with
  | zero => intro l h; exact h
  | succ n ih =>
    intro l h q hq
    rw [show outLoop p (n + 1) l = outStep p n (outLoop p n l) from rfl] at hq
    obtain ⟨v, hv⟩ := outStep_out p n (outLoop p n l)
    rw [hv] at hq
    rcases List.mem_append.1 hq with hq1 | hq2
    · exact ih l h q hq1
    · obtain ⟨j, _, hj⟩ := List.mem_map.1 hq2
      rw [← hj, hbuf, mul_zero]

theorem spanDetect_fst_dbuff_zero (p : Peaklim) (l : Loc) (inp : ℕ → ℚ) (n : ℕ)
    (hinp : ∀ m, inp m = 0) (hbuf : ∀ j i, p.dbuff j i = 0) :
    ∀ j i, (spanDetect p l inp n).1.dbuff j i = 0 := by
  intro j i
  show (chanLoop p.g0 p.dg p.wlf p.truepeak p.nchan inp n l.k l.wi p.nchan
    { dbuff := p.dbuff, zlf := p.zlf, zarr := p.z, m1 := l.m1, m2 := l.m2, g := p.g0 }).dbuff j i = 0
  exact chanLoop_dbuff_zero p.g0 p.dg p.wlf p.truepeak p.nchan inp n l.k l.wi hinp p.nchan _ hbuf j i

theorem spanDetect_snd_out (p : Peaklim) (l : Loc) (inp : ℕ → ℚ) (n : ℕ) :
    (spanDetect p l inp n).2.out = l.out := rfl

theorem spanFinish_fst (n : ℕ) (pl2 : Peaklim × Loc) : (spanFinish n pl2).1 = pl2.1 := rfl

theorem spanFinish_out (n : ℕ) (pl2 : Peaklim × Loc) :
    (spanFinish n pl2).2.out = (outLoop pl2.1 n pl2.2).out := rfl

theorem spanFinish_ri (n : ℕ) (pl2 : Peaklim × Loc) :
    (spanFinish n pl2).2.ri = ((outLoop pl2.1 n pl2.2).ri + n) % pl2.1.dsize := rfl

theorem doSpan_eq (inp : ℕ → ℚ) (n : ℕ) (pl : Peaklim × Loc) :
    doSpan inp n pl = spanFinish n
      (if (spanDetect pl.1 pl.2 inp n).1.c1 - n = 0
       then boundary { (spanDetect pl.1 pl.2 inp n).1 with c1 := (spanDetect pl.1 pl.2 inp n).1.c1 - n }
              (spanDetect pl.1 pl.2 inp n).2
       else ({ (spanDetect pl.1 pl.2 inp n).1 with c1 := (spanDetect pl.1 pl.2 inp n).1.c1 - n },
              (spanDetect pl.1 pl.2 inp n).2)) := rfl

theorem doSpan_zero (inp : ℕ → ℚ) (hinp : ∀ m, inp m = 0) (n : ℕ) (pl : Peaklim × Loc)
    (hbuf : ∀ j i, pl.1.dbuff j i = 0) (hout : ∀ q ∈ pl.2.out, q = 0) :
    (∀ j i, (doSpan inp n pl).1.dbuff j i = 0) ∧ (∀ q ∈ (doSpan inp n pl).2.out, q = 0) := by
  have hdet := spanDetect_fst_dbuff_zero pl.1 pl.2 inp n hinp hbuf
  rw [doSpan_eq]
  set pl1 := spanDetect pl.1 pl.2 inp n with hpl1
  have hdet1 : ∀ j i, ({ pl1.1 with c1 := pl1.1.c1 - n } : Peaklim).dbuff j i = 0 := hdet
  have hout1 : ∀ q ∈ pl1.2.out, q = 0 := by
    rw [hpl1, spanDetect_snd_out]; exact hout
  by_cases hc : pl1.1.c1 - n = 0
  · rw [if_pos hc]
    have hb : ∀ j i, (boundary { pl1.1 with c1 := pl1.1.c1 - n } pl1.2).1.dbuff j i = 0 := by
      rw [boundary_fst_dbuff]; exact hdet1
    have ho : ∀ q ∈ (boundary { pl1.1 with c1 := pl1.1.c1 - n } pl1.2).2.out, q = 0 := by
      rw [boundary_snd_out]; exact hout1
    refine ⟨fun j i => ?_, fun q hq => ?_⟩
    · rw [spanFinish_fst]; exact hb j i
    · rw [spanFinish_out] at hq
      exact outLoop_out_zero _ hb n _ ho q hq
  · rw [if_neg hc]
    refine ⟨fun j i => ?_, fun q hq => ?_⟩
    · rw [spanFinish_fst]; exact hdet1 j i
    · rw [spanFinish_out] at hq
      exact outLoop_out_zero _ hdet1 n _ hout1 q hq

theorem loopGo_zero (inp : ℕ → ℚ) (hinp : ∀ m, inp m = 0) :
    ∀ fuel nframes pl, (∀ j i, (pl : Peaklim × Loc).1.dbuff j i = 0) → (∀ q ∈ pl.2.out, q = 0) →
      (∀ j i, (loopGo inp fuel nframes pl).1.dbuff j i = 0) ∧
      (∀ q ∈ (loopGo inp fuel nframes pl).2.out, q = 0) := by
  intro fuel
  induction fuel with
  | zero => intro nframes pl hbuf hout; exact ⟨hbuf, hout⟩
  | succ fuel ih =>
    intro nframes pl hbuf hout
    unfold loopGo
    by_cases hn : (if pl.1.c1 < nframes then pl.1.c1 else nframes) = 0
    · simp only [hn, if_pos rfl]
      simp only [if_true]
      exact ⟨hbuf, hout⟩
    · simp only [if_neg hn]
      obtain ⟨hb, ho⟩ := doSpan_zero inp hinp _ pl hbuf hout
      exact ih _ _ hb ho

/-- Claim C9 (confirmed).  After any `init`, for any sequence of `process`
calls whose input samples are all exactly 0, every output sample of every
call is exactly 0 — in particular the first `get_latency()` samples and
everything after them.  (The delay rings stay identically zero through
such a run, and each emitted sample is `z3` times a ring entry.) -/
theorem c9_silent_output (s : Peaklim) (h : ZeroRun s) :
    (∀ j i, s.dbuff j i = 0) ∧
    ∀ n, ∀ q ∈ (s.process n (fun _ => 0)).2, q = 0 := by
  have hbuf : ∀ j i, s.dbuff j i = 0 := by
    induction h with
    | init f c s0 => intro j i; rfl
    | step s0 n _ ih =>
      intro j i
      show (loopGo (fun _ => 0) n n _).1.dbuff j i = 0
      exact (loopGo_zero (fun _ => 0) (fun _ => rfl) n n _ ih (by simp)).1 j i
  refine ⟨hbuf, fun n => ?_⟩
  show ∀ q ∈ (loopGo (fun _ => 0) n n _).2.out, q = 0
  exact (loopGo_zero (fun _ => 0) (fun _ => rfl) n n _ hbuf (by simp)).2

/-- A chunk-aligned index below a `div1`-multiple size stays in bounds
for the whole rest of its chunk. -/
theorem ring_step_le (div1 dsize ri c1 : ℕ) (hpos : 0 < div1) (hdvd : div1 ∣ dsize)
    (hri : ri < dsize) (hmod : (ri + c1) % div1 = 0) (hc1 : c1 ≤ div1) :
    ri + c1 ≤ dsize := by
  obtain ⟨a, ha⟩ := Nat.dvd_of_mod_eq_zero hmod
  obtain ⟨m, hm⟩ := hdvd
  by_contra hlt
  push_neg at hlt
  have h1 : div1 * m < div1 * a := by omega
  have h2 : m < a := lt_of_mul_lt_mul_left h1 (Nat.zero_le div1)
  have h3 : div1 * (m + 1) ≤ div1 * a := Nat.mul_le_mul_left div1 h2
  have h4 : div1 * (m + 1) = div1 * m + div1 := by ring
  omega

theorem mod_add_helper (div1 dsize x y : ℕ) (h : div1 ∣ dsize) :
    (x % dsize + y) % div1 = (x + y) % div1 := by
  conv_lhs => rw [Nat.add_mod]
  rw [Nat.mod_mod_of_dvd x h, ← Nat.add_mod]

theorem sibAux_true (dsize div1 : ℕ) (hpos : 0 < div1) (hdvd : div1 ∣ dsize)
    (hds : 0 < dsize) :
    ∀ fuel c1 ri wi nframes,
      1 ≤ c1 → c1 ≤ div1 → (ri + c1) % div1 = 0 → ri < dsize →
      (wi + c1) % div1 = 0 → wi < dsize →
      sibAux dsize div1 fuel c1 ri wi nframes = true := by
  intro fuel
  induction fuel with
  | zero => intro c1 ri wi nframes _ _ _ _ _ _; rfl
  | succ fuel ih =>
    intro c1 ri wi nframes hc1 hcd hrm hrb hwm hwb
    have hnc : (if c1 < nframes then c1 else nframes) ≤ c1 := by
      by_cases hlt : c1 < nframes
      · rw [if_pos hlt]
      · rw [if_neg hlt]; omega
    simp only [sibAux]
    set n := if c1 < nframes then c1 else nframes with hn
    by_cases h0 : n = 0
    · rw [if_pos h0]
    · rw [if_neg h0]
      have hwin : wi + n ≤ dsize :=
        le_trans (Nat.add_le_add_left hnc wi) (ring_step_le div1 dsize wi c1 hpos hdvd hwb hwm hcd)
      have hrin : ri + n ≤ dsize :=
        le_trans (Nat.add_le_add_left hnc ri) (ring_step_le div1 dsize ri c1 hpos hdvd hrb hrm hcd)
      rw [decide_eq_true hwin, decide_eq_true hrin]
      simp only [Bool.true_and]
      by_cases hcz : c1 - n = 0
      · rw [if_pos hcz]
        have hnceq : n = c1 := by omega
        apply ih div1 ((ri + n) % dsize) ((wi + n) % dsize) (nframes - n) hpos le_rfl
        · rw [Nat.add_mod_right, Nat.mod_mod_of_dvd _ hdvd, hnceq]
          exact hrm
        · exact Nat.mod_lt _ hds
        · rw [Nat.add_mod_right, Nat.mod_mod_of_dvd _ hdvd, hnceq]
          exact hwm
        · exact Nat.mod_lt _ hds
      · rw [if_neg hcz]
        apply ih (c1 - n) ((ri + n) % dsize) ((wi + n) % dsize) (nframes - n) (by omega) (by omega)
        · rw [mod_add_helper div1 dsize _ _ hdvd]
          have harg : ri + n + (c1 - n) = ri + c1 := by omega
          rw [harg]
          exact hrm
        · exact Nat.mod_lt _ hds
        · rw [mod_add_helper div1 dsize _ _ hdvd]
          have harg : wi + n + (c1 - n) = wi + c1 := by omega
          rw [harg]
          exact hwm
        · exact Nat.mod_lt _ hds

theorem div1Of_cases (f : ℚ) : div1Of f = 8 ∨ div1Of f = 16 ∨ div1Of f = 32 := by
  unfold div1Of
  split_ifs with h1 h2
  · right; right; rfl
  · right; left; rfl
  · left; rfl

theorem div1Of_dvd_64 (f : ℚ) : div1Of f ∣ 64 := by
  rcases div1Of_cases f with h | h | h <;> rw [h] <;> decide

theorem div1Of_pos (f : ℚ) : 0 < div1Of f := by
  rcases div1Of_cases f with h | h | h <;> rw [h] <;> decide

theorem div1Of_ge_8 (f : ℚ) : 8 ≤ div1Of f := by
  rcases div1Of_cases f with h | h | h <;> rw [h] <;> decide

theorem init_invB (f : ℚ) (c : ℕ) (s : Peaklim) : InvB (Peaklim.init f c s) := by
  obtain ⟨e, he⟩ := ringSize_shape (k1Of f * div1Of f + div1Of f)
  refine ⟨div1Of_pos f, le_rfl, ?_, ?_, dvd_mul_left (div1Of f) (k1Of f), ?_, div1Of_pos f, ringSize_ge_64 _⟩
  · show (0 + div1Of f) % div1Of f = 0
    rw [Nat.zero_add, Nat.mod_self]
  · show (0 : ℕ) < ringSize (k1Of f * div1Of f + div1Of f)
    have h64 := ringSize_ge_64 (k1Of f * div1Of f + div1Of f)
    omega
  · show div1Of f ∣ ringSize (k1Of f * div1Of f + div1Of f)
    rw [he]
    exact dvd_mul_of_dvd_left (div1Of_dvd_64 f) (2 ^ e)

/-- The InvB-relevant fields are untouched by the four setters. -/
theorem setters_fields (s : Peaklim) (v : ℚ) (b : Bool) :
    ((s.set_inpgain_lin v).c1 = s.c1 ∧ (s.set_inpgain_lin v).div1 = s.div1 ∧
      (s.set_inpgain_lin v).delri = s.delri ∧ (s.set_inpgain_lin v).dsize = s.dsize ∧
      (s.set_inpgain_lin v).delay = s.delay) ∧
    ((s.set_threshold_lin v).c1 = s.c1 ∧ (s.set_threshold_lin v).div1 = s.div1 ∧
      (s.set_threshold_lin v).delri = s.delri ∧ (s.set_threshold_lin v).dsize = s.dsize ∧
      (s.set_threshold_lin v).delay = s.delay) ∧
    ((s.set_release v).c1 = s.c1 ∧ (s.set_release v).div1 = s.div1 ∧
      (s.set_release v).delri = s.delri ∧ (s.set_release v).dsize = s.dsize ∧
      (s.set_release v).delay = s.delay) ∧
    ((s.set_truepeak b).c1 = s.c1 ∧ (s.set_truepeak b).div1 = s.div1 ∧
      (s.set_truepeak b).delri = s.delri ∧ (s.set_truepeak b).dsize = s.dsize ∧
      (s.set_truepeak b).delay = s.delay) := by
  refine ⟨⟨rfl, rfl, rfl, rfl, rfl⟩, ⟨rfl, rfl, rfl, rfl, rfl⟩, ⟨rfl, rfl, rfl, rfl, rfl⟩, ?_⟩
  unfold Peaklim.set_truepeak
  split_ifs <;> exact ⟨rfl, rfl, rfl, rfl, rfl⟩

/-- InvB only looks at `c1`, `div1`, `delri`, `dsize`, `delay`. -/
theorem invB_of_fields (s s' : Peaklim) (h : InvB s)
    (h1 : s'.c1 = s.c1) (h2 : s'.div1 = s.div1) (h3 : s'.delri = s.delri)
    (h4 : s'.dsize = s.dsize) (h5 : s'.delay = s.delay) : InvB s' := by
  obtain ⟨a1, a2, a3, a4, a5, a6, a7, a8⟩ := h
  exact ⟨h1 ▸ a1, h2 ▸ h1 ▸ a2, h2 ▸ h3 ▸ h1 ▸ a3, h4 ▸ h3 ▸ a4,
    h5 ▸ h2 ▸ a5, h4 ▸ h2 ▸ a6, h2 ▸ a7, h4 ▸ a8⟩

theorem boundary_fields (p : Peaklim) (l : Loc) :
    (boundary p l).1.div1 = p.div1 ∧ (boundary p l).1.dsize = p.dsize ∧
    (boundary p l).1.delay = p.delay ∧ (boundary p l).1.c1 = p.div1 ∧
    (boundary p l).2.ri = l.ri := by
  by_cases h : p.c2 - 1 = 0 <;> simp [boundary, h]

theorem outLoop_idx (p : Peaklim) : ∀ n l, (outLoop p n l).ri = l.ri ∧ (outLoop p n l).wi = l.wi := by
  intro n
  induction n with
  | zero => intro l; exact ⟨rfl, rfl⟩
  | succ n ih => intro l; exact ih l

theorem doSpan_fields (inp : ℕ → ℚ) (n : ℕ) (pl : Peaklim × Loc) :
    (doSpan inp n pl).1.div1 = pl.1.div1 ∧ (doSpan inp n pl).1.dsize = pl.1.dsize ∧
    (doSpan inp n pl).1.delay = pl.1.delay ∧
    (doSpan inp n pl).1.c1 = (if pl.1.c1 - n = 0 then pl.1.div1 else pl.1.c1 - n) ∧
    (doSpan inp n pl).2.ri = (pl.2.ri + n) % pl.1.dsize := by
  rw [doSpan_eq]
  by_cases h : (spanDetect pl.1 pl.2 inp n).1.c1 - n = 0
  · have h' : pl.1.c1 - n = 0 := h
    rw [if_pos h, if_pos h', spanFinish_fst, spanFinish_ri]
    obtain ⟨hb1, hb2, hb3, hb4, hb5⟩ := boundary_fields
      { (spanDetect pl.1 pl.2 inp n).1 with c1 := (spanDetect pl.1 pl.2 inp n).1.c1 - n }
      (spanDetect pl.1 pl.2 inp n).2
    refine ⟨hb1.trans rfl, hb2.trans rfl, hb3.trans rfl, hb4.trans rfl, ?_⟩
    rw [(outLoop_idx _ n _).1, hb5, hb2]
    rfl
  · have h' : ¬ pl.1.c1 - n = 0 := h
    rw [if_neg h, if_neg h', spanFinish_fst, spanFinish_ri]
    refine ⟨rfl, rfl, rfl, rfl, ?_⟩
    rw [(outLoop_idx _ n _).1]
    rfl

theorem doSpan_invL (inp : ℕ → ℚ) (n : ℕ) (pl : Peaklim × Loc)
    (h : InvL pl.1 pl.2.ri) (hnc : n ≤ pl.1.c1) :
    InvL (doSpan inp n pl).1 (doSpan inp n pl).2.ri := by
  obtain ⟨h1, h2, h3, h4, h5, h6, h7, h8⟩ := h
  obtain ⟨hd1, hd2, hd3, hd4, hd5⟩ := doSpan_fields inp n pl
  refine ⟨?_, ?_, ?_, ?_, ?_, ?_, ?_, ?_⟩
  · rw [hd4]
    by_cases hz : pl.1.c1 - n = 0
    · rw [if_pos hz]; exact h7
    · rw [if_neg hz]; omega
  · rw [hd4, hd1]
    by_cases hz : pl.1.c1 - n = 0
    · rw [if_pos hz]
    · rw [if_neg hz]; omega
  · rw [hd1, hd4, hd5]
    by_cases hz : pl.1.c1 - n = 0
    · rw [if_pos hz]
      have hnceq : n = pl.1.c1 := by omega
      rw [Nat.add_mod_right, Nat.mod_mod_of_dvd _ h6, hnceq]
      exact h3
    · rw [if_neg hz]
      rw [mod_add_helper pl.1.div1 pl.1.dsize _ _ h6]
      have harg : pl.2.ri + n + (pl.1.c1 - n) = pl.2.ri + pl.1.c1 := by omega
      rw [harg]
      exact h3
  · rw [hd2, hd5]
    exact Nat.mod_lt _ (by omega)
  · rw [hd1, hd3]; exact h5
  · rw [hd1, hd2]; exact h6
  · rw [hd1]; exact h7
  · rw [hd2]; exact h8

theorem loopGo_invL (inp : ℕ → ℚ) :
    ∀ fuel nframes pl, InvL (pl : Peaklim × Loc).1 pl.2.ri →
      InvL (loopGo inp fuel nframes pl).1 (loopGo inp fuel nframes pl).2.ri := by
  intro fuel
  induction fuel with
  | zero => intro nframes pl h; exact h
  | succ fuel ih =>
    intro nframes pl h
    simp only [loopGo]
    by_cases h0 : (if pl.1.c1 < nframes then pl.1.c1 else nframes) = 0
    · rw [if_pos h0]
      exact h
    · rw [if_neg h0]
      set n := if pl.1.c1 < nframes then pl.1.c1 else nframes with hn
      have hnc : n ≤ pl.1.c1 := by
        rw [hn]
        by_cases hlt : pl.1.c1 < nframes
        · rw [if_pos hlt]
        · rw [if_neg hlt]; omega
      exact ih _ _ (doSpan_invL inp n pl h hnc)

theorem process_invB (s : Peaklim) (h : InvB s) (n : ℕ) (inp : ℕ → ℚ) :
    InvB (s.process n inp).1 := by
  have h0 : InvL s s.delri := h
  have hlg := loopGo_invL inp n n
    ({ s with rstat := (if s.rstat then ((0 : ℚ), s.gmax, s.gmin, false) else (s.peak, s.gmin, s.gmax, s.rstat)).2.2.2 },
      { ri := s.delri, wi := (s.delri + s.delay) % s.dsize, k := 0,
        h1 := s.hist1.vmin, h2 := s.hist2.vmin, m1 := s.m1, m2 := s.m2,
        z1 := s.z1, z2 := s.z2, z3 := s.z3,
        pk := (if s.rstat then ((0 : ℚ), s.gmax, s.gmin, false) else (s.peak, s.gmin, s.gmax, s.rstat)).1,
        t0 := (if s.rstat then ((0 : ℚ), s.gmax, s.gmin, false) else (s.peak, s.gmin, s.gmax, s.rstat)).2.1,
        t1 := (if s.rstat then ((0 : ℚ), s.gmax, s.gmin, false) else (s.peak, s.gmin, s.gmax, s.rstat)).2.2.1,
        out := [] }) h0
  exact hlg

theorem reach_invB (s : Peaklim) (h : Reach (fun _ => True) s) : InvB s := by
  induction h with
  | init f c s0 => exact init_invB f c s0
  | inpgain s0 v _ _ ih =>
    exact invB_of_fields s0 _ ih (setters_fields s0 v false).1.1 (setters_fields s0 v false).1.2.1
      (setters_fields s0 v false).1.2.2.1 (setters_fields s0 v false).1.2.2.2.1 (setters_fields s0 v false).1.2.2.2.2
  | threshold s0 v _ _ ih =>
    exact invB_of_fields s0 _ ih (setters_fields s0 v false).2.1.1 (setters_fields s0 v false).2.1.2.1
      (setters_fields s0 v false).2.1.2.2.1 (setters_fields s0 v false).2.1.2.2.2.1 (setters_fields s0 v false).2.1.2.2.2.2
  | release s0 v _ ih =>
    exact invB_of_fields s0 _ ih (setters_fields s0 v false).2.2.1.1 (setters_fields s0 v false).2.2.1.2.1
      (setters_fields s0 v false).2.2.1.2.2.1 (setters_fields s0 v false).2.2.1.2.2.2.1 (setters_fields s0 v false).2.2.1.2.2.2.2
  | tp s0 b _ ih =>
    exact invB_of_fields s0 _ ih (setters_fields s0 0 b).2.2.2.1 (setters_fields s0 0 b).2.2.2.2.1
      (setters_fields s0 0 b).2.2.2.2.2.1 (setters_fields s0 0 b).2.2.2.2.2.2.1 (setters_fields s0 0 b).2.2.2.2.2.2.2
  | processStep s0 n inp _ ih => exact process_invB s0 ih n inp

/-- Claim C5 (confirmed).  In every state reachable by any sequence of
`init`, setter and `process` calls, the structural ring facts hold
(`1 ≤ c1 ≤ div1`, read index below `dsize` and chunk-aligned with the
countdown, `div1` dividing both `delay` and the power-of-two `dsize ≥ 64`),
and consequently, for a `process` call of any frame count, every raw
unmasked delay-buffer index the call touches — `wi + i` written by
`detStep`, `ri + i` read by `outStep`, with `wi = (delri + delay) % dsize`
and span lengths clamped to the countdown exactly as in `loopGo` — stays
strictly below the allocated `dsize` (the `spansInBounds` mirror of the
call's index arithmetic evaluates to `true`). -/
theorem c5_ring_access_in_bounds (s : Peaklim) (h : Reach (fun _ => True) s) (nframes : ℕ) :
    InvB s ∧
    spansInBounds s.dsize s.div1 s.c1 s.delri ((s.delri + s.delay) % s.dsize) nframes = true := by
  have hib := reach_invB s h
  refine ⟨hib, ?_⟩
  obtain ⟨a1, a2, a3, a4, a5, a6, a7, a8⟩ := hib
  apply sibAux_true s.dsize s.div1 a7 a6 (by omega) nframes s.c1 s.delri _ nframes a1 a2 a3 a4
  · obtain ⟨t, ht⟩ := a5
    rw [mod_add_helper s.div1 s.dsize _ _ a6]
    have harg : s.delri + s.delay + s.c1 = s.delri + s.c1 + t * s.div1 := by
      rw [ht]; ring
    rw [harg, Nat.add_mul_mod_self_right, a3]
  · exact Nat.mod_lt _ (by omega)

/-- Claim C5, witness: the freshly initialised engine at `fs = 8000`,
one channel, for a 12-frame call. -/
theorem c5_ring_access_in_bounds_witness :
    Reach (fun _ => True) (Peaklim.init 8000 1 Peaklim.new) ∧
    (InvB (Peaklim.init 8000 1 Peaklim.new) ∧
      spansInBounds (Peaklim.init 8000 1 Peaklim.new).dsize (Peaklim.init 8000 1 Peaklim.new).div1
        (Peaklim.init 8000 1 Peaklim.new).c1 (Peaklim.init 8000 1 Peaklim.new).delri
        (((Peaklim.init 8000 1 Peaklim.new).delri + (Peaklim.init 8000 1 Peaklim.new).delay) % (Peaklim.init 8000 1 Peaklim.new).dsize) 12 = true) :=
  ⟨Reach.init 8000 1 Peaklim.new trivial,
   c5_ring_access_in_bounds (Peaklim.init 8000 1 Peaklim.new) (Reach.init 8000 1 Peaklim.new trivial) 12⟩

/-- The smoothing update `z += w (h - z)` keeps `(0,1]` when `w ∈ (0,1]`. -/
theorem zstep_in (w z h : ℚ) (hw : 0 < w) (hw1 : w ≤ 1) (hz : 0 < z) (hz1 : z ≤ 1)
    (hh : 0 < h) (hh1 : h ≤ 1) : 0 < z + w * (h - z) ∧ z + w * (h - z) ≤ 1 := by
  constructor
  · nlinarith [mul_nonneg (by linarith : (0:ℚ) ≤ 1 - w) hz.le, mul_pos hw hh]
  · nlinarith [mul_nonneg (by linarith : (0:ℚ) ≤ 1 - w) (by linarith : (0:ℚ) ≤ 1 - z),
      mul_nonneg hw.le (by linarith : (0:ℚ) ≤ 1 - h)]

/-- The value pushed into a history at a chunk boundary,
`m > 1 ? 1/m : 1`, is always in `(0,1]`. -/
theorem clip_in (m : ℚ) : zIn (if m > 1 then 1 / m else 1) := by
  refine ⟨?_, ?_⟩ <;> split_ifs with h
  · exact div_pos one_pos (by linarith)
  · exact one_pos
  · rw [div_le_one (by linarith)]; linarith
  · exact le_rfl

theorem update_in (f : ℕ → ℚ) (w : ℕ) (v : ℚ) (hf : ∀ i, 0 < f i ∧ f i ≤ 1)
    (hv : 0 < v ∧ v ≤ 1) : ∀ i, 0 < Function.update f w v i ∧ Function.update f w v i ≤ 1 := by
  intro i
  by_cases hi : i = w
  · rw [hi, Function.update_same]; exact hv
  · rw [Function.update_noteq hi]; exact hf i

theorem scanStep_in (hist : ℕ → ℚ) (i hlen k : ℕ) (p : ℚ × ℤ)
    (hh : ∀ m, 0 < hist m ∧ hist m ≤ 1) (hp : 0 < p.1 ∧ p.1 ≤ 1) :
    0 < (Histmin.scanStep hist i hlen k p).1 ∧ (Histmin.scanStep hist i hlen k p).1 ≤ 1 := by
  unfold Histmin.scanStep
  split_ifs with h
  · exact hh _
  · exact hp

theorem scanFold_in (hist : ℕ → ℚ) (i hlen : ℕ) (hh : ∀ m, 0 < hist m ∧ hist m ≤ 1) :
    ∀ (ks : List ℕ) (p : ℚ × ℤ), 0 < p.1 ∧ p.1 ≤ 1 →
      0 < (ks.foldl (fun p k => Histmin.scanStep hist i hlen k p) p).1 ∧
      (ks.foldl (fun p k => Histmin.scanStep hist i hlen k p) p).1 ≤ 1 := by
  intro ks
  induction ks with
  | nil => intro p hp; exact hp
  | cons k ks ih => intro p hp; exact ih _ (scanStep_in hist i hlen k p hh hp)

theorem writeVH_in (h : Histmin) (v : ℚ)
    (hh : ∀ i, 0 < h.hist i ∧ h.hist i ≤ 1) (hm : 0 < h.vmin ∧ h.vmin ≤ 1)
    (hv : 0 < v ∧ v ≤ 1) : 0 < (writeVH h v).1 ∧ (writeVH h v).1 ≤ 1 := by
  unfold writeVH
  split_ifs with h1 h2
  · exact hv
  · exact scanFold_in _ _ _ (update_in h.hist h.wind v hh hv) _ _ hv
  · exact hm

/-- Histmin::write preserves `(0,1]`-valuedness of the history, the
cached minimum, and the returned minimum, whenever the written value is
in `(0,1]`. -/
theorem histmin_write_ok (h : Histmin) (v : ℚ)
    (hh : ∀ i, 0 < h.hist i ∧ h.hist i ≤ 1) (hm : 0 < h.vmin ∧ h.vmin ≤ 1)
    (hv : 0 < v ∧ v ≤ 1) :
    (∀ i, 0 < (h.write v).1.hist i ∧ (h.write v).1.hist i ≤ 1) ∧
    (0 < (h.write v).1.vmin ∧ (h.write v).1.vmin ≤ 1) ∧
    (0 < (h.write v).2 ∧ (h.write v).2 ≤ 1) := by
  rw [write_eq]
  exact ⟨update_in h.hist h.wind v hh hv, writeVH_in h v hh hm hv, writeVH_in h v hh hm hv⟩

theorem k1Of_pos (f : ℚ) (hf : 0 < f) : 1 ≤ k1Of f := by
  have h8 := div1Of_ge_8 f
  have hd : (0:ℚ) < (div1Of f : ℚ) := by
    have h8Q : (8:ℚ) ≤ (div1Of f : ℚ) := by exact_mod_cast h8
    linarith
  have harg : (0:ℚ) < (3 / 2500 : ℚ) * f / (div1Of f : ℚ) :=
    div_pos (mul_pos (by norm_num) hf) hd
  have hc : (0:ℤ) < ⌈(3 / 2500 : ℚ) * f / (div1Of f : ℚ)⌉ := Int.ceil_pos.2 harg
  unfold k1Of
  omega

/-- Above `20000/3` Hz the look-ahead is at least 16 samples, so
`w1 = 10/delay < 1`; this is the exact condition under which claim C6's
invariant holds. -/
theorem delay_ge_16 (f : ℚ) (hf : 20000 / 3 < f) : 16 ≤ k1Of f * div1Of f := by
  have hfpos : (0:ℚ) < f := by linarith
  have hk1 := k1Of_pos f hfpos
  rcases div1Of_cases f with h | h | h
  · have harg : (1:ℚ) < (3 / 2500 : ℚ) * f / (div1Of f : ℚ) := by
      rw [h]
      push_cast
      rw [lt_div_iff (by norm_num : (0:ℚ) < 8)]
      linarith
    have hc : (1:ℤ) < ⌈(3 / 2500 : ℚ) * f / (div1Of f : ℚ)⌉ :=
      Int.lt_ceil.2 (by exact_mod_cast harg)
    have hk2 : 2 ≤ k1Of f := by
      unfold k1Of
      omega
    rw [h]
    omega
  · rw [h]; omega
  · rw [h]; omega

theorem init_envInv (f : ℚ) (c : ℕ) (s : Peaklim) (hf : 20000 / 3 < f) :
    EnvInv (Peaklim.init f c s) := by
  have hfpos : (0:ℚ) < f := by linarith
  have hd16 := delay_ge_16 f hf
  have hdQ : (16:ℚ) ≤ ((k1Of f * div1Of f : ℕ) : ℚ) := by exact_mod_cast hd16
  have hw1pos : (0:ℚ) < 10 / ((k1Of f * div1Of f : ℕ) : ℚ) := div_pos (by norm_num) (by linarith)
  have hw1le : 10 / ((k1Of f * div1Of f : ℕ) : ℚ) ≤ 1 := by
    rw [div_le_one (by linarith)]
    linarith
  refine ⟨hf, ⟨hw1pos, hw1le⟩, ⟨?_, ?_⟩, ⟨?_, ?_⟩,
    ⟨fun i => ⟨one_pos, le_rfl⟩, one_pos, le_rfl⟩,
    ⟨fun i => ⟨one_pos, le_rfl⟩, one_pos, le_rfl⟩,
    ⟨one_pos, le_rfl⟩, ⟨one_pos, le_rfl⟩, ⟨one_pos, le_rfl⟩⟩
  · show (0:ℚ) < 10 / ((k1Of f * div1Of f : ℕ) : ℚ) / 8
    linarith
  · show 10 / ((k1Of f * div1Of f : ℕ) : ℚ) / 8 ≤ 1
    linarith
  · show (0:ℚ) < 1 / ((1 / 100 : ℚ) * f)
    exact div_pos one_pos (by linarith)
  · show 1 / ((1 / 100 : ℚ) * f) ≤ 1
    rw [div_le_one (by linarith)]
    linarith

theorem setters_envInv (s : Peaklim) (v : ℚ) (b : Bool) (h : EnvInv s) :
    EnvInv (s.set_inpgain_lin v) ∧ EnvInv (s.set_threshold_lin v) ∧
    EnvInv (s.set_release v) ∧ EnvInv (s.set_truepeak b) := by
  obtain ⟨h0, h1, h2, h3, h4, h5, h6, h7, h8⟩ := h
  have hfpos : (0:ℚ) < s.fsamp := by linarith
  refine ⟨⟨h0, h1, h2, h3, h4, h5, h6, h7, h8⟩, ⟨h0, h1, h2, h3, h4, h5, h6, h7, h8⟩, ?_, ?_⟩
  · refine ⟨h0, h1, h2, ⟨?_, ?_⟩, h4, h5, h6, h7, h8⟩
    · show (0:ℚ) < 1 / ((if (if v > 1 then (1:ℚ) else v) < 1 / 1000 then 1 / 1000
        else (if v > 1 then (1:ℚ) else v)) * s.fsamp)
      apply div_pos one_pos
      split_ifs with hv1 hv2 <;> nlinarith
    · show 1 / ((if (if v > 1 then (1:ℚ) else v) < 1 / 1000 then 1 / 1000
        else (if v > 1 then (1:ℚ) else v)) * s.fsamp) ≤ 1
      have hlow : (1:ℚ)/1000 ≤ (if (if v > 1 then (1:ℚ) else v) < 1 / 1000 then 1 / 1000
          else (if v > 1 then (1:ℚ) else v)) := by
        split_ifs with hv1 hv2 <;> linarith
      have hstep : (1:ℚ)/1000 * s.fsamp ≤ (if (if v > 1 then (1:ℚ) else v) < 1 / 1000 then 1 / 1000
          else (if v > 1 then (1:ℚ) else v)) * s.fsamp :=
        mul_le_mul_of_nonneg_right hlow hfpos.le
      rw [div_le_one (by nlinarith)]
      nlinarith
  · unfold Peaklim.set_truepeak
    split_ifs
    · exact ⟨h0, h1, h2, h3, h4, h5, h6, h7, h8⟩
    · exact ⟨h0, h1, h2, h3, h4, h5, h6, h7, h8⟩

theorem boundary_env (p : Peaklim) (l : Loc) (h : EnvInvL (p, l)) : EnvInvL (boundary p l) := by
  obtain ⟨h0, h1, h2, h3, h4, h5, h6, h7, h8, h9, h10⟩ := h
  have W1 := histmin_write_ok p.hist1 (if l.m1 * p.gt > 1 then 1 / (l.m1 * p.gt) else 1)
    h4.1 h4.2 (clip_in (l.m1 * p.gt))
  have W2 := histmin_write_ok p.hist2 (if l.m2 * p.gt > 1 then 1 / (l.m2 * p.gt) else 1)
    h5.1 h5.2 (clip_in (l.m2 * p.gt))
  simp only [boundary]
  by_cases hc : p.c2 - 1 = 0
  · rw [if_pos hc]
    exact ⟨h0, h1, h2, h3, ⟨W1.1, W1.2.1⟩, ⟨W2.1, W2.2.1⟩, h6, h7, h8, W1.2.2, W2.2.2⟩
  · rw [if_neg hc]
    exact ⟨h0, h1, h2, h3, ⟨W1.1, W1.2.1⟩, h5, h6, h7, h8, W1.2.2, h10⟩

/-- The `z3` attack/release branch of the output loop keeps `(0,1]`. -/
theorem z3step_in {w1 w3 z3 zz : ℚ} (hw1 : zIn w1) (hw3 : zIn w3) (hz3 : zIn z3)
    (hzz : zIn zz) :
    zIn (if zz < z3 then z3 + w1 * (zz - z3) else z3 + w3 * (zz - z3)) := by
  split_ifs
  · exact zstep_in w1 z3 zz hw1.1 hw1.2 hz3.1 hz3.2 hzz.1 hzz.2
  · exact zstep_in w3 z3 zz hw3.1 hw3.2 hz3.1 hz3.2 hzz.1 hzz.2

theorem outStep_env (p : Peaklim) (i : ℕ) (l : Loc)
    (hw1 : zIn p.w1) (hw2 : zIn p.w2) (hw3 : zIn p.w3)
    (hz1 : zIn l.z1) (hz2 : zIn l.z2) (hz3 : zIn l.z3)
    (hh1 : zIn l.h1) (hh2 : zIn l.h2) :
    zIn (outStep p i l).z1 ∧ zIn (outStep p i l).z2 ∧ zIn (outStep p i l).z3 := by
  have hz1' : zIn (l.z1 + p.w1 * (l.h1 - l.z1)) :=
    zstep_in p.w1 l.z1 l.h1 hw1.1 hw1.2 hz1.1 hz1.2 hh1.1 hh1.2
  have hz2' : zIn (l.z2 + p.w2 * (l.h2 - l.z2)) :=
    zstep_in p.w2 l.z2 l.h2 hw2.1 hw2.2 hz2.1 hz2.2 hh2.1 hh2.2
  have hzz : zIn (if l.z2 + p.w2 * (l.h2 - l.z2) < l.z1 + p.w1 * (l.h1 - l.z1)
      then l.z2 + p.w2 * (l.h2 - l.z2) else l.z1 + p.w1 * (l.h1 - l.z1)) := by
    split_ifs
    · exact hz2'
    · exact hz1'
  exact ⟨hz1', hz2', z3step_in hw1 hw3 hz3 hzz⟩

theorem outLoop_env (p : Peaklim) (hw1 : zIn p.w1) (hw2 : zIn p.w2) (hw3 : zIn p.w3) :
    ∀ n l, zIn l.z1 → zIn l.z2 → zIn l.z3 → zIn l.h1 → zIn l.h2 →
      zIn (outLoop p n l).z1 ∧ zIn (outLoop p n l).z2 ∧ zIn (outLoop p n l).z3 ∧
      (outLoop p n l).h1 = l.h1 ∧ (outLoop p n l).h2 = l.h2 := by
  intro n
  induction n with
  | zero => intro l a b c d e; exact ⟨a, b, c, rfl, rfl⟩
  | succ n ih =>
    intro l a b c d e
    obtain ⟨g1, g2, g3, g4, g5⟩ := ih l a b c d e
    have hstep := outStep_env p n (outLoop p n l) hw1 hw2 hw3 g1 g2 g3 (g4 ▸ d) (g5 ▸ e)
    exact ⟨hstep.1, hstep.2.1, hstep.2.2, g4, g5⟩

theorem spanFinish_env (n : ℕ) (pl2 : Peaklim × Loc) (h : EnvInvL pl2) :
    EnvInvL (spanFinish n pl2) := by
  obtain ⟨h0, h1, h2, h3, h4, h5, h6, h7, h8, h9, h10⟩ := h
  obtain ⟨g1, g2, g3, g4, g5⟩ := outLoop_env pl2.1 h1 h2 h3 n pl2.2 h6 h7 h8 h9 h10
  exact ⟨h0, h1, h2, h3, h4, h5, g1, g2, g3, g4 ▸ h9, g5 ▸ h10⟩

theorem doSpan_env (inp : ℕ → ℚ) (n : ℕ) (pl : Peaklim × Loc) (h : EnvInvL pl) :
    EnvInvL (doSpan inp n pl) := by
  have h1 : EnvInvL (spanDetect pl.1 pl.2 inp n) := h
  rw [doSpan_eq]
  by_cases hc : (spanDetect pl.1 pl.2 inp n).1.c1 - n = 0
  · rw [if_pos hc]
    exact spanFinish_env _ _ (boundary_env _ _ h1)
  · rw [if_neg hc]
    exact spanFinish_env _ _ h1

theorem loopGo_env (inp : ℕ → ℚ) :
    ∀ fuel nframes pl, EnvInvL pl → EnvInvL (loopGo inp fuel nframes pl) := by
  intro fuel
  induction fuel with
  | zero => intro _ _ h; exact h
  | succ fuel ih =>
    intro nframes pl h
    simp only [loopGo]
    by_cases h0 : (if pl.1.c1 < nframes then pl.1.c1 else nframes) = 0
    · rw [if_pos h0]; exact h
    · rw [if_neg h0]
      exact ih _ _ (doSpan_env inp _ pl h)

theorem process_envInv (s : Peaklim) (h : EnvInv s) (n : ℕ) (inp : ℕ → ℚ) :
    EnvInv (s.process n inp).1 := by
  obtain ⟨h0, h1, h2, h3, h4, h5, h6, h7, h8⟩ := h
  have hlg := loopGo_env inp n n
    ({ s with rstat := (if s.rstat then ((0 : ℚ), s.gmax, s.gmin, false) else (s.peak, s.gmin, s.gmax, s.rstat)).2.2.2 },
      { ri := s.delri, wi := (s.delri + s.delay) % s.dsize, k := 0,
        h1 := s.hist1.vmin, h2 := s.hist2.vmin, m1 := s.m1, m2 := s.m2,
        z1 := s.z1, z2 := s.z2, z3 := s.z3,
        pk := (if s.rstat then ((0 : ℚ), s.gmax, s.gmin, false) else (s.peak, s.gmin, s.gmax, s.rstat)).1,
        t0 := (if s.rstat then ((0 : ℚ), s.gmax, s.gmin, false) else (s.peak, s.gmin, s.gmax, s.rstat)).2.1,
        t1 := (if s.rstat then ((0 : ℚ), s.gmax, s.gmin, false) else (s.peak, s.gmin, s.gmax, s.rstat)).2.2.1,
        out := [] })
    ⟨h0, h1, h2, h3, h4, h5, h6, h7, h8, h4.2, h5.2⟩
  obtain ⟨g0, g1, g2, g3, g4, g5, g6, g7, g8, g9, g10⟩ := hlg
  exact ⟨g0, g1, g2, g3, g4, g5, g6, g7, g8⟩

theorem reach_envInv (s : Peaklim) (h : Reach (fun f => 20000 / 3 < f) s) : EnvInv s := by
  induction h with
  | init f c s0 hf => exact init_envInv f c s0 hf
  | inpgain s0 v _ _ ih => exact (setters_envInv s0 v false ih).1
  | threshold s0 v _ _ ih => exact (setters_envInv s0 v false ih).2.1
  | release s0 v _ ih => exact (setters_envInv s0 v false ih).2.2.1
  | tp s0 b _ ih => exact (setters_envInv s0 0 b ih).2.2.2
  | processStep s0 n inp _ ih => exact process_envInv s0 ih n inp

/-- Claim C6 (corrected).  Provided every `init` of the run uses a sample
rate above `20000/3` Hz (true for every audio rate; it makes the
look-ahead at least 16 samples, so `w1 = 10/delay ≤ 1`), in every state
reachable by `init`, setter and `process` calls the envelopes `z1`, `z2`,
`z3` lie in `(0,1]` and every value stored in `hist1` and `hist2` (all
slots and the cached minimum) lies in `(0,1]`.  At lower rates the claim
fails: see the counterexample. -/
theorem c6_envelope_range (s : Peaklim) (h : Reach (fun f => 20000 / 3 < f) s) :
    (0 < s.z1 ∧ s.z1 ≤ 1) ∧ (0 < s.z2 ∧ s.z2 ≤ 1) ∧ (0 < s.z3 ∧ s.z3 ≤ 1) ∧
    (∀ i, 0 < s.hist1.hist i ∧ s.hist1.hist i ≤ 1) ∧
    (0 < s.hist1.vmin ∧ s.hist1.vmin ≤ 1) ∧
    (∀ i, 0 < s.hist2.hist i ∧ s.hist2.hist i ≤ 1) ∧
    (0 < s.hist2.vmin ∧ s.hist2.vmin ≤ 1) := by
  obtain ⟨h0, h1, h2, h3, h4, h5, h6, h7, h8⟩ := reach_envInv s h
  exact ⟨h6, h7, h8, h4.1, h4.2, h5.1, h5.2⟩

/-- Claim C6, witness: the freshly initialised engine at `fs = 48000`,
two channels. -/
theorem c6_envelope_range_witness :
    Reach (fun f => 20000 / 3 < f) (Peaklim.init 48000 2 Peaklim.new) ∧
    ((0 < (Peaklim.init 48000 2 Peaklim.new).z1 ∧ (Peaklim.init 48000 2 Peaklim.new).z1 ≤ 1) ∧
     (0 < (Peaklim.init 48000 2 Peaklim.new).z2 ∧ (Peaklim.init 48000 2 Peaklim.new).z2 ≤ 1) ∧
     (0 < (Peaklim.init 48000 2 Peaklim.new).z3 ∧ (Peaklim.init 48000 2 Peaklim.new).z3 ≤ 1) ∧
     (∀ i, 0 < (Peaklim.init 48000 2 Peaklim.new).hist1.hist i ∧
        (Peaklim.init 48000 2 Peaklim.new).hist1.hist i ≤ 1) ∧
     (0 < (Peaklim.init 48000 2 Peaklim.new).hist1.vmin ∧
        (Peaklim.init 48000 2 Peaklim.new).hist1.vmin ≤ 1) ∧
     (∀ i, 0 < (Peaklim.init 48000 2 Peaklim.new).hist2.hist i ∧
        (Peaklim.init 48000 2 Peaklim.new).hist2.hist i ≤ 1) ∧
     (0 < (Peaklim.init 48000 2 Peaklim.new).hist2.vmin ∧
        (Peaklim.init 48000 2 Peaklim.new).hist2.vmin ≤ 1)) :=
  ⟨Reach.init 48000 2 Peaklim.new (by norm_num),
   c6_envelope_range (Peaklim.init 48000 2 Peaklim.new)
     (Reach.init 48000 2 Peaklim.new (by norm_num))⟩

/-- With a zero ramp increment the per-channel gain stays 1 and the
delay-ring entries the detection loop writes are the raw input samples,
bounded by `B`. -/
theorem detLoop_bound (B wlf dd : ℚ) (tp : Bool) (nchan j k wi : ℕ) (inp : ℕ → ℚ)
    (hd : dd = 0) (hinp : ∀ m, |inp m| ≤ B) :
    ∀ n c, c.g = 1 → (∀ i, |c.buf i| ≤ B) →
      (detLoop wlf dd tp nchan j k wi inp n c).g = 1 ∧
      ∀ i, |(detLoop wlf dd tp nchan j k wi inp n c).buf i| ≤ B := by
  intro n
  induction n with
  | zero => intro c hg hb; exact ⟨hg, hb⟩
  | succ n ih =>
    intro c hg hb
    obtain ⟨hg', hb'⟩ := ih c hg hb
    refine ⟨?_, ?_⟩
    · show (detLoop wlf dd tp nchan j k wi inp n c).g + dd = 1
      rw [hg', hd, add_zero]
    · intro i
      show |(detStep wlf dd tp nchan j k wi inp n (detLoop wlf dd tp nchan j k wi inp n c)).buf i| ≤ B
      rw [detStep_buf]
      by_cases hi : i = wi + n
      · rw [hi, Function.update_same, hg', one_mul]
        exact hinp _
      · rw [Function.update_noteq hi]
        exact hb' i

theorem chanLoop_bound (B g0 dg wlf : ℚ) (tp : Bool) (nchan : ℕ) (inp : ℕ → ℚ)
    (n k wi : ℕ) (hg0 : g0 = 1) (hdg : dg = 0) (hinp : ∀ m, |inp m| ≤ B) :
    ∀ nch d, (∀ j i, |d.dbuff j i| ≤ B) → d.g = 1 →
      (∀ j i, |(chanLoop g0 dg wlf tp nchan inp n k wi nch d).dbuff j i| ≤ B) ∧
      (chanLoop g0 dg wlf tp nchan inp n k wi nch d).g = 1 := by
  intro nch
  induction nch with
  | zero => intro d hb hg; exact ⟨hb, hg⟩
  | succ m ih =>
    intro d hb hg
    obtain ⟨hb', hg'⟩ := ih d hb hg
    have hc := detLoop_bound B wlf dg tp nchan m k wi inp hdg hinp n
      { g := g0, z := (chanLoop g0 dg wlf tp nchan inp n k wi m d).zlf m,
        r := (chanLoop g0 dg wlf tp nchan inp n k wi m d).zarr m,
        buf := (chanLoop g0 dg wlf tp nchan inp n k wi m d).dbuff m,
        m1 := (chanLoop g0 dg wlf tp nchan inp n k wi m d).m1,
        m2 := (chanLoop g0 dg wlf tp nchan inp n k wi m d).m2 }
      hg0 (fun i => hb' m i)
    refine ⟨?_, ?_⟩
    · intro j i
      show |Function.update (chanLoop g0 dg wlf tp nchan inp n k wi m d).dbuff m _ j i| ≤ B
      by_cases hj : j = m
      · rw [hj, Function.update_same]
        exact hc.2 i
      · rw [Function.update_noteq hj]
        exact hb' j i
    · show (detLoop wlf dg tp nchan m k wi inp n _).g = 1
      exact hc.1

theorem spanDetect_bound (B : ℚ) (p : Peaklim) (l : Loc) (inp : ℕ → ℚ) (n : ℕ)
    (hg0 : p.g0 = 1) (hdg : p.dg = 0) (hinp : ∀ m, |inp m| ≤ B)
    (hb : ∀ j i, |p.dbuff j i| ≤ B) :
    (∀ j i, |(spanDetect p l inp n).1.dbuff j i| ≤ B) ∧ (spanDetect p l inp n).1.g0 = 1 := by
  have hc := chanLoop_bound B p.g0 p.dg p.wlf p.truepeak p.nchan inp n l.k l.wi hg0 hdg hinp
    p.nchan { dbuff := p.dbuff, zlf := p.zlf, zarr := p.z, m1 := l.m1, m2 := l.m2, g := p.g0 }
    hb hg0
  exact ⟨fun j i => hc.1 j i, hc.2⟩

/-- With an identity ramp the boundary's gain recomputation is the
no-change fast path: `|g1 - g0| = 0 < 10⁻⁹`. -/
theorem boundary_g (p : Peaklim) (l : Loc) (h0 : p.g0 = 1) (h1 : p.g1 = 1) (hd : p.dg = 0) :
    (boundary p l).1.g0 = 1 ∧ (boundary p l).1.g1 = 1 ∧ (boundary p l).1.dg = 0 := by
  have hcond : fabsf (p.g1 - p.g0) < 1 / 10 ^ 9 := by
    rw [h0, h1, sub_self]
    show fabsf 0 < 1 / 10 ^ 9
    rw [fabsf_eq_abs, abs_zero]
    norm_num
  simp only [boundary]
  by_cases hc : p.c2 - 1 = 0
  · rw [if_pos hc]
    refine ⟨?_, h1, ?_⟩
    · show (if fabsf (p.g1 - p.g0) < 1 / 10 ^ 9 then (p.g1, (0:ℚ))
        else (p.g0, (p.g1 - p.g0) / ((p.div1 * p.div2 : ℕ) : ℚ))).1 = 1
      rw [if_pos hcond]
      exact h1
    · show (if fabsf (p.g1 - p.g0) < 1 / 10 ^ 9 then (p.g1, (0:ℚ))
        else (p.g0, (p.g1 - p.g0) / ((p.div1 * p.div2 : ℕ) : ℚ))).2 = 0
      rw [if_pos hcond]
  · rw [if_neg hc]
    exact ⟨h0, h1, hd⟩

theorem outStep_out_eq (p : Peaklim) (i : ℕ) (l : Loc) :
    (outStep p i l).out = l.out ++ (List.range p.nchan).map
      (fun j => (outStep p i l).z3 * p.dbuff j (l.ri + i)) := rfl

/-- Each emitted sample is `z3` (in `(0,1]`) times a delay-ring entry,
hence bounded by the ring bound `B`. -/
theorem outLoop_bound (B : ℚ) (p : Peaklim) (hw1 : zIn p.w1) (hw2 : zIn p.w2) (hw3 : zIn p.w3)
    (hbuf : ∀ j i, |p.dbuff j i| ≤ B) :
    ∀ n l, zIn l.z1 → zIn l.z2 → zIn l.z3 → zIn l.h1 → zIn l.h2 →
      (∀ q ∈ l.out, |q| ≤ B) → ∀ q ∈ (outLoop p n l).out, |q| ≤ B := by
  intro n
  induction n with
  | zero => intro l _ _ _ _ _ h; exact h
  | succ n ih =>
    intro l a b c d e h q hq
    obtain ⟨g1, g2, g3, g4, g5⟩ := outLoop_env p hw1 hw2 hw3 n l a b c d e
    have hz3 := (outStep_env p n (outLoop p n l) hw1 hw2 hw3 g1 g2 g3 (g4 ▸ d) (g5 ▸ e)).2.2
    rw [show outLoop p (n + 1) l = outStep p n (outLoop p n l) from rfl, outStep_out_eq] at hq
    rcases List.mem_append.1 hq with hq1 | hq2
    · exact ih l a b c d e h q hq1
    · obtain ⟨j, _, hj⟩ := List.mem_map.1 hq2
      rw [← hj, abs_mul]
      have habs : |(outStep p n (outLoop p n l)).z3| ≤ 1 :=
        abs_le.2 ⟨by have := hz3.1; linarith, hz3.2⟩
      calc |(outStep p n (outLoop p n l)).z3| * |p.dbuff j ((outLoop p n l).ri + n)|
          ≤ 1 * |p.dbuff j ((outLoop p n l).ri + n)| :=
            mul_le_mul_of_nonneg_right habs (abs_nonneg _)
        _ = |p.dbuff j ((outLoop p n l).ri + n)| := one_mul _
        _ ≤ B := hbuf j _

theorem spanFinish_bInv (B : ℚ) (n : ℕ) (pl2 : Peaklim × Loc)
    (henv : EnvInvL pl2) (hg0 : pl2.1.g0 = 1) (hg1 : pl2.1.g1 = 1) (hdg : pl2.1.dg = 0)
    (hbuf : ∀ j i, |pl2.1.dbuff j i| ≤ B) (hout : ∀ q ∈ pl2.2.out, |q| ≤ B) (hB : 0 ≤ B) :
    BInvL B (spanFinish n pl2) := by
  obtain ⟨h0, h1, h2, h3, h4, h5, h6, h7, h8, h9, h10⟩ := henv
  refine ⟨hB, spanFinish_env n pl2 ⟨h0, h1, h2, h3, h4, h5, h6, h7, h8, h9, h10⟩,
    hg0, hg1, hdg, hbuf, ?_⟩
  intro q hq
  rw [spanFinish_out] at hq
  exact outLoop_bound B pl2.1 h1 h2 h3 hbuf n pl2.2 h6 h7 h8 h9 h10 hout q hq

theorem doSpan_bInv (B : ℚ) (inp : ℕ → ℚ) (n : ℕ) (pl : Peaklim × Loc)
    (hinp : ∀ m, |inp m| ≤ B) (h : BInvL B pl) : BInvL B (doSpan inp n pl) := by
  obtain ⟨hB, henv, hg0, hg1, hdg, hbuf, hout⟩ := h
  have hsd := spanDetect_bound B pl.1 pl.2 inp n hg0 hdg hinp hbuf
  have henv1 : EnvInvL (spanDetect pl.1 pl.2 inp n) := henv
  have hout1 : ∀ q ∈ (spanDetect pl.1 pl.2 inp n).2.out, |q| ≤ B := by
    rw [spanDetect_snd_out]; exact hout
  rw [doSpan_eq]
  set pl1 := spanDetect pl.1 pl.2 inp n with hpl1
  by_cases hc : pl1.1.c1 - n = 0
  · rw [if_pos hc]
    have hbg := boundary_g { pl1.1 with c1 := pl1.1.c1 - n } pl1.2 hsd.2 hg1 hdg
    have hbb : ∀ j i, |(boundary { pl1.1 with c1 := pl1.1.c1 - n } pl1.2).1.dbuff j i| ≤ B := by
      rw [boundary_fst_dbuff]; exact hsd.1
    have hbo : ∀ q ∈ (boundary { pl1.1 with c1 := pl1.1.c1 - n } pl1.2).2.out, |q| ≤ B := by
      rw [boundary_snd_out]; exact hout1
    exact spanFinish_bInv B n _ (boundary_env _ _ henv1) hbg.1 hbg.2.1 hbg.2.2 hbb hbo hB
  · rw [if_neg hc]
    exact spanFinish_bInv B n _ henv1 hsd.2 hg1 hdg hsd.1 hout1 hB

theorem loopGo_bInv (B : ℚ) (inp : ℕ → ℚ) (hinp : ∀ m, |inp m| ≤ B) :
    ∀ fuel nframes pl, BInvL B pl → BInvL B (loopGo inp fuel nframes pl) := by
  intro fuel
  induction fuel with
  | zero => intro _ _ h; exact h
  | succ fuel ih =>
    intro nframes pl h
    simp only [loopGo]
    by_cases h0 : (if pl.1.c1 < nframes then pl.1.c1 else nframes) = 0
    · rw [if_pos h0]; exact h
    · rw [if_neg h0]
      exact ih _ _ (doSpan_bInv B inp _ pl hinp h)

theorem process_bInv (B : ℚ) (s : Peaklim) (h : BInv B s) (n : ℕ) (inp : ℕ → ℚ)
    (hinp : ∀ m, |inp m| ≤ B) :
    BInv B (s.process n inp).1 ∧ ∀ q ∈ (s.process n inp).2, |q| ≤ B := by
  obtain ⟨hB, henv, hg0, hg1, hdg, hbuf⟩ := h
  obtain ⟨e0, e1, e2, e3, e4, e5, e6, e7, e8⟩ := henv
  have hlg := loopGo_bInv B inp hinp n n
    ({ s with rstat := (if s.rstat then ((0 : ℚ), s.gmax, s.gmin, false) else (s.peak, s.gmin, s.gmax, s.rstat)).2.2.2 },
      { ri := s.delri, wi := (s.delri + s.delay) % s.dsize, k := 0,
        h1 := s.hist1.vmin, h2 := s.hist2.vmin, m1 := s.m1, m2 := s.m2,
        z1 := s.z1, z2 := s.z2, z3 := s.z3,
        pk := (if s.rstat then ((0 : ℚ), s.gmax, s.gmin, false) else (s.peak, s.gmin, s.gmax, s.rstat)).1,
        t0 := (if s.rstat then ((0 : ℚ), s.gmax, s.gmin, false) else (s.peak, s.gmin, s.gmax, s.rstat)).2.1,
        t1 := (if s.rstat then ((0 : ℚ), s.gmax, s.gmin, false) else (s.peak, s.gmin, s.gmax, s.rstat)).2.2.1,
        out := [] })
    ⟨hB, ⟨e0, e1, e2, e3, e4, e5, e6, e7, e8, e4.2, e5.2⟩, hg0, hg1, hdg, hbuf,
      fun q hq => absurd hq (List.not_mem_nil q)⟩
  obtain ⟨gB, genv, gg0, gg1, gdg, gbuf, gout⟩ := hlg
  obtain ⟨f0, f1, f2, f3, f4, f5, f6, f7, f8, f9, f10⟩ := genv
  exact ⟨⟨gB, ⟨f0, f1, f2, f3, f4, f5, f6, f7, f8⟩, gg0, gg1, gdg, gbuf⟩, gout⟩

theorem tp_fields (s : Peaklim) (b : Bool) :
    (s.set_truepeak b).g0 = s.g0 ∧ (s.set_truepeak b).g1 = s.g1 ∧
    (s.set_truepeak b).dg = s.dg ∧ (s.set_truepeak b).dbuff = s.dbuff := by
  unfold Peaklim.set_truepeak
  split_ifs <;> exact ⟨rfl, rfl, rfl, rfl⟩

theorem brun_bInv (B : ℚ) (s : Peaklim) (h : BRun B s) : BInv B s := by
  induction h with
  | init f c s0 hf hB =>
    refine ⟨hB, init_envInv f c s0 hf, rfl, rfl, rfl, ?_⟩
    intro j i
    show |(0:ℚ)| ≤ B
    rw [abs_zero]
    exact hB
  | threshold s0 v _ _ ih =>
    obtain ⟨hB, henv, hg0, hg1, hdg, hbuf⟩ := ih
    exact ⟨hB, (setters_envInv s0 v false henv).2.1, hg0, hg1, hdg, hbuf⟩
  | release s0 v _ ih =>
    obtain ⟨hB, henv, hg0, hg1, hdg, hbuf⟩ := ih
    exact ⟨hB, (setters_envInv s0 v false henv).2.2.1, hg0, hg1, hdg, hbuf⟩
  | tp s0 b _ ih =>
    obtain ⟨hB, henv, hg0, hg1, hdg, hbuf⟩ := ih
    obtain ⟨t1, t2, t3, t4⟩ := tp_fields s0 b
    exact ⟨hB, (setters_envInv s0 0 b henv).2.2.2, by rw [t1]; exact hg0,
      by rw [t2]; exact hg1, by rw [t3]; exact hdg, by rw [t4]; exact hbuf⟩
  | processStep s0 n inp _ hinp ih => exact (process_bInv B s0 ih n inp hinp).1

/-- Claim C1 (corrected).  For every run in which each `init` uses a
sample rate above `20000/3` Hz and the input gain is left at its default,
and for every `process` call whose input samples all have magnitude at
most `B`, every output sample the call writes — warm-up included — has
magnitude at most `B`.  In particular, when the input already respects
the threshold bound `10^(T/20)`, so does the output; the claimed
universal bound `10^(T/20)(1+ε)` with `ε ≤ 10⁻⁵` after the latency is
false (see the counterexample: the attack envelope is only exponentially
close to its target, and a large transient overshoots by far more). -/
theorem c1_bounded_output (B : ℚ) (s : Peaklim) (h : BRun B s) (n : ℕ) (inp : ℕ → ℚ)
    (hinp : ∀ m, |inp m| ≤ B) : ∀ q ∈ (s.process n inp).2, |q| ≤ B :=
  (process_bInv B s (brun_bInv B s h) n inp hinp).2

/-- Claim C1, witness: a constant full-scale input on the freshly
initialised engine at `fs = 48000`, one channel, four frames. -/
theorem c1_bounded_output_witness :
    BRun 1 (Peaklim.init 48000 1 Peaklim.new) ∧
    (∀ m : ℕ, |(fun _ : ℕ => (1:ℚ)) m| ≤ 1) ∧
    ∀ q ∈ ((Peaklim.init 48000 1 Peaklim.new).process 4 (fun _ => (1:ℚ))).2, |q| ≤ 1 :=
  ⟨BRun.init 48000 1 Peaklim.new (by norm_num) (by norm_num),
   fun m => by norm_num,
   c1_bounded_output 1 (Peaklim.init 48000 1 Peaklim.new)
     (BRun.init 48000 1 Peaklim.new (by norm_num) (by norm_num)) 4 (fun _ => 1)
     (fun m => by norm_num)⟩

theorem procCopy_c1 (p : Peaklim) (r : Bool) (dri : ℕ) (a1 a2 a3 a4 a5 a6 a7 a8 : ℚ) :
    (procCopy p r dri a1 a2 a3 a4 a5 a6 a7 a8).c1 = p.c1 := rfl

theorem procCopy_with_c1 (p : Peaklim) (r : Bool) (dri : ℕ) (a1 a2 a3 a4 a5 a6 a7 a8 : ℚ)
    (x : ℕ) :
    ({ procCopy p r dri a1 a2 a3 a4 a5 a6 a7 a8 with c1 := x } : Peaklim) =
      procCopy { p with c1 := x } r dri a1 a2 a3 a4 a5 a6 a7 a8 := rfl

theorem spanDetect_k (p : Peaklim) (l : Loc) (inp : ℕ → ℚ) (n : ℕ) :
    (spanDetect p l inp n).2.k = l.k := rfl

theorem spanDetect_wi (p : Peaklim) (l : Loc) (inp : ℕ → ℚ) (n : ℕ) :
    (spanDetect p l inp n).2.wi = l.wi := rfl

theorem boundary_k (p : Peaklim) (l : Loc) : (boundary p l).2.k = l.k := by
  by_cases h : p.c2 - 1 = 0 <;> simp [boundary, h]

theorem boundary_wi (p : Peaklim) (l : Loc) : (boundary p l).2.wi = l.wi := by
  by_cases h : p.c2 - 1 = 0 <;> simp [boundary, h]

theorem boundary_pres (p : Peaklim) (l : Loc) :
    (boundary p l).1.rstat = p.rstat ∧ (boundary p l).1.nchan = p.nchan := by
  by_cases h : p.c2 - 1 = 0 <;> simp [boundary, h]

/-- At a boundary the locals `h1`, `h2` stay equal to the cached minima
of the (possibly just rewritten) histories. -/
theorem boundary_hist (p : Peaklim) (l : Loc) (hh2 : l.h2 = p.hist2.vmin) :
    (boundary p l).2.h1 = (boundary p l).1.hist1.vmin ∧
    (boundary p l).2.h2 = (boundary p l).1.hist2.vmin := by
  simp only [boundary]
  by_cases h : p.c2 - 1 = 0
  · rw [if_pos h]
    exact ⟨rfl, rfl⟩
  · rw [if_neg h]
    exact ⟨rfl, hh2⟩

theorem outLoop_k (p : Peaklim) : ∀ n l, (outLoop p n l).k = l.k := by
  intro n
  induction n with
  | zero => intro l; rfl
  | succ n ih => intro l; exact ih l

theorem outLoop_h (p : Peaklim) : ∀ n l, (outLoop p n l).h1 = l.h1 ∧ (outLoop p n l).h2 = l.h2 := by
  intro n
  induction n with
  | zero => intro l; exact ⟨rfl, rfl⟩
  | succ n ih => intro l; exact ih l

theorem doSpan_k (inp : ℕ → ℚ) (n : ℕ) (pl : Peaklim × Loc) :
    (doSpan inp n pl).2.k = pl.2.k + n := by
  rw [doSpan_eq]
  by_cases hc : (spanDetect pl.1 pl.2 inp n).1.c1 - n = 0
  · rw [if_pos hc]
    show (outLoop _ n _).k + n = pl.2.k + n
    rw [outLoop_k, boundary_k, spanDetect_k]
  · rw [if_neg hc]
    show (outLoop _ n _).k + n = pl.2.k + n
    rw [outLoop_k]
    show (spanDetect pl.1 pl.2 inp n).2.k + n = pl.2.k + n
    rw [spanDetect_k]

theorem doSpan_wi (inp : ℕ → ℚ) (n : ℕ) (pl : Peaklim × Loc) :
    (doSpan inp n pl).2.wi = (pl.2.wi + n) % pl.1.dsize := by
  rw [doSpan_eq]
  by_cases hc : (spanDetect pl.1 pl.2 inp n).1.c1 - n = 0
  · rw [if_pos hc]
    show ((outLoop _ n _).wi + n) % _ = (pl.2.wi + n) % pl.1.dsize
    rw [(outLoop_idx _ n _).2, boundary_wi, spanDetect_wi, (boundary_fields _ _).2.1]
    rfl
  · rw [if_neg hc]
    show ((outLoop _ n _).wi + n) % _ = (pl.2.wi + n) % pl.1.dsize
    rw [(outLoop_idx _ n _).2]
    rfl

theorem doSpan_pres (inp : ℕ → ℚ) (n : ℕ) (pl : Peaklim × Loc) :
    (doSpan inp n pl).1.rstat = pl.1.rstat ∧ (doSpan inp n pl).1.nchan = pl.1.nchan := by
  rw [doSpan_eq]
  by_cases hc : (spanDetect pl.1 pl.2 inp n).1.c1 - n = 0
  · rw [if_pos hc]
    rw [spanFinish_fst]
    obtain ⟨hr, hn⟩ := boundary_pres { (spanDetect pl.1 pl.2 inp n).1 with c1 := (spanDetect pl.1 pl.2 inp n).1.c1 - n } (spanDetect pl.1 pl.2 inp n).2
    exact ⟨hr.trans rfl, hn.trans rfl⟩
  · rw [if_neg hc]
    rw [spanFinish_fst]
    exact ⟨rfl, rfl⟩

/-- The locals `h1`, `h2` track the cached history minima through a span. -/
theorem doSpan_hinv (inp : ℕ → ℚ) (n : ℕ) (pl : Peaklim × Loc)
    (h1 : pl.2.h1 = pl.1.hist1.vmin) (h2 : pl.2.h2 = pl.1.hist2.vmin) :
    (doSpan inp n pl).2.h1 = (doSpan inp n pl).1.hist1.vmin ∧
    (doSpan inp n pl).2.h2 = (doSpan inp n pl).1.hist2.vmin := by
  rw [doSpan_eq]
  by_cases hc : (spanDetect pl.1 pl.2 inp n).1.c1 - n = 0
  · rw [if_pos hc, spanFinish_fst]
    have hb := boundary_hist { (spanDetect pl.1 pl.2 inp n).1 with c1 := (spanDetect pl.1 pl.2 inp n).1.c1 - n } (spanDetect pl.1 pl.2 inp n).2 h2
    refine ⟨?_, ?_⟩
    · show (outLoop _ n _).h1 = _
      rw [(outLoop_h _ n _).1]
      exact hb.1
    · show (outLoop _ n _).h2 = _
      rw [(outLoop_h _ n _).2]
      exact hb.2
  · rw [if_neg hc, spanFinish_fst]
    refine ⟨?_, ?_⟩
    · show (outLoop _ n _).h1 = _
      rw [(outLoop_h _ n _).1]
      exact h1
    · show (outLoop _ n _).h2 = _
      rw [(outLoop_h _ n _).2]
      exact h2

theorem doSpan_cinv (inp : ℕ → ℚ) (n : ℕ) (pl : Peaklim × Loc)
    (h : CInv pl) (hnc : n ≤ pl.1.c1) : CInv (doSpan inp n pl) := by
  obtain ⟨hI, hW, hh1, hh2⟩ := h
  obtain ⟨hd1, hd2, hd3, hd4, hd5⟩ := doSpan_fields inp n pl
  refine ⟨doSpan_invL inp n pl hI hnc, ?_, (doSpan_hinv inp n pl hh1 hh2).1,
    (doSpan_hinv inp n pl hh1 hh2).2⟩
  rw [doSpan_wi, hd5, hd2, hd3, hW, Nat.mod_add_mod, Nat.mod_add_mod]
  have harg : pl.2.ri + n + pl.1.delay = pl.2.ri + pl.1.delay + n := by omega
  rw [harg]

theorem loopGo_cinv (inp : ℕ → ℚ) :
    ∀ fuel nframes pl, CInv pl → CInv (loopGo inp fuel nframes pl) := by
  intro fuel
  induction fuel with
  | zero => intro _ _ h; exact h
  | succ fuel ih =>
    intro nframes pl h
    simp only [loopGo]
    by_cases h0 : (if pl.1.c1 < nframes then pl.1.c1 else nframes) = 0
    · rw [if_pos h0]; exact h
    · rw [if_neg h0]
      set n := if pl.1.c1 < nframes then pl.1.c1 else nframes with hn
      have hnc : n ≤ pl.1.c1 := by
        rw [hn]
        by_cases hlt : pl.1.c1 < nframes
        · rw [if_pos hlt]
        · rw [if_neg hlt]; omega
      exact ih _ _ (doSpan_cinv inp n pl h hnc)

theorem loopGo_pres (inp : ℕ → ℚ) :
    ∀ fuel nframes pl, (loopGo inp fuel nframes pl).1.rstat = (pl : Peaklim × Loc).1.rstat ∧
      (loopGo inp fuel nframes pl).1.nchan = pl.1.nchan := by
  intro fuel
  induction fuel with
  | zero => intro _ _; exact ⟨rfl, rfl⟩
  | succ fuel ih =>
    intro nframes pl
    simp only [loopGo]
    by_cases h0 : (if pl.1.c1 < nframes then pl.1.c1 else nframes) = 0
    · rw [if_pos h0]; exact ⟨rfl, rfl⟩
    · rw [if_neg h0]
      obtain ⟨ha, hb⟩ := ih (nframes - (if pl.1.c1 < nframes then pl.1.c1 else nframes))
        (doSpan inp (if pl.1.c1 < nframes then pl.1.c1 else nframes) pl)
      obtain ⟨hc, hd⟩ := doSpan_pres inp (if pl.1.c1 < nframes then pl.1.c1 else nframes) pl
      exact ⟨ha.trans hc, hb.trans hd⟩

/-- With the countdown at least 1, a `process` call consumes exactly its
frame count: the local frame offset `k` grows by `nframes`. -/
theorem loopGo_consumed (inp : ℕ → ℚ) :
    ∀ fuel nframes pl, nframes ≤ fuel → InvL (pl : Peaklim × Loc).1 pl.2.ri →
      (loopGo inp fuel nframes pl).2.k = pl.2.k + nframes := by
  intro fuel
  induction fuel with
  | zero =>
    intro nframes pl hle _
    have : nframes = 0 := by omega
    rw [this]
    rfl
  | succ fuel ih =>
    intro nframes pl hle hI
    have hc1 : 1 ≤ pl.1.c1 := hI.1
    simp only [loopGo]
    set n := if pl.1.c1 < nframes then pl.1.c1 else nframes with hn
    have hnc : n ≤ pl.1.c1 := by
      rw [hn]
      by_cases hlt : pl.1.c1 < nframes
      · rw [if_pos hlt]
      · rw [if_neg hlt]; omega
    have hnn : n ≤ nframes := by
      rw [hn]
      by_cases hlt : pl.1.c1 < nframes
      · rw [if_pos hlt]; omega
      · rw [if_neg hlt]
    by_cases h0 : n = 0
    · rw [if_pos h0]
      have hz : nframes = 0 := by
        rw [hn] at h0
        by_cases hlt : pl.1.c1 < nframes
        · rw [if_pos hlt] at h0; omega
        · rw [if_neg hlt] at h0; omega
      omega
    · rw [if_neg h0]
      rw [ih (nframes - n) (doSpan inp n pl) (by omega) (doSpan_invL inp n pl hI hnc)]
      rw [doSpan_k]
      omega

theorem loopGo_zero_frames (inp : ℕ → ℚ) : ∀ fuel pl, loopGo inp fuel 0 pl = pl := by
  intro fuel pl
  cases fuel with
  | zero => rfl
  | succ f => rfl

/-- `loopGo` ignores extra fuel: with `c1 ≥ 1` every iteration consumes
at least one frame, so any fuel of at least `nframes` units gives the
same result. -/
theorem loopGo_fuel (inp : ℕ → ℚ) :
    ∀ nframes fuel1 fuel2 pl, nframes ≤ fuel1 → nframes ≤ fuel2 →
      InvL (pl : Peaklim × Loc).1 pl.2.ri →
      loopGo inp fuel1 nframes pl = loopGo inp fuel2 nframes pl := by
  intro nframes
  induction nframes using Nat.strong_induction_on with
  | _ nframes ih =>
    intro fuel1 fuel2 pl h1 h2 hI
    have hc1 : 1 ≤ pl.1.c1 := hI.1
    by_cases h0 : nframes = 0
    · subst h0
      rw [loopGo_zero_frames, loopGo_zero_frames]
    · have hn1 : 1 ≤ nframes := by omega
      obtain ⟨f1, rfl⟩ : ∃ f1, fuel1 = f1 + 1 := ⟨fuel1 - 1, by omega⟩
      obtain ⟨f2, rfl⟩ : ∃ f2, fuel2 = f2 + 1 := ⟨fuel2 - 1, by omega⟩
      simp only [loopGo]
      have hnz : ¬ (if pl.1.c1 < nframes then pl.1.c1 else nframes) = 0 := by
        by_cases hlt : pl.1.c1 < nframes
        · rw [if_pos hlt]; omega
        · rw [if_neg hlt]; omega
      rw [if_neg hnz, if_neg hnz]
      have hnc : (if pl.1.c1 < nframes then pl.1.c1 else nframes) ≤ pl.1.c1 := by
        by_cases hlt : pl.1.c1 < nframes
        · rw [if_pos hlt]
        · rw [if_neg hlt]; omega
      have hnn : (if pl.1.c1 < nframes then pl.1.c1 else nframes) ≤ nframes := by
        by_cases hlt : pl.1.c1 < nframes
        · rw [if_pos hlt]; omega
        · rw [if_neg hlt]
      exact ih (nframes - (if pl.1.c1 < nframes then pl.1.c1 else nframes)) (by omega)
        f1 f2 (doSpan inp (if pl.1.c1 < nframes then pl.1.c1 else nframes) pl)
        (by omega) (by omega)
        (doSpan_invL inp (if pl.1.c1 < nframes then pl.1.c1 else nframes) pl hI hnc)

/-- Unfolding one span of the canonical-fuel while-loop. -/
theorem loopGo_unfold (inp : ℕ → ℚ) (nframes : ℕ) (pl : Peaklim × Loc)
    (hI : InvL pl.1 pl.2.ri)
    (h0 : ¬ (if pl.1.c1 < nframes then pl.1.c1 else nframes) = 0) :
    loopGo inp nframes nframes pl =
      loopGo inp (nframes - (if pl.1.c1 < nframes then pl.1.c1 else nframes))
        (nframes - (if pl.1.c1 < nframes then pl.1.c1 else nframes))
        (doSpan inp (if pl.1.c1 < nframes then pl.1.c1 else nframes) pl) := by
  have hnc : (if pl.1.c1 < nframes then pl.1.c1 else nframes) ≤ pl.1.c1 := by
    by_cases hlt : pl.1.c1 < nframes
    · rw [if_pos hlt]
    · rw [if_neg hlt]; omega
  have hstep : loopGo inp (nframes + 1) nframes pl =
      loopGo inp nframes
        (nframes - (if pl.1.c1 < nframes then pl.1.c1 else nframes))
        (doSpan inp (if pl.1.c1 < nframes then pl.1.c1 else nframes) pl) := by
    simp only [loopGo]
    rw [if_neg h0]
  rw [loopGo_fuel inp nframes nframes (nframes + 1) pl le_rfl (by omega) hI, hstep,
    loopGo_fuel inp (nframes - (if pl.1.c1 < nframes then pl.1.c1 else nframes)) nframes
      (nframes - (if pl.1.c1 < nframes then pl.1.c1 else nframes))
      (doSpan inp (if pl.1.c1 < nframes then pl.1.c1 else nframes) pl) (by omega) le_rfl
      (doSpan_invL inp (if pl.1.c1 < nframes then pl.1.c1 else nframes) pl hI hnc)]

/-- The while-loop splits exactly at chunk-aligned points: consuming
`N1 = c1 + kc·div1` frames and then `N2` frames equals consuming
`N1 + N2` frames in one go. -/
theorem loopGo_split (inp : ℕ → ℚ) :
    ∀ kc N2 pl, InvL (pl : Peaklim × Loc).1 pl.2.ri →
      ∀ N1, N1 = 0 ∨ N1 = pl.1.c1 + kc * pl.1.div1 →
      loopGo inp (N1 + N2) (N1 + N2) pl = loopGo inp N2 N2 (loopGo inp N1 N1 pl) := by
  intro kc
  induction kc with
  | zero =>
    intro N2 pl hI N1 hal
    have hc1 : 1 ≤ pl.1.c1 := hI.1
    rcases hal with h | h
    · subst h
      rw [Nat.zero_add]
      rfl
    · have hN1 : N1 = pl.1.c1 := by omega
      rw [hN1]
      have hne : ¬ (if pl.1.c1 < pl.1.c1 + N2 then pl.1.c1 else pl.1.c1 + N2) = 0 := by
        by_cases hlt : pl.1.c1 < pl.1.c1 + N2
        · rw [if_pos hlt]; omega
        · rw [if_neg hlt]; omega
      have heq1 : (if pl.1.c1 < pl.1.c1 + N2 then pl.1.c1 else pl.1.c1 + N2) = pl.1.c1 := by
        by_cases hlt : pl.1.c1 < pl.1.c1 + N2
        · rw [if_pos hlt]
        · rw [if_neg hlt]; omega
      rw [loopGo_unfold inp (pl.1.c1 + N2) pl hI hne, heq1,
        show pl.1.c1 + N2 - pl.1.c1 = N2 from by omega]
      have hne2 : ¬ (if pl.1.c1 < pl.1.c1 then pl.1.c1 else pl.1.c1) = 0 := by
        rw [if_neg (lt_irrefl _)]; omega
      have heq2 : (if pl.1.c1 < pl.1.c1 then pl.1.c1 else pl.1.c1) = pl.1.c1 := by
        rw [if_neg (lt_irrefl _)]
      rw [loopGo_unfold inp pl.1.c1 pl hI hne2, heq2,
        show pl.1.c1 - pl.1.c1 = 0 from by omega]
      rfl
  | succ kc ih =>
    intro N2 pl hI N1 hal
    have hc1 : 1 ≤ pl.1.c1 := hI.1
    have hdiv1 : 0 < pl.1.div1 := hI.2.2.2.2.2.2.1
    rcases hal with h | h
    · subst h
      rw [Nat.zero_add]
      rfl
    · have hmul : 1 ≤ (kc + 1) * pl.1.div1 :=
        Nat.one_le_iff_ne_zero.2 (Nat.mul_ne_zero (by omega) (by omega))
      have hgt : pl.1.c1 < N1 := by omega
      have hne : ¬ (if pl.1.c1 < N1 + N2 then pl.1.c1 else N1 + N2) = 0 := by
        rw [if_pos (by omega)]; omega
      have heq1 : (if pl.1.c1 < N1 + N2 then pl.1.c1 else N1 + N2) = pl.1.c1 :=
        if_pos (by omega)
      rw [loopGo_unfold inp (N1 + N2) pl hI hne, heq1,
        show N1 + N2 - pl.1.c1 = (N1 - pl.1.c1) + N2 from by omega]
      have hne2 : ¬ (if pl.1.c1 < N1 then pl.1.c1 else N1) = 0 := by
        rw [if_pos hgt]; omega
      have heq2 : (if pl.1.c1 < N1 then pl.1.c1 else N1) = pl.1.c1 := if_pos hgt
      rw [loopGo_unfold inp N1 pl hI hne2, heq2]
      apply ih
      · exact doSpan_invL inp pl.1.c1 pl hI le_rfl
      · right
        obtain ⟨hd1, hd2, hd3, hd4, hd5⟩ := doSpan_fields inp pl.1.c1 pl
        rw [hd4, hd1, if_pos (show pl.1.c1 - pl.1.c1 = 0 from by omega)]
        have hmul2 : (kc + 1) * pl.1.div1 = pl.1.div1 + kc * pl.1.div1 := by ring
        omega

theorem detStep_shift (inp : ℕ → ℚ) (b : ℕ) (wlf dd : ℚ) (tp : Bool) (nc j k2 wi : ℕ)
    (i : ℕ) (c : ChanSt) :
    detStep wlf dd tp nc j k2 wi (shiftInp inp (b * nc)) i c =
      detStep wlf dd tp nc j (k2 + b) wi inp i c := by
  simp only [detStep, shiftInp]
  have harg : j + (i + k2) * nc + b * nc = j + (i + (k2 + b)) * nc := by ring
  rw [harg]

theorem detLoop_shift (inp : ℕ → ℚ) (b : ℕ) (wlf dd : ℚ) (tp : Bool) (nc j k2 wi : ℕ) :
    ∀ n c, detLoop wlf dd tp nc j k2 wi (shiftInp inp (b * nc)) n c =
      detLoop wlf dd tp nc j (k2 + b) wi inp n c := by
  intro n
  induction n with
  | zero => intro c; rfl
  | succ n ih =>
    intro c
    show detStep wlf dd tp nc j k2 wi (shiftInp inp (b * nc)) n
        (detLoop wlf dd tp nc j k2 wi (shiftInp inp (b * nc)) n c) = _
    rw [ih, detStep_shift]
    rfl

theorem chanLoop_shift (inp : ℕ → ℚ) (b : ℕ) (g0 dg wlf : ℚ) (tp : Bool) (nc n k2 wi : ℕ) :
    ∀ nch d, chanLoop g0 dg wlf tp nc (shiftInp inp (b * nc)) n k2 wi nch d =
      chanLoop g0 dg wlf tp nc inp n (k2 + b) wi nch d := by
  intro nch
  induction nch with
  | zero => intro d; rfl
  | succ m ih =>
    intro d
    show chanStep g0 dg wlf tp nc (shiftInp inp (b * nc)) n k2 wi m
        (chanLoop g0 dg wlf tp nc (shiftInp inp (b * nc)) n k2 wi m d) = _
    rw [ih]
    simp only [chanStep]
    rw [detLoop_shift]
    rfl

/-- The detection phase of a span is oblivious to the committed fields
and sees the shifted input at the shifted frame offset identically. -/
theorem spanDetect_sim (inp : ℕ → ℚ) (b : ℕ) (p : Peaklim) (l : Loc) (n : ℕ)
    (r : Bool) (dri : ℕ) (a1 a2 a3 a4 a5 a6 a7 a8 : ℚ) (k2 : ℕ) (o2 : List ℚ)
    (hk : l.k = k2 + b) :
    spanDetect (procCopy p r dri a1 a2 a3 a4 a5 a6 a7 a8) { l with k := k2, out := o2 }
      (shiftInp inp (b * p.nchan)) n =
    (procCopy (spanDetect p l inp n).1 r dri a1 a2 a3 a4 a5 a6 a7 a8,
     { (spanDetect p l inp n).2 with k := k2, out := o2 }) := by
  simp only [spanDetect, procCopy]
  rw [chanLoop_shift, ← hk]

theorem spanDetect_sim_fst (inp : ℕ → ℚ) (b : ℕ) (p : Peaklim) (l : Loc) (n : ℕ)
    (r : Bool) (dri : ℕ) (a1 a2 a3 a4 a5 a6 a7 a8 : ℚ) (k2 : ℕ) (o2 : List ℚ)
    (hk : l.k = k2 + b) :
    (spanDetect (procCopy p r dri a1 a2 a3 a4 a5 a6 a7 a8) { l with k := k2, out := o2 }
      (shiftInp inp (b * p.nchan)) n).1 =
    procCopy (spanDetect p l inp n).1 r dri a1 a2 a3 a4 a5 a6 a7 a8 :=
  (congrArg Prod.fst (spanDetect_sim inp b p l n r dri a1 a2 a3 a4 a5 a6 a7 a8 k2 o2 hk)).trans rfl

theorem spanDetect_sim_snd (inp : ℕ → ℚ) (b : ℕ) (p : Peaklim) (l : Loc) (n : ℕ)
    (r : Bool) (dri : ℕ) (a1 a2 a3 a4 a5 a6 a7 a8 : ℚ) (k2 : ℕ) (o2 : List ℚ)
    (hk : l.k = k2 + b) :
    (spanDetect (procCopy p r dri a1 a2 a3 a4 a5 a6 a7 a8) { l with k := k2, out := o2 }
      (shiftInp inp (b * p.nchan)) n).2 =
    { (spanDetect p l inp n).2 with k := k2, out := o2 } :=
  (congrArg Prod.snd (spanDetect_sim inp b p l n r dri a1 a2 a3 a4 a5 a6 a7 a8 k2 o2 hk)).trans rfl

theorem boundary_sim (p : Peaklim) (l : Loc) (r : Bool) (dri : ℕ) (a1 a2 a3 a4 a5 a6 a7 a8 : ℚ)
    (k2 : ℕ) (o2 : List ℚ) :
    boundary (procCopy p r dri a1 a2 a3 a4 a5 a6 a7 a8) { l with k := k2, out := o2 } =
    (procCopy (boundary p l).1 r dri a1 a2 a3 a4 a5 a6 a7 a8,
     { (boundary p l).2 with k := k2, out := o2 }) := by
  simp only [boundary, procCopy]
  by_cases hc : p.c2 - 1 = 0
  · rw [if_pos hc, if_pos hc]
  · rw [if_neg hc, if_neg hc]

theorem outStep_sim (p : Peaklim) (i : ℕ) (l : Loc) (r : Bool) (dri : ℕ)
    (a1 a2 a3 a4 a5 a6 a7 a8 : ℚ) (k2 : ℕ) (o2 : List ℚ) :
    outStep (procCopy p r dri a1 a2 a3 a4 a5 a6 a7 a8) i { l with k := k2, out := o2 } =
    { outStep p i l with k := k2, out := o2 ++ (List.range p.nchan).map (fun j => (outStep p i l).z3 * p.dbuff j (l.ri + i)) } := by
  simp only [outStep, procCopy]

theorem outLoop_sim (p : Peaklim) (r : Bool) (dri : ℕ) (a1 a2 a3 a4 a5 a6 a7 a8 : ℚ) :
    ∀ n l k2 o o2, l.out = o ++ o2 →
      ∃ o3, (outLoop p n l).out = o ++ o3 ∧
        outLoop (procCopy p r dri a1 a2 a3 a4 a5 a6 a7 a8) n { l with k := k2, out := o2 } =
          { outLoop p n l with k := k2, out := o3 } := by
  intro n
  induction n with
  | zero =>
    intro l k2 o o2 ho
    exact ⟨o2, ho, rfl⟩
  | succ n ih =>
    intro l k2 o o2 ho
    obtain ⟨o3, ho3, heq⟩ := ih l k2 o o2 ho
    refine ⟨o3 ++ (List.range p.nchan).map
      (fun j => (outStep p n (outLoop p n l)).z3 * p.dbuff j ((outLoop p n l).ri + n)), ?_, ?_⟩
    · show (outStep p n (outLoop p n l)).out = o ++ _
      rw [outStep_out_eq, ho3, List.append_assoc]
    · show outStep (procCopy p r dri a1 a2 a3 a4 a5 a6 a7 a8) n
        (outLoop (procCopy p r dri a1 a2 a3 a4 a5 a6 a7 a8) n { l with k := k2, out := o2 }) = _
      rw [heq, outStep_sim]
      rfl

theorem spanFinish_sim (n : ℕ) (p : Peaklim) (l : Loc) (r : Bool) (dri : ℕ)
    (a1 a2 a3 a4 a5 a6 a7 a8 : ℚ) (k2 : ℕ) (o o2 : List ℚ) (ho : l.out = o ++ o2) :
    ∃ o3, (spanFinish n (p, l)).2.out = o ++ o3 ∧
      spanFinish n (procCopy p r dri a1 a2 a3 a4 a5 a6 a7 a8, { l with k := k2, out := o2 }) =
        (procCopy p r dri a1 a2 a3 a4 a5 a6 a7 a8,
         { (spanFinish n (p, l)).2 with k := k2 + n, out := o3 }) := by
  obtain ⟨o3, ho3, heq⟩ := outLoop_sim p r dri a1 a2 a3 a4 a5 a6 a7 a8 n l k2 o o2 ho
  refine ⟨o3, ?_, ?_⟩
  · show (outLoop p n l).out = o ++ o3
    exact ho3
  · simp only [spanFinish]
    rw [heq]
    rfl

/-- One span of the second call of a split run simulates one span of the
tail of the combined run: same engine state up to the committed fields,
same new output samples, frame offset lagging by `b`. -/
theorem doSpan_sim (inp : ℕ → ℚ) (b n : ℕ) (p : Peaklim) (l : Loc) (r : Bool) (dri : ℕ)
    (a1 a2 a3 a4 a5 a6 a7 a8 : ℚ) (k2 : ℕ) (o o2 : List ℚ)
    (hk : l.k = k2 + b) (ho : l.out = o ++ o2) :
    ∃ kk o3, (doSpan inp n (p, l)).2.k = kk + b ∧ (doSpan inp n (p, l)).2.out = o ++ o3 ∧
      doSpan (shiftInp inp (b * p.nchan)) n
        (procCopy p r dri a1 a2 a3 a4 a5 a6 a7 a8, { l with k := k2, out := o2 }) =
      (procCopy (doSpan inp n (p, l)).1 r dri a1 a2 a3 a4 a5 a6 a7 a8,
       { (doSpan inp n (p, l)).2 with k := kk, out := o3 }) := by
  by_cases hc : (spanDetect p l inp n).1.c1 - n = 0
  · have hcomb : doSpan inp n (p, l) = spanFinish n
        (boundary { (spanDetect p l inp n).1 with c1 := (spanDetect p l inp n).1.c1 - n }
          (spanDetect p l inp n).2) := by
      rw [doSpan_eq, if_pos hc]
    have hbout : (boundary { (spanDetect p l inp n).1 with c1 := (spanDetect p l inp n).1.c1 - n }
        (spanDetect p l inp n).2).2.out = o ++ o2 := by
      rw [boundary_snd_out, spanDetect_snd_out]
      exact ho
    obtain ⟨o3, ho3, hsf⟩ := spanFinish_sim n
      (boundary { (spanDetect p l inp n).1 with c1 := (spanDetect p l inp n).1.c1 - n }
        (spanDetect p l inp n).2).1
      (boundary { (spanDetect p l inp n).1 with c1 := (spanDetect p l inp n).1.c1 - n }
        (spanDetect p l inp n).2).2
      r dri a1 a2 a3 a4 a5 a6 a7 a8 k2 o o2 hbout
    refine ⟨k2 + n, o3, ?_, ?_, ?_⟩
    · rw [hcomb]
      show (outLoop _ n _).k + n = k2 + n + b
      rw [outLoop_k, boundary_k, spanDetect_k, hk]
      omega
    · rw [hcomb]
      exact ho3
    · rw [doSpan_eq, spanDetect_sim_fst inp b p l n r dri a1 a2 a3 a4 a5 a6 a7 a8 k2 o2 hk,
        spanDetect_sim_snd inp b p l n r dri a1 a2 a3 a4 a5 a6 a7 a8 k2 o2 hk,
        procCopy_c1, if_pos hc, procCopy_with_c1, boundary_sim, hsf, hcomb]
      rfl
  · have hcomb : doSpan inp n (p, l) = spanFinish n
        ({ (spanDetect p l inp n).1 with c1 := (spanDetect p l inp n).1.c1 - n },
         (spanDetect p l inp n).2) := by
      rw [doSpan_eq, if_neg hc]
    have hsout : (spanDetect p l inp n).2.out = o ++ o2 := by
      rw [spanDetect_snd_out]
      exact ho
    obtain ⟨o3, ho3, hsf⟩ := spanFinish_sim n
      { (spanDetect p l inp n).1 with c1 := (spanDetect p l inp n).1.c1 - n }
      (spanDetect p l inp n).2 r dri a1 a2 a3 a4 a5 a6 a7 a8 k2 o o2 hsout
    refine ⟨k2 + n, o3, ?_, ?_, ?_⟩
    · rw [hcomb]
      show (outLoop _ n _).k + n = k2 + n + b
      rw [outLoop_k]
      show (spanDetect p l inp n).2.k + n = k2 + n + b
      rw [spanDetect_k, hk]
      omega
    · rw [hcomb]
      exact ho3
    · rw [doSpan_eq, spanDetect_sim_fst inp b p l n r dri a1 a2 a3 a4 a5 a6 a7 a8 k2 o2 hk,
        spanDetect_sim_snd inp b p l n r dri a1 a2 a3 a4 a5 a6 a7 a8 k2 o2 hk,
        procCopy_c1, if_neg hc, procCopy_with_c1, hsf, hcomb]
      rfl

/-- The whole while-loop of the second call of a split run simulates the
tail of the combined run. -/
theorem loopGo_sim (inp : ℕ → ℚ) (b : ℕ) (r : Bool) (dri : ℕ) (a1 a2 a3 a4 a5 a6 a7 a8 : ℚ) :
    ∀ fuel nframes p l k2 o o2, l.k = k2 + b → l.out = o ++ o2 →
      ∃ kk o3, (loopGo inp fuel nframes (p, l)).2.k = kk + b ∧
        (loopGo inp fuel nframes (p, l)).2.out = o ++ o3 ∧
        loopGo (shiftInp inp (b * p.nchan)) fuel nframes
          (procCopy p r dri a1 a2 a3 a4 a5 a6 a7 a8, { l with k := k2, out := o2 }) =
        (procCopy (loopGo inp fuel nframes (p, l)).1 r dri a1 a2 a3 a4 a5 a6 a7 a8,
         { (loopGo inp fuel nframes (p, l)).2 with k := kk, out := o3 }) := by
  intro fuel
  induction fuel with
  | zero =>
    intro nframes p l k2 o o2 hk ho
    exact ⟨k2, o2, hk, ho, rfl⟩
  | succ fuel ih =>
    intro nframes p l k2 o o2 hk ho
    by_cases h0 : (if p.c1 < nframes then p.c1 else nframes) = 0
    · have hstop1 : loopGo inp (fuel + 1) nframes (p, l) = (p, l) := by
        simp only [loopGo]
        rw [if_pos h0]
      have h0' : (if (procCopy p r dri a1 a2 a3 a4 a5 a6 a7 a8).c1 < nframes
          then (procCopy p r dri a1 a2 a3 a4 a5 a6 a7 a8).c1 else nframes) = 0 := by
        rw [procCopy_c1]; exact h0
      have hstop2 : loopGo (shiftInp inp (b * p.nchan)) (fuel + 1) nframes
          (procCopy p r dri a1 a2 a3 a4 a5 a6 a7 a8, { l with k := k2, out := o2 }) =
          (procCopy p r dri a1 a2 a3 a4 a5 a6 a7 a8, { l with k := k2, out := o2 }) := by
        simp only [loopGo]
        rw [if_pos h0']
      exact ⟨k2, o2, by rw [hstop1]; exact hk, by rw [hstop1]; exact ho,
        by rw [hstop1, hstop2]⟩
    · have hrec1 : loopGo inp (fuel + 1) nframes (p, l) =
          loopGo inp fuel (nframes - (if p.c1 < nframes then p.c1 else nframes))
            (doSpan inp (if p.c1 < nframes then p.c1 else nframes) (p, l)) := by
        simp only [loopGo]
        rw [if_neg h0]
      have hrec2 : loopGo (shiftInp inp (b * p.nchan)) (fuel + 1) nframes
          (procCopy p r dri a1 a2 a3 a4 a5 a6 a7 a8, { l with k := k2, out := o2 }) =
          loopGo (shiftInp inp (b * p.nchan)) fuel
            (nframes - (if p.c1 < nframes then p.c1 else nframes))
            (doSpan (shiftInp inp (b * p.nchan)) (if p.c1 < nframes then p.c1 else nframes)
              (procCopy p r dri a1 a2 a3 a4 a5 a6 a7 a8, { l with k := k2, out := o2 })) := by
        simp only [loopGo]
        rw [procCopy_c1, if_neg h0]
      obtain ⟨kk1, o31, hdk, hdo, hdeq⟩ := doSpan_sim inp b
        (if p.c1 < nframes then p.c1 else nframes) p l r dri a1 a2 a3 a4 a5 a6 a7 a8
        k2 o o2 hk ho
      obtain ⟨kk, o3, hk2, ho2, heq2⟩ := ih
        (nframes - (if p.c1 < nframes then p.c1 else nframes))
        (doSpan inp (if p.c1 < nframes then p.c1 else nframes) (p, l)).1
        (doSpan inp (if p.c1 < nframes then p.c1 else nframes) (p, l)).2
        kk1 o o31 hdk hdo
      have hnch : (doSpan inp (if p.c1 < nframes then p.c1 else nframes) (p, l)).1.nchan = p.nchan :=
        (doSpan_pres inp _ (p, l)).2
      rw [hnch] at heq2
      refine ⟨kk, o3, ?_, ?_, ?_⟩
      · rw [hrec1]; exact hk2
      · rw [hrec1]; exact ho2
      · rw [hrec1, hrec2, hdeq]
        exact heq2

/-- Peaklim::process is exactly: load the locals, run the while-loop,
commit. -/
theorem process_as_loopGo (t : Peaklim) (n : ℕ) (f : ℕ → ℚ) :
    t.process n f = commitOf (loopGo f n n ({ t with rstat := (stOf t).2.2.2 }, locOf t)) := rfl

theorem st222_false (t : Peaklim) : (stOf t).2.2.2 = false := by
  unfold stOf
  by_cases hr : t.rstat = true
  · rw [if_pos hr]
  · rw [if_neg hr]
    show t.rstat = false
    rcases Bool.eq_false_or_eq_true t.rstat with hb | hb
    · exact absurd hb hr
    · exact hb

theorem process_fst_rstat (t : Peaklim) (n : ℕ) (f : ℕ → ℚ) : (t.process n f).1.rstat = false :=
  (loopGo_pres f n n ({ t with rstat := (stOf t).2.2.2 }, locOf t)).1.trans (st222_false t)

/-- On a state whose reset flag is already clear, the loaded locals are
a plain reload of the committed fields. -/
theorem process_as_sim (t : Peaklim) (htr : t.rstat = false) (n : ℕ) (f : ℕ → ℚ) :
    t.process n f = commitOf (loopGo f n n
      ({ t with rstat := false },
       { ri := t.delri, wi := (t.delri + t.delay) % t.dsize, k := 0, h1 := t.hist1.vmin, h2 := t.hist2.vmin, m1 := t.m1, m2 := t.m2, z1 := t.z1, z2 := t.z2, z3 := t.z3, pk := t.peak, t0 := t.gmin, t1 := t.gmax, out := [] })) := by
  rw [process_as_loopGo]
  unfold locOf
  have hst : stOf t = (t.peak, t.gmin, t.gmax, false) := by
    unfold stOf
    rw [htr]
    rfl
  rw [hst]

/-- A zero-frame `process` call on a reset-clear state is the identity
and writes nothing. -/
theorem process_zero_eq (t : Peaklim) (htr : t.rstat = false) (f : ℕ → ℚ) :
    t.process 0 f = (t, []) := by
  rw [process_as_sim t htr 0 f]
  rw [← htr]
  rfl

/-- Committing after the loop ignores the copied-over fields: they are
all overwritten (or equal, for the cleared reset flag). -/
theorem commit_procCopy (pl : Peaklim × Loc) (kk : ℕ) (o3 : List ℚ) (dri : ℕ)
    (a1 a2 a3 a4 a5 a6 a7 a8 : ℚ) (hr : pl.1.rstat = false) :
    (commitOf (procCopy pl.1 false dri a1 a2 a3 a4 a5 a6 a7 a8,
      { pl.2 with k := kk, out := o3 })).1 = (commitOf pl).1 := by
  simp only [commitOf, procCopy]
  rw [hr]

/-- The chunk-aligned core of claim C3. -/
theorem c3_main (s : Peaklim) (hIB : InvB s) (N1 N2 : ℕ) (inp : ℕ → ℚ) (kc : ℕ)
    (hal : N1 = 0 ∨ N1 = s.c1 + kc * s.div1) :
    (s.process (N1 + N2) inp).1 =
      ((s.process N1 inp).1.process N2 (fun m => inp (m + N1 * s.nchan))).1 ∧
    (s.process (N1 + N2) inp).2 =
      (s.process N1 inp).2 ++ ((s.process N1 inp).1.process N2 (fun m => inp (m + N1 * s.nchan))).2 := by
  obtain ⟨a1, a2, a3, a4, a5, a6, a7, a8⟩ := hIB
  have hI0 : InvL ({ s with rstat := (stOf s).2.2.2 } : Peaklim) ((locOf s).ri) :=
    ⟨a1, a2, a3, a4, a5, a6, a7, a8⟩
  have hsplit := loopGo_split inp kc N2 ({ s with rstat := (stOf s).2.2.2 }, locOf s) hI0 N1 hal
  have hMr : (loopGo inp N1 N1 ({ s with rstat := (stOf s).2.2.2 }, locOf s)).1.rstat = false :=
    (loopGo_pres inp N1 N1 ({ s with rstat := (stOf s).2.2.2 }, locOf s)).1.trans (st222_false s)
  have hMn : (loopGo inp N1 N1 ({ s with rstat := (stOf s).2.2.2 }, locOf s)).1.nchan = s.nchan :=
    (loopGo_pres inp N1 N1 ({ s with rstat := (stOf s).2.2.2 }, locOf s)).2
  have hC : CInv (loopGo inp N1 N1 ({ s with rstat := (stOf s).2.2.2 }, locOf s)) :=
    loopGo_cinv inp N1 N1 ({ s with rstat := (stOf s).2.2.2 }, locOf s) ⟨hI0, rfl, rfl, rfl⟩
  have hMk : (loopGo inp N1 N1 ({ s with rstat := (stOf s).2.2.2 }, locOf s)).2.k = 0 + N1 := by
    rw [Nat.zero_add]
    exact (loopGo_consumed inp N1 N1 ({ s with rstat := (stOf s).2.2.2 }, locOf s) le_rfl hI0).trans
      (Nat.zero_add N1)
  have hr1 : (s.process N1 inp).1.rstat = false := process_fst_rstat s N1 inp
  obtain ⟨kk, o3, hkk, ho3, hsim⟩ := loopGo_sim inp N1 false
    (loopGo inp N1 N1 ({ s with rstat := (stOf s).2.2.2 }, locOf s)).2.ri (loopGo inp N1 N1 ({ s with rstat := (stOf s).2.2.2 }, locOf s)).2.m1 (loopGo inp N1 N1 ({ s with rstat := (stOf s).2.2.2 }, locOf s)).2.m2 (loopGo inp N1 N1 ({ s with rstat := (stOf s).2.2.2 }, locOf s)).2.z1 (loopGo inp N1 N1 ({ s with rstat := (stOf s).2.2.2 }, locOf s)).2.z2 (loopGo inp N1 N1 ({ s with rstat := (stOf s).2.2.2 }, locOf s)).2.z3 (loopGo inp N1 N1 ({ s with rstat := (stOf s).2.2.2 }, locOf s)).2.pk (loopGo inp N1 N1 ({ s with rstat := (stOf s).2.2.2 }, locOf s)).2.t0 (loopGo inp N1 N1 ({ s with rstat := (stOf s).2.2.2 }, locOf s)).2.t1
    N2 N2 (loopGo inp N1 N1 ({ s with rstat := (stOf s).2.2.2 }, locOf s)).1 (loopGo inp N1 N1 ({ s with rstat := (stOf s).2.2.2 }, locOf s)).2 0 (loopGo inp N1 N1 ({ s with rstat := (stOf s).2.2.2 }, locOf s)).2.out [] hMk (List.append_nil (loopGo inp N1 N1 ({ s with rstat := (stOf s).2.2.2 }, locOf s)).2.out).symm
  have hMeta : (((loopGo inp N1 N1 ({ s with rstat := (stOf s).2.2.2 }, locOf s)).1, (loopGo inp N1 N1 ({ s with rstat := (stOf s).2.2.2 }, locOf s)).2) : Peaklim × Loc) = loopGo inp N1 N1 ({ s with rstat := (stOf s).2.2.2 }, locOf s) := rfl
  rw [hMeta] at ho3 hsim
  have hG2r : (loopGo inp N2 N2 (loopGo inp N1 N1 ({ s with rstat := (stOf s).2.2.2 }, locOf s))).1.rstat = false :=
    (loopGo_pres inp N2 N2 (loopGo inp N1 N1 ({ s with rstat := (stOf s).2.2.2 }, locOf s))).1.trans hMr
  have hfun : (fun m => inp (m + N1 * s.nchan)) = shiftInp inp (N1 * (loopGo inp N1 N1 ({ s with rstat := (stOf s).2.2.2 }, locOf s)).1.nchan) := by
    rw [hMn]
    rfl
  rw [hfun]
  have hc2 := process_as_sim (s.process N1 inp).1 hr1 N2 (shiftInp inp (N1 * (loopGo inp N1 N1 ({ s with rstat := (stOf s).2.2.2 }, locOf s)).1.nchan))
  have e1 : ((s.process N1 inp).1.delri + (s.process N1 inp).1.delay) % (s.process N1 inp).1.dsize =
      (loopGo inp N1 N1 ({ s with rstat := (stOf s).2.2.2 }, locOf s)).2.wi := hC.2.1.symm
  have e2 : (s.process N1 inp).1.hist1.vmin = (loopGo inp N1 N1 ({ s with rstat := (stOf s).2.2.2 }, locOf s)).2.h1 := hC.2.2.1.symm
  have e3 : (s.process N1 inp).1.hist2.vmin = (loopGo inp N1 N1 ({ s with rstat := (stOf s).2.2.2 }, locOf s)).2.h2 := hC.2.2.2.symm
  rw [e1, e2, e3] at hc2
  have hfinal : (s.process N1 inp).1.process N2 (shiftInp inp (N1 * (loopGo inp N1 N1 ({ s with rstat := (stOf s).2.2.2 }, locOf s)).1.nchan)) =
      commitOf (loopGo (shiftInp inp (N1 * (loopGo inp N1 N1 ({ s with rstat := (stOf s).2.2.2 }, locOf s)).1.nchan)) N2 N2
        (procCopy (loopGo inp N1 N1 ({ s with rstat := (stOf s).2.2.2 }, locOf s)).1 false (loopGo inp N1 N1 ({ s with rstat := (stOf s).2.2.2 }, locOf s)).2.ri (loopGo inp N1 N1 ({ s with rstat := (stOf s).2.2.2 }, locOf s)).2.m1 (loopGo inp N1 N1 ({ s with rstat := (stOf s).2.2.2 }, locOf s)).2.m2 (loopGo inp N1 N1 ({ s with rstat := (stOf s).2.2.2 }, locOf s)).2.z1 (loopGo inp N1 N1 ({ s with rstat := (stOf s).2.2.2 }, locOf s)).2.z2 (loopGo inp N1 N1 ({ s with rstat := (stOf s).2.2.2 }, locOf s)).2.z3 (loopGo inp N1 N1 ({ s with rstat := (stOf s).2.2.2 }, locOf s)).2.pk (loopGo inp N1 N1 ({ s with rstat := (stOf s).2.2.2 }, locOf s)).2.t0 (loopGo inp N1 N1 ({ s with rstat := (stOf s).2.2.2 }, locOf s)).2.t1,
         { (loopGo inp N1 N1 ({ s with rstat := (stOf s).2.2.2 }, locOf s)).2 with k := 0, out := [] })) := hc2
  refine ⟨?_, ?_⟩
  · have hA1 : (s.process (N1 + N2) inp).1 = (commitOf (loopGo inp N2 N2 (loopGo inp N1 N1 ({ s with rstat := (stOf s).2.2.2 }, locOf s)))).1 := by
      rw [process_as_loopGo s (N1 + N2) inp, hsplit]
    have hA2 : ((s.process N1 inp).1.process N2 (shiftInp inp (N1 * (loopGo inp N1 N1 ({ s with rstat := (stOf s).2.2.2 }, locOf s)).1.nchan))).1 =
        (commitOf (loopGo inp N2 N2 (loopGo inp N1 N1 ({ s with rstat := (stOf s).2.2.2 }, locOf s)))).1 := by
      rw [hfinal, hsim]
      exact commit_procCopy (loopGo inp N2 N2 (loopGo inp N1 N1 ({ s with rstat := (stOf s).2.2.2 }, locOf s))) kk o3
        (loopGo inp N1 N1 ({ s with rstat := (stOf s).2.2.2 }, locOf s)).2.ri (loopGo inp N1 N1 ({ s with rstat := (stOf s).2.2.2 }, locOf s)).2.m1 (loopGo inp N1 N1 ({ s with rstat := (stOf s).2.2.2 }, locOf s)).2.m2 (loopGo inp N1 N1 ({ s with rstat := (stOf s).2.2.2 }, locOf s)).2.z1 (loopGo inp N1 N1 ({ s with rstat := (stOf s).2.2.2 }, locOf s)).2.z2 (loopGo inp N1 N1 ({ s with rstat := (stOf s).2.2.2 }, locOf s)).2.z3 (loopGo inp N1 N1 ({ s with rstat := (stOf s).2.2.2 }, locOf s)).2.pk (loopGo inp N1 N1 ({ s with rstat := (stOf s).2.2.2 }, locOf s)).2.t0 (loopGo inp N1 N1 ({ s with rstat := (stOf s).2.2.2 }, locOf s)).2.t1 hG2r
    exact hA1.trans hA2.symm
  · have hB1 : (s.process (N1 + N2) inp).2 = (loopGo inp N2 N2 (loopGo inp N1 N1 ({ s with rstat := (stOf s).2.2.2 }, locOf s))).2.out := by
      rw [process_as_loopGo s (N1 + N2) inp, hsplit]
      rfl
    have hB2 : (s.process N1 inp).2 = (loopGo inp N1 N1 ({ s with rstat := (stOf s).2.2.2 }, locOf s)).2.out := rfl
    have hB3 : ((s.process N1 inp).1.process N2 (shiftInp inp (N1 * (loopGo inp N1 N1 ({ s with rstat := (stOf s).2.2.2 }, locOf s)).1.nchan))).2 = o3 := by
      rw [hfinal, hsim]
      rfl
    rw [hB1, hB2, hB3]
    exact ho3

/-- Claim C3 (corrected).  Block-invariance holds exactly for splits
aligned to the coarse-chunk countdown: for every reachable engine state,
processing `N1 + N2` frames in one call gives the same final state and
the same concatenated output as processing `N1` frames and then `N2`
frames, whenever `N1 = 0`, or `N2 = 0`, or `c1 <= N1` and `div1`
divides `N1 - c1` (the split point falls on a coarse-chunk boundary).
The original unrestricted claim is refuted by `c3_counterexample`. -/
theorem c3_block_invariance (s : Peaklim) (h : Reach (fun _ => True) s)
    (N1 N2 : ℕ) (inp : ℕ → ℚ)
    (halign : N1 = 0 ∨ N2 = 0 ∨ (s.c1 ≤ N1 ∧ s.div1 ∣ N1 - s.c1)) :
    (s.process (N1 + N2) inp).1 =
      ((s.process N1 inp).1.process N2 (fun m => inp (m + N1 * s.nchan))).1 ∧
    (s.process (N1 + N2) inp).2 =
      (s.process N1 inp).2 ++ ((s.process N1 inp).1.process N2 (fun m => inp (m + N1 * s.nchan))).2 := by
  have hIB : InvB s := reach_invB s h
  rcases halign with hN1 | hN2 | ⟨hc, hd⟩
  · exact c3_main s hIB N1 N2 inp 0 (Or.inl hN1)
  · subst hN2
    rw [Nat.add_zero]
    have hz := process_zero_eq (s.process N1 inp).1 (process_fst_rstat s N1 inp)
      (fun m => inp (m + N1 * s.nchan))
    rw [hz]
    exact ⟨rfl, (List.append_nil _).symm⟩
  · obtain ⟨kc, hkc⟩ := hd
    refine c3_main s hIB N1 N2 inp kc (Or.inr ?_)
    calc N1 = s.c1 + (N1 - s.c1) := (Nat.add_sub_cancel' hc).symm
      _ = s.c1 + s.div1 * kc := by rw [hkc]
      _ = s.c1 + kc * s.div1 := by rw [Nat.mul_comm]

/-- Claim C3 (corrected), witness: at `fs = 8000`, one channel, the
fresh engine has `c1 = div1 = 8`, so the split `12 = 8 + 4` is aligned
and the two-call run reproduces the one-call run exactly. -/
theorem c3_block_invariance_witness :
    Reach (fun _ => True) (Peaklim.init 8000 1 Peaklim.new) ∧
    ((Peaklim.init 8000 1 Peaklim.new).c1 ≤ 8 ∧
      (Peaklim.init 8000 1 Peaklim.new).div1 ∣ 8 - (Peaklim.init 8000 1 Peaklim.new).c1) ∧
    (((Peaklim.init 8000 1 Peaklim.new).process (8 + 4) (fun _ => (1 : ℚ))).1 =
      (((Peaklim.init 8000 1 Peaklim.new).process 8 (fun _ => (1 : ℚ))).1.process 4
        (fun m => (fun _ => (1 : ℚ)) (m + 8 * (Peaklim.init 8000 1 Peaklim.new).nchan))).1 ∧
    ((Peaklim.init 8000 1 Peaklim.new).process (8 + 4) (fun _ => (1 : ℚ))).2 =
      ((Peaklim.init 8000 1 Peaklim.new).process 8 (fun _ => (1 : ℚ))).2 ++
        (((Peaklim.init 8000 1 Peaklim.new).process 8 (fun _ => (1 : ℚ))).1.process 4
          (fun m => (fun _ => (1 : ℚ)) (m + 8 * (Peaklim.init 8000 1 Peaklim.new).nchan))).2) :=
  ⟨Reach.init 8000 1 Peaklim.new trivial, ⟨by decide, by decide⟩,
   c3_block_invariance (Peaklim.init 8000 1 Peaklim.new)
     (Reach.init 8000 1 Peaklim.new trivial) 8 4 (fun _ => (1 : ℚ))
     (Or.inr (Or.inr ⟨by decide, by decide⟩))⟩

/-- Claim C9, witness: the freshly initialised engine at `fs = 8000`,
one channel. -/
theorem c9_silent_output_witness :
    ZeroRun (Peaklim.init 8000 1 Peaklim.new) ∧
    ((∀ j i, (Peaklim.init 8000 1 Peaklim.new).dbuff j i = 0) ∧
      ∀ n, ∀ q ∈ ((Peaklim.init 8000 1 Peaklim.new).process n (fun _ => 0)).2, q = 0) :=
  ⟨ZeroRun.init 8000 1 Peaklim.new,
   c9_silent_output (Peaklim.init 8000 1 Peaklim.new) (ZeroRun.init 8000 1 Peaklim.new)⟩

end SoundGambit
